import Mathlib

/-!
The delimited-text emitter of data.table, `fwrite.c`.

A shallow embedding of `src/fwrite.c`.  The C writers share one shape,
`void writer(const void *col, int64_t row, char **pch)`: they store bytes
through the cursor `*pch` and advance it.  The embedding keeps that shape:

* memory is a total map from addresses to bytes, the cursor is an address;
* every store goes through `Cur.store`, which also keeps a high-water mark
  of the addresses stored to (a ghost field used for capacity statements);
* the file-level globals of `fwrite.c` (`na`, `sep`, `doQuote`, ...) are the
  record `Globals`, passed explicitly;
* C strings are byte lists read up to the first NUL byte, the end of the
  list standing for the terminating NUL;
* machine integers are mathematical integers, with the range spelled out in
  the hypotheses where it matters; C division and remainder are
  `Int.tdiv` and `Int.tmod`.
-/

namespace Fwrite

/-! ## Bytes, memory and the cursor -/

/-- The value of `(char)v` seen as an unsigned byte. -/
def toByte (v : Int) : Nat := (v % 256).toNat

/-- The ASCII bytes of a string literal (used for readable test vectors). -/
def ascii (s : String) : List Nat := s.toList.map Char.toNat

def INT8_MIN : Int := -128
def INT32_MIN : Int := -2147483648
def INT32_MAX : Int := 2147483647
def INT64_MIN : Int := -9223372036854775808
def INT64_MAX : Int := 9223372036854775807

/-- The write cursor `char *ch` together with the memory it points into.
`top` is one past the highest address stored to so far. -/
structure Cur where
  mem : Int → Nat
  ch : Int
  top : Int

namespace Cur

/-- A zeroed memory with the cursor at address `a`. -/
def init (a : Int) : Cur := { mem := fun _ => 0, ch := a, top := a }

/-- The store `*(a) = b`. -/
def store (s : Cur) (a : Int) (b : Nat) : Cur :=
  { mem := fun i => if i = a then b else s.mem i, ch := s.ch, top := max s.top (a + 1) }

/-- The pointer move `ch += k`. -/
def move (s : Cur) (k : Int) : Cur := { mem := s.mem, ch := s.ch + k, top := s.top }

/-- The statement `*ch++ = b`. -/
def put (s : Cur) (b : Nat) : Cur := (s.store s.ch b).move 1

/-- The statement `*ch-- = b`. -/
def putBack (s : Cur) (b : Nat) : Cur := (s.store s.ch b).move (-1)

/-- The `n` bytes of memory starting at address `lo`. -/
def bytesAt (m : Int → Nat) (lo : Int) : Nat → List Nat
  | 0 => []
  | n + 1 => m lo :: bytesAt m (lo + 1) n

/-- The bytes between address `lo` and the cursor. -/
def out (lo : Int) (s : Cur) : List Nat := bytesAt s.mem lo (s.ch - lo).toNat

end Cur

/-- The function `f` appends exactly the bytes `l`: whatever the state before, the
bytes from any earlier address up to the cursor after `f` are those before `f`
followed by `l`.  So `f` advances the cursor by the length of `l`, the bytes it
leaves between the old and the new cursor are `l`, and the bytes below the old
cursor are as they were. -/
def Appends (f : Cur → Cur) (l : List Nat) : Prop :=
  ∀ (s : Cur) (lo : Int), lo ≤ s.ch → Cur.out lo (f s) = Cur.out lo s ++ l

/-! ## File-level globals -/

/-- The static variables of `fwrite.c` (lines 36-45). -/
structure Globals where
  na : List Nat
  sep : Nat
  sepLen : Int
  sep2 : Nat
  dec : Nat
  doQuote : Int
  qmethodEscape : Bool
  scipen : Int
  squashDateTime : Bool
  verbose : Bool

/-- The value of a C `bool` used as an integer. -/
def b2i (b : Bool) : Int := if b then 1 else 0

/-- The byte a `const char *` points at: the head of the list, NUL at its end. -/
def strHead : List Nat → Nat
  | [] => 0
  | c :: _ => c

/-- The bytes of a C string: those before the first NUL. -/
def cstr : List Nat → List Nat
  | [] => []
  | c :: t => if c = 0 then [] else c :: cstr t

/-- Function `write_chars` (lines 55-61): `while (*x) *ch++=*x++;`. -/
def write_chars : List Nat → Cur → Cur
  | [], s => s
  | c :: t, s => if c = 0 then s else write_chars t (s.put c)

/-! ## Doubles -/

/-- An IEEE-754 binary64 value by its three fields: the sign bit, the 11-bit biased
exponent and the 52-bit fraction (the `union { double d; uint64_t l; }` of line 203). -/
structure Double where
  sign : Bool
  exponent : Nat
  fraction : Nat
  deriving DecidableEq

namespace Double

/-- The C macro `isfinite(x)`. -/
def isfinite (x : Double) : Bool := decide (x.exponent ≠ 2047)

/-- The C macro `isnan(x)`. -/
def isnan (x : Double) : Bool := decide (x.exponent = 2047 ∧ x.fraction ≠ 0)

/-- The comparison `x == 0.0`, true of both zeros. -/
def isZero (x : Double) : Bool := decide (x.exponent = 0 ∧ x.fraction = 0)

/-- The comparison `x < 0`. -/
def isNeg (x : Double) : Bool := x.sign && !x.isnan && !x.isZero

end Double

/-- The floating-point computations of the writers.  Their results depend on IEEE-754
rounding and, for `sig`, on the tables `sigparts`, `expsig` and `exppow` of
`fwriteLookups.h`, which is not among the sources; they are taken as parameters. -/
structure FloatOps where
  /-- For a finite non-zero `|x|` with the given fraction and exponent fields: the
  16-digit integer `l = y * SIZE_SF` of line 232 and the decimal exponent `exp` after
  line 231. -/
  sig : Nat → Nat → Nat × Int
  /-- The value `floor(x)` converted to `int64_t` (line 421). -/
  floor : Double → Int
  /-- The value `(int)((x-xi)*10000000)` of line 422, `xi` being `floor(x)`. -/
  frac7 : Double → Int
  /-- The conversion `(int)(x)` of line 403. -/
  toInt : Double → Int

/-! ## Column cells -/

/-- A column handle `const void *col`: the same storage read through the cast a
writer applies to it.  `strings` and `categs` are the externs `getString` and
`getCategString`, `none` standing for the NULL they return for a missing cell. -/
structure Col where
  int8s : Int → Int := fun _ => 0
  int32s : Int → Int := fun _ => 0
  int64s : Int → Int := fun _ => 0
  doubles : Int → Double := fun _ => { sign := false, exponent := 0, fraction := 0 }
  strings : Int → Option (List Nat) := fun _ => none
  categs : Int → Option (List Nat) := fun _ => none

/-! ## Integer writers -/

/-- The swap loop of `reverse` (lines 97-107), after its leading `upp--`:
`while (upp>low) { swap; upp--; low++; }`. -/
def reverseLoop : Nat → Int → Int → Cur → Cur
  | 0, _, _, s => s
  | fuel + 1, upp, low, s =>
    if upp > low then
      let tmp := s.mem upp
      let s1 := s.store upp (s.mem low)
      let s2 := s1.store low tmp
      reverseLoop fuel (upp - 1) (low + 1) s2
    else s

/-- Function `reverse(upp, low)` (lines 97-107).  The loop runs at most `upp - low` times. -/
def reverse (upp low : Int) (s : Cur) : Cur :=
  reverseLoop (upp - low).toNat (upp - 1) low s

/-- The loop `do { *ch++ = '0'+x%10; x/=10; } while (x>0);` of lines 119 and 134.
The callers enter it with `fuel = x + 1`, more than the number of digits of `x`. -/
def digitLoop : Nat → Int → Cur → Cur
  | 0, _, s => s
  | fuel + 1, x, s =>
    let s1 := s.put (toByte (48 + x.tmod 10))
    let x1 := x.tdiv 10
    if x1 > 0 then digitLoop fuel x1 s1 else s1

/-- Function `writeInt32` (lines 109-123). -/
def writeInt32 (g : Globals) (col : Col) (row : Int) (s : Cur) : Cur :=
  let x := col.int32s row
  if x = INT32_MIN then write_chars g.na s
  else
    let s1 := if x < 0 then s.put 45 else s
    let x1 := if x < 0 then -x else x
    let low := s1.ch
    let s2 := digitLoop (x1.toNat + 1) x1 s1
    reverse s2.ch low s2

/-- Function `writeInt64` (lines 125-138). -/
def writeInt64 (g : Globals) (col : Col) (row : Int) (s : Cur) : Cur :=
  let x := col.int64s row
  if x = INT64_MIN then write_chars g.na s
  else
    let s1 := if x < 0 then s.put 45 else s
    let x1 := if x < 0 then -x else x
    let low := s1.ch
    let s2 := digitLoop (x1.toNat + 1) x1 s1
    reverse s2.ch low s2

/-! ## Date and time writers -/

/-- Function `write_time` (lines 319-341). -/
def write_time (g : Globals) (x : Int) (s : Cur) : Cur :=
  if x < 0 then write_chars g.na s
  else
    let hh := x.tdiv 3600
    let mm := (x - hh * 3600).tdiv 60
    let ss := x.tmod 60
    let s := s.put (toByte (48 + hh.tdiv 10))
    let s := s.put (toByte (48 + hh.tmod 10))
    let s := s.put 58
    let s := s.move (-(b2i g.squashDateTime))
    let s := s.put (toByte (48 + mm.tdiv 10))
    let s := s.put (toByte (48 + mm.tmod 10))
    let s := s.put 58
    let s := s.move (-(b2i g.squashDateTime))
    let s := s.put (toByte (48 + ss.tdiv 10))
    s.put (toByte (48 + ss.tmod 10))

/-- Function `writeITime` (lines 343-345). -/
def writeITime (g : Globals) (col : Col) (row : Int) (s : Cur) : Cur :=
  write_time g (col.int32s row) s

/-- Modelled from the spec: the table `monthday` of `fwriteLookups.h`, which is not
among the sources.  It has 366 entries of packed `mmdd`: entry 0 is 0229 and entries
1..365 are the consecutive days from 1 March to 28 February. -/
def monthdayTable : List Nat :=
  [229,
   301,302,303,304,305,306,307,308,309,310,311,312,313,314,315,316,317,318,319,320,321,322,323,324,325,326,327,328,329,330,331,
   401,402,403,404,405,406,407,408,409,410,411,412,413,414,415,416,417,418,419,420,421,422,423,424,425,426,427,428,429,430,
   501,502,503,504,505,506,507,508,509,510,511,512,513,514,515,516,517,518,519,520,521,522,523,524,525,526,527,528,529,530,531,
   601,602,603,604,605,606,607,608,609,610,611,612,613,614,615,616,617,618,619,620,621,622,623,624,625,626,627,628,629,630,
   701,702,703,704,705,706,707,708,709,710,711,712,713,714,715,716,717,718,719,720,721,722,723,724,725,726,727,728,729,730,731,
   801,802,803,804,805,806,807,808,809,810,811,812,813,814,815,816,817,818,819,820,821,822,823,824,825,826,827,828,829,830,831,
   901,902,903,904,905,906,907,908,909,910,911,912,913,914,915,916,917,918,919,920,921,922,923,924,925,926,927,928,929,930,
   1001,1002,1003,1004,1005,1006,1007,1008,1009,1010,1011,1012,1013,1014,1015,1016,1017,1018,1019,1020,1021,1022,1023,1024,1025,1026,1027,1028,1029,1030,1031,
   1101,1102,1103,1104,1105,1106,1107,1108,1109,1110,1111,1112,1113,1114,1115,1116,1117,1118,1119,1120,1121,1122,1123,1124,1125,1126,1127,1128,1129,1130,
   1201,1202,1203,1204,1205,1206,1207,1208,1209,1210,1211,1212,1213,1214,1215,1216,1217,1218,1219,1220,1221,1222,1223,1224,1225,1226,1227,1228,1229,1230,1231,
   101,102,103,104,105,106,107,108,109,110,111,112,113,114,115,116,117,118,119,120,121,122,123,124,125,126,127,128,129,130,131,
   201,202,203,204,205,206,207,208,209,210,211,212,213,214,215,216,217,218,219,220,221,222,223,224,225,226,227,228]

/-- The lookup `monthday[z]`. -/
def monthday (z : Int) : Int :=
  if 0 ≤ z then (monthdayTable.getD z.toNat 0 : Nat) else 0

/-- Function `write_date` (lines 347-395). -/
def write_date (g : Globals) (x : Int) (s : Cur) : Cur :=
  if x < -719468 ∨ x > 2932896 then write_chars g.na s
  else
    let x := x + 719468
    let y := (x - x.tdiv 1461 + x.tdiv 36525 - x.tdiv 146097).tdiv 365
    let z := x - y * 365 - y.tdiv 4 + y.tdiv 100 - y.tdiv 400 + 1
    let md := monthday z
    let y := y + b2i (decide (z ≠ 0) && decide (md.tdiv 100 < 3))
    let s := s.move (7 + 2 * b2i (!g.squashDateTime))
    let s := s.putBack (toByte (48 + md.tmod 10))
    let md := md.tdiv 10
    let s := s.putBack (toByte (48 + md.tmod 10))
    let md := md.tdiv 10
    let s := s.putBack 45
    let s := s.move (b2i g.squashDateTime)
    let s := s.putBack (toByte (48 + md.tmod 10))
    let md := md.tdiv 10
    let s := s.putBack (toByte (48 + md.tmod 10))
    let s := s.putBack 45
    let s := s.move (b2i g.squashDateTime)
    let s := s.putBack (toByte (48 + y.tmod 10))
    let y := y.tdiv 10
    let s := s.putBack (toByte (48 + y.tmod 10))
    let y := y.tdiv 10
    let s := s.putBack (toByte (48 + y.tmod 10))
    let y := y.tdiv 10
    let s := s.store s.ch (toByte (48 + y.tmod 10))
    s.move (8 + 2 * b2i (!g.squashDateTime))

/-- Function `writeDateInt32` (lines 397-399). -/
def writeDateInt32 (g : Globals) (col : Col) (row : Int) (s : Cur) : Cur :=
  write_date g (col.int32s row) s

/-! ## String writers -/

/-- The speculative copy of `write_string` (line 517):
`while (*tt!='\0' && *tt!=sep && *tt!=sep2 && *tt!='\n' && *tt!='\r' && *tt!='"') *ch++ = *tt++;`.
Returns what is left at `tt` and the cursor. -/
def copyPlain (g : Globals) : List Nat → Cur → List Nat × Cur
  | [], s => ([], s)
  | c :: t, s =>
    if c ≠ 0 ∧ c ≠ g.sep ∧ c ≠ g.sep2 ∧ c ≠ 10 ∧ c ≠ 13 ∧ c ≠ 34 then copyPlain g t (s.put c)
    else (c :: t, s)

/-- The loop of lines 534-537:
`while (*tt!='\0') { if (*tt=='"' || *tt=='\\') *ch++ = '\\'; *ch++ = *tt++; }`. -/
def copyEscape : List Nat → Cur → Cur
  | [], s => s
  | c :: t, s =>
    if c = 0 then s
    else
      let s1 := if c = 34 ∨ c = 92 then s.put 92 else s
      copyEscape t (s1.put c)

/-- The loop of lines 540-543:
`while (*tt!='\0') { if (*tt=='"') *ch++ = '"'; *ch++ = *tt++; }`. -/
def copyDouble : List Nat → Cur → Cur
  | [], s => s
  | c :: t, s =>
    if c = 0 then s
    else
      let s1 := if c = 34 then s.put 34 else s
      copyDouble t (s1.put c)

/-- Lines 528-546 of `write_string`: the field is written with quote flag `q`. -/
def writeQuoted (g : Globals) (q : Int) (x : List Nat) (s : Cur) : Cur :=
  if q = 0 then write_chars x s
  else
    let s := s.put 34
    let s := if g.qmethodEscape then copyEscape x s else copyDouble x s
    s.put 34

/-- Function `write_string` (lines 501-549); `none` is the NULL pointer of a missing cell. -/
def write_string (g : Globals) (x : Option (List Nat)) (s : Cur) : Cur :=
  match x with
  | none => write_chars g.na s
  | some x =>
    let q := g.doQuote
    if q = INT8_MIN then
      if strHead x = 0 then (s.put 34).put 34
      else
        let r := copyPlain g x s
        if strHead r.1 = 0 then r.2
        else writeQuoted g 1 x { mem := r.2.mem, ch := s.ch, top := r.2.top }
    else writeQuoted g q x s

/-- Function `writeString` (lines 551-554). -/
def writeString (g : Globals) (col : Col) (row : Int) (s : Cur) : Cur :=
  write_string g (col.strings row) s

/-- Function `writeCategString` (lines 556-559). -/
def writeCategString (g : Globals) (col : Col) (row : Int) (s : Cur) : Cur :=
  write_string g (col.categs row) s

/-! ## fwriteMain -/

/-- Modelled from the spec: the dense enum of writer tags of `fwrite.h`, which is not
among the sources (spec section 6, writer tag table). -/
inductive WriterTag where
  | WF_Bool8 | WF_Bool32 | WF_Bool32AsString | WF_Int32 | WF_Int64 | WF_Float64
  | WF_Complex | WF_ITime | WF_DateInt32 | WF_DateFloat64 | WF_POSIXct | WF_Nanotime
  | WF_String | WF_CategString | WF_List
  deriving DecidableEq, Repr

open WriterTag

/-- A writer `void (*)(const void *col, int64_t row, char **pch)`, the globals it reads
made explicit. -/
abbrev Writer := Globals → Col → Int → Cur → Cur

/-- The fields of `fwriteMainArgs` (declared in `fwrite.h`) that `fwriteMain` reads. -/
structure fwriteMainArgs where
  filename : List Nat
  columns : Nat → Col
  funs : WriterTag → Writer
  whichFun : Nat → WriterTag
  colNames : Option Col
  doRowNames : Bool
  rowNames : Option Col
  rowNameFun : WriterTag
  nrow : Int
  ncol : Nat
  sep : Nat
  sep2 : Nat
  dec : Nat
  eol : List Nat
  na : List Nat
  doQuote : Int
  qmethodEscape : Bool
  scipen : Int
  squashDateTime : Bool
  append : Bool
  buffMB : Int
  nth : Int
  showProgress : Bool
  is_gzip : Bool
  bom : Bool
  yaml : List Nat
  verbose : Bool

/-- The globals as `fwriteMain` sets them before any byte is written (lines 591-609),
with the promotion of quote mode auto to on when the NA token is not empty (line 606). -/
def fwriteMainGlobals (args : fwriteMainArgs) : Globals :=
  { na := args.na
    sep := args.sep
    sepLen := if args.sep = 0 then 0 else 1
    sep2 := args.sep2
    dec := args.dec
    scipen := args.scipen
    doQuote := if strHead args.na ≠ 0 ∧ args.doQuote = INT8_MIN then 1 else args.doQuote
    qmethodEscape := args.qmethodEscape
    squashDateTime := args.squashDateTime
    verbose := args.verbose }

/-- The statements `*ch = sep; ch += sepLen;` (lines 914-915, 920-921). -/
def putSep (g : Globals) (s : Cur) : Cur := (s.store s.ch g.sep).move g.sepLen

/-- The row-name field of a row (lines 904-913), before its separator. -/
def writeRowName (g : Globals) (args : fwriteMainArgs) (i : Int) (s : Cur) : Cur :=
  match args.rowNames with
  | none =>
    let s := if g.doQuote = 1 then s.put 34 else s
    let rn := i + 1
    let s := writeInt64 g { int64s := fun _ => rn } 0 s
    if g.doQuote = 1 then s.put 34 else s
  | some rowNames =>
    let s := if args.rowNameFun ≠ WF_String ∧ g.doQuote = 1 then s.put 34 else s
    let s := args.funs args.rowNameFun g rowNames i s
    if args.rowNameFun ≠ WF_String ∧ g.doQuote = 1 then s.put 34 else s

/-- The hot loop `for (int j=0; j<args.ncol; j++)` (lines 918-922), entered with
`n = ncol - j` columns left. -/
def writeCells (g : Globals) (args : fwriteMainArgs) (i : Int) : Nat → Nat → Cur → Cur
  | 0, _, s => s
  | n + 1, j, s =>
    let s := args.funs (args.whichFun j) g (args.columns j) i s
    let s := putSep g s
    writeCells g args i n (j + 1) s

/-- One iteration of the row loop (lines 901-926): row `i`. -/
def writeRow (g : Globals) (args : fwriteMainArgs) (i : Int) (s : Cur) : Cur :=
  let s := if args.doRowNames then putSep g (writeRowName g args i s) else s
  let s := writeCells g args i args.ncol 0 s
  let s := s.move (-g.sepLen)
  write_chars args.eol s

/-- The chunk loop `for (int64_t i=start; i<end; i++)` (line 901), entered with
`n = end - i` rows left. -/
def writeRowsFrom (g : Globals) (args : fwriteMainArgs) : Nat → Int → Cur → Cur
  | 0, _, s => s
  | n + 1, i, s => writeRowsFrom g args n (i + 1) (writeRow g args i s)

/-- The rows `start..end-1` of one batch, as the row loop formats them. -/
def writeRows (g : Globals) (args : fwriteMainArgs) (start stop : Int) (s : Cur) : Cur :=
  writeRowsFrom g args (stop - start).toNat start s

/-! ## Reference notions the claims are stated against -/

/-- Least-significant-first decimal digit bytes of a natural number, `"0"` for 0. -/
def lsdDigits (n : Nat) : List Nat :=
  if n = 0 then [48] else (Nat.digits 10 n).map (fun d => 48 + d)

/-- The canonical decimal numeral of a natural number: most significant digit
first, no leading zero, `"0"` for 0. -/
def decimalNat (n : Nat) : List Nat := (lsdDigits n).reverse

/-- The canonical signed decimal numeral of an integer. -/
def decimal (x : Int) : List Nat :=
  if x < 0 then 45 :: decimalNat x.natAbs else decimalNat x.natAbs

/-- Reads an unsigned decimal numeral: every byte must be a digit. -/
def parseNatFrom : Nat → List Nat → Option Nat
  | acc, [] => some acc
  | acc, c :: t => if 48 ≤ c ∧ c ≤ 57 then parseNatFrom (10 * acc + (c - 48)) t else none

/-- Reads a signed decimal numeral: an optional `-`, then one digit or more. -/
def parseDecimal : List Nat → Option Int
  | [] => none
  | c :: t =>
    if c = 45 then
      match t with
      | [] => none
      | _ :: _ => Option.map (fun n : Nat => -(n : Int)) (parseNatFrom 0 t)
    else Option.map (fun n : Nat => (n : Int)) (parseNatFrom 0 (c :: t))

/-- The text `esc(x)` of qmethod double: every `"` is doubled. -/
def escDouble : List Nat → List Nat
  | [] => []
  | c :: t => if c = 34 then 34 :: 34 :: escDouble t else c :: escDouble t

/-- The text `esc(x)` of qmethod backslash: a `\` goes before every `"` and `\`. -/
def escBackslash : List Nat → List Nat
  | [] => []
  | c :: t => if c = 34 ∨ c = 92 then 92 :: c :: escBackslash t else c :: escBackslash t

/-- The escaping selected by `qmethodEscape`. -/
def esc (g : Globals) (x : List Nat) : List Nat :=
  if g.qmethodEscape then escBackslash x else escDouble x

/-- The inverse of `escDouble`: a doubled `"` reads as one. -/
def unescDouble : List Nat → List Nat
  | [] => []
  | [c] => [c]
  | c :: d :: t => if c = 34 ∧ d = 34 then 34 :: unescDouble t else c :: unescDouble (d :: t)

/-- The inverse of `escBackslash`: a `\` makes the next byte literal. -/
def unescBackslash : List Nat → List Nat
  | [] => []
  | [c] => [c]
  | c :: d :: t => if c = 92 then d :: unescBackslash t else c :: unescBackslash (d :: t)

/-- The field `"esc(x)"`. -/
def quoted (g : Globals) (x : List Nat) : List Nat := 34 :: (esc g x ++ [34])

/-- A string needs quotes in mode auto: it is empty or holds `sep`, `sep2`, `\n`, `\r` or `"`. -/
def needsQuote (g : Globals) (x : List Nat) : Prop :=
  x = [] ∨ ∃ c ∈ x, c = g.sep ∨ c = g.sep2 ∨ c = 10 ∨ c = 13 ∨ c = 34

/-- A byte string without NUL byte. -/
def NulFree (x : List Nat) : Prop := ∀ c ∈ x, c ≠ 0

/-- The separator as it appears in the output: nothing when `sep` is the NUL byte. -/
def sepBytes (sep : Nat) : List Nat := if sep = 0 then [] else [sep]

/-- The ASCII digit of `n mod 10`. -/
def digit (n : Int) : Nat := 48 + (n % 10).toNat

/-- Two decimal digits, zero padded. -/
def digits2 (n : Int) : List Nat := [digit (n / 10), digit n]

/-- Four decimal digits, zero padded. -/
def digits4 (n : Int) : List Nat := [digit (n / 1000), digit (n / 100), digit (n / 10), digit n]

/-- The text `YYYY-MM-DD`, or `YYYYMMDD` when squashed. -/
def dateText (squash : Bool) (y m d : Int) : List Nat :=
  digits4 y ++ (if squash then [] else [45]) ++ digits2 m ++ (if squash then [] else [45])
    ++ digits2 d

/-- The text `HH:MM:SS`, or `HHMMSS` when squashed. -/
def timeText (squash : Bool) (hh mm ss : Int) : List Nat :=
  digits2 hh ++ (if squash then [] else [58]) ++ digits2 mm ++ (if squash then [] else [58])
    ++ digits2 ss

/-- Leap years of the proleptic Gregorian calendar. -/
def isLeap (y : Int) : Prop := y % 4 = 0 ∧ (y % 100 ≠ 0 ∨ y % 400 = 0)

instance (y : Int) : Decidable (isLeap y) := by unfold isLeap; infer_instance

/-- The length of month `m` in year `y`. -/
def daysInMonth (y m : Int) : Int :=
  if m = 2 then (if isLeap y then 29 else 28)
  else if m = 4 ∨ m = 6 ∨ m = 9 ∨ m = 11 then 30 else 31

/-- A date of the proleptic Gregorian calendar. -/
def validDate (y m d : Int) : Prop := 1 ≤ m ∧ m ≤ 12 ∧ 1 ≤ d ∧ d ≤ daysInMonth y m

/-- The standard days-from-civil computation (Hinnant): the number of days from
1970-01-01 to the date `y-m-d`. -/
def days_from_civil (y m d : Int) : Int :=
  let y := if m ≤ 2 then y - 1 else y
  let era := y / 400
  let yoe := y - era * 400
  let doy := (153 * (if m > 2 then m - 3 else m + 9) + 2) / 5 + d - 1
  let doe := yoe * 365 + yoe / 4 - yoe / 100 + doy
  era * 146097 + doe - 719468

/-- The row-name field as text: the row number `i+1` when there are no row names,
else the output `rnCell` of the row-name writer; quoted as lines 905-912 say. -/
def rowNameText (g : Globals) (args : fwriteMainArgs) (i : Int) (rnCell : List Nat) : List Nat :=
  match args.rowNames with
  | none =>
    (if g.doQuote = 1 then [34] else []) ++ decimal (i + 1) ++ (if g.doQuote = 1 then [34] else [])
  | some _ =>
    (if args.rowNameFun ≠ WF_String ∧ g.doQuote = 1 then [34] else []) ++ rnCell
      ++ (if args.rowNameFun ≠ WF_String ∧ g.doQuote = 1 then [34] else [])

instance (g : Globals) (x : List Nat) : Decidable (needsQuote g x) := by
  unfold needsQuote; infer_instance

instance (x : List Nat) : Decidable (NulFree x) := by
  unfold NulFree; infer_instance

/-- A byte the speculative copy of mode auto copies: none of NUL, `sep`, `sep2`,
`\n`, `\r`, `"`. -/
def isPlain (g : Globals) (c : Nat) : Bool :=
  decide (c ≠ 0 ∧ c ≠ g.sep ∧ c ≠ g.sep2 ∧ c ≠ 10 ∧ c ≠ 13 ∧ c ≠ 34)

/-! ## Values the date and time writers compute -/

/-- The hour, minute and second fields `write_time` computes (lines 326-328). -/
def timeFields (x : Int) : Int × Int × Int :=
  (x.tdiv 3600, (x - x.tdiv 3600 * 3600).tdiv 60, x.tmod 60)

/-- The year `y` of the preceding 1 March that `write_date` computes (line 374), for
the rebased day `x` (days from 0000-03-01). -/
def marchYear (x : Int) : Int := (x - x.tdiv 1461 + x.tdiv 36525 - x.tdiv 146097).tdiv 365

/-- The index `z` into `monthday` that `write_date` computes (line 375). -/
def marchDay (x : Int) : Int :=
  x - marchYear x * 365 - (marchYear x).tdiv 4 + (marchYear x).tdiv 100
    - (marchYear x).tdiv 400 + 1

/-- The packed month and day `md` of `write_date` (line 376), `x` in days from 1970-01-01. -/
def dateMD (x : Int) : Int := monthday (marchDay (x + 719468))

/-- The civil year `y` of `write_date` after line 377, `x` in days from 1970-01-01. -/
def dateYear (x : Int) : Int :=
  marchYear (x + 719468)
    + b2i (decide (marchDay (x + 719468) ≠ 0) && decide ((dateMD x).tdiv 100 < 3))

/-- The bytes `write_date` stores for the year `y` and the packed `md` (lines 379-392). -/
def dateBytes (squash : Bool) (y md : Int) : List Nat :=
  [toByte (48 + (((y.tdiv 10).tdiv 10).tdiv 10).tmod 10),
   toByte (48 + ((y.tdiv 10).tdiv 10).tmod 10),
   toByte (48 + (y.tdiv 10).tmod 10),
   toByte (48 + y.tmod 10)]
  ++ (if squash then [] else [45])
  ++ [toByte (48 + (((md.tdiv 10).tdiv 10).tdiv 10).tmod 10),
      toByte (48 + ((md.tdiv 10).tdiv 10).tmod 10)]
  ++ (if squash then [] else [45])
  ++ [toByte (48 + (md.tdiv 10).tmod 10), toByte (48 + md.tmod 10)]

/-! ## Checks behind the date arithmetic -/

/-- The numerator of line 374 on naturals: `x - x/1461 + x/36525 - x/146097`. -/
def marchN (x : Nat) : Nat := x - x / 1461 + x / 36525 - x / 146097

/-- The days from 0000-03-01 to 1 March of year `y`. -/
def daysBefore (y : Nat) : Nat := 365 * y + y / 4 - y / 100 + y / 400

/-- One for a leap year, else zero. -/
def leapN (y : Nat) : Nat := if y % 4 = 0 ∧ (y % 100 ≠ 0 ∨ y % 400 = 0) then 1 else 0

/-- The quotient of line 374 steps from `y - 1` to `y` exactly at the first day that
belongs to year `y` (29 February of `y` when `y` is a leap year, else 1 March). -/
def jumpOK (y : Nat) : Bool :=
  y == 0 || (decide (marchN (daysBefore y - leapN y - 1) < 365 * y)
    && decide (365 * y ≤ marchN (daysBefore y - leapN y)))

/-- The predicate `f` holds at `s, s+1, ..., s+n-1`. -/
def allFrom (f : Nat → Bool) : Nat → Nat → Bool
  | 0, _ => true
  | n + 1, s => f s && allFrom f n (s + 1)

/-- Entry `z` of `monthday` is the day number `z` of the year that starts on 1 March
(in the day-of-year formula of days-from-civil), and is a date of a common year. -/
def tableOK (z : Nat) : Bool :=
  let m := monthdayTable.getD z 0 / 100
  let d := monthdayTable.getD z 0 % 100
  decide (1 ≤ m ∧ m ≤ 12 ∧ 1 ≤ d
    ∧ d ≤ (if m = 2 then 28 else if m = 4 ∨ m = 6 ∨ m = 9 ∨ m = 11 then 30 else 31)
    ∧ (153 * (if m > 2 then m - 3 else m + 9) + 2) / 5 + d = z)

/-! ## Nanotime -/

/-- The value of a C `int` after 32-bit two's complement wrap-around (conversion to `int`,
and `int` arithmetic as compilers implement it). -/
def wrap32 (v : Int) : Int := (v + 2147483648) % 4294967296 - 2147483648

/-- The loop `for (int i=8; i>=0; i--) { *(ch+i) = '0'+n%10; n/=10; }` (line 493),
entered with `k = i + 1` digits left. -/
def nanosLoop : Nat → Int → Cur → Cur
  | 0, _, s => s
  | k + 1, n, s => nanosLoop k (n.tdiv 10) (s.store (s.ch + k) (toByte (48 + n.tmod 10)))

/-- The days `d`, seconds `s` and nanoseconds `n` of `writeNanotime` (lines 475-486);
`d`, `s` and `n` are C `int`s. -/
def nanoFields (x : Int) : Int × Int × Int :=
  let n := wrap32 (x.tmod 1000000000)
  let x := x.tdiv 1000000000
  if x ≥ 0 ∧ n ≥ 0 then (wrap32 (x.tdiv 86400), wrap32 (x.tmod 86400), n)
  else
    let x1 := if n ≠ 0 then x - 1 else x
    let n1 := if n ≠ 0 then wrap32 (n + 1000000000) else n
    let d := wrap32 ((x1 + 1).tdiv 86400 - 1)
    (d, wrap32 (x1 - wrap32 (d * 86400)), n1)

/-- Function `writeNanotime` (lines 468-499). -/
def writeNanotime (g : Globals) (col : Col) (row : Int) (s : Cur) : Cur :=
  let x := col.int64s row
  if x = INT64_MIN then write_chars g.na s
  else
    let r := nanoFields x
    let s := write_date g r.1 s
    let s := (s.put 84).move (-(b2i g.squashDateTime))
    let s := write_time g r.2.1 s
    let s := (s.put 46).move (-(b2i g.squashDateTime))
    let s := nanosLoop 9 r.2.2 s
    let s := s.move 9
    (s.put 90).move (-(b2i g.squashDateTime))

/-- Nine decimal digits, zero padded. -/
def digits9 (n : Int) : List Nat :=
  [digit (n / 100000000), digit (n / 10000000), digit (n / 1000000), digit (n / 100000),
   digit (n / 10000), digit (n / 1000), digit (n / 100), digit (n / 10), digit n]

/-- The text `YYYY-MM-DDTHH:MM:SS.nnnnnnnnnZ` of a nanotime, or
`YYYYMMDDHHMMSSnnnnnnnnn` when squashed. -/
def nanotimeText (squash : Bool) (y m d hh mm ss n : Int) : List Nat :=
  dateText squash y m d ++ (if squash then [] else [84]) ++ timeText squash hh mm ss
    ++ (if squash then [] else [46]) ++ digits9 n ++ (if squash then [] else [90])

/-! ## Float64 -/

/-- The loop `while (l%10 == 0) { l /= 10; trailZero++; }` (line 245).  It is entered
with `l != 0` and `fuel = l`, more than the number of trailing zeros of `l`. -/
def stripZeros : Nat → Nat → Int → Nat × Int
  | 0, l, tz => (l, tz)
  | fuel + 1, l, tz => if l % 10 = 0 then stripZeros fuel (l / 10) (tz + 1) else (l, tz)

/-- The loop `while (dr && sf) { *ch--='0'+l%10; l/=10; dr--; sf--; }` (line 269),
entered with `fuel = dr`.  Returns `dr`, `sf`, `l` and the cursor. -/
def fracDigits : Nat → Int → Int → Nat → Cur → Int × Int × Nat × Cur
  | 0, dr, sf, l, s => (dr, sf, l, s)
  | fuel + 1, dr, sf, l, s =>
    if dr ≠ 0 ∧ sf ≠ 0 then
      fracDigits fuel (dr - 1) (sf - 1) (l / 10) (s.putBack (toByte (48 + (l % 10 : Nat))))
    else (dr, sf, l, s)

/-- The loops `while (dr) { *ch--='0'; dr--; }` (line 270) and
`while (dl0) { *ch--='0'; dl0--; }` (line 273), entered with `fuel` the counter. -/
def zerosBack : Nat → Int → Cur → Cur
  | 0, _, s => s
  | fuel + 1, k, s => if k ≠ 0 then zerosBack fuel (k - 1) (s.putBack 48) else s

/-- The loop `while (sf) { *ch--='0'+l%10; l/=10; sf--; }` (line 274), entered with
`fuel = sf`. -/
def intDigits : Nat → Int → Nat → Cur → Cur
  | 0, _, _, s => s
  | fuel + 1, sf, l, s =>
    if sf ≠ 0 then intDigits fuel (sf - 1) (l / 10) (s.putBack (toByte (48 + (l % 10 : Nat))))
    else s

/-- The loop `for (int i=sf; i>1; i--) { *ch-- = '0' + l%10; l /= 10; }` (lines 280-283),
entered with `fuel = sf`.  Returns `l` and the cursor. -/
def sciDigits : Nat → Int → Nat → Cur → Nat × Cur
  | 0, _, l, s => (l, s)
  | fuel + 1, i, l, s =>
    if i > 1 then sciDigits fuel (i - 1) (l / 10) (s.putBack (toByte (48 + (l % 10 : Nat))))
    else (l, s)

/-- The decimal format of `writeFloat64` (lines 267-276). -/
def writeDecimal (g : Globals) (l : Nat) (sf dr dl0 width : Int) (s : Cur) : Cur :=
  let s := s.move (width - 1)
  let r : Int × Nat × Cur :=
    if dr ≠ 0 then
      let f := fracDigits dr.toNat dr sf l s
      let s := zerosBack f.1.toNat f.1 f.2.2.2
      (f.2.1, f.2.2.1, s.putBack g.dec)
    else (sf, l, s)
  let s := zerosBack dl0.toNat dl0 r.2.2
  let s := intDigits r.1.toNat r.1 r.2.1 s
  s.move (width + 1)

/-- The scientific format of `writeFloat64` (lines 279-297). -/
def writeScientific (g : Globals) (l : Nat) (sf exp : Int) (s : Cur) : Cur :=
  let s := s.move sf
  let r := sciDigits sf.toNat sf l s
  let s := if sf = 1 then r.2.move (-1) else r.2.putBack g.dec
  let s := s.store s.ch (toByte (48 + (r.1 : Int)))
  let s := s.move (sf + b2i (decide (sf > 1)))
  let s := s.put 101
  let s := if exp < 0 then s.put 45 else s.put 43
  let exp := if exp < 0 then -exp else exp
  if exp < 100 then
    (s.put (toByte (48 + exp.tdiv 10))).put (toByte (48 + exp.tmod 10))
  else
    ((s.put (toByte (48 + exp.tdiv 100))).put (toByte (48 + (exp.tdiv 10).tmod 10))).put
      (toByte (48 + exp.tmod 10))

/-- Lines 237-299 of `writeFloat64`: the digits `l` (16 of them, a `uint64_t`) and the
decimal exponent `exp` are rounded to 15 digits and written in the shorter format.  The
right-hand side of the test of line 263 is a sum of `int`s, the global `scipen` among
them. -/
def writeDigits (g : Globals) (l : Nat) (exp : Int) (s : Cur) : Cur :=
  let l := if l % 10 ≥ 5 then (l + 10) % 18446744073709551616 else l
  let l := l / 10
  if l = 0 then
    let s := if s.mem (s.ch - 1) = 45 then s.move (-1) else s
    s.put 48
  else
    let z := stripZeros l l 0
    let l := z.1
    let sf := 15 - z.2
    let exp := if sf = 0 then exp + 1 else exp
    let sf := if sf = 0 then 1 else sf
    let dr0 := sf - exp - 1
    let dr := if dr0 ≤ 0 then 0 else dr0
    let dl0 := if dr0 ≤ 0 then -dr0 else if sf > dr0 then 0 else 1
    let width := if dr0 ≤ 0 then sf + dl0 else if sf > dr0 then sf + 1 else dr0 + 1 + dl0
    if width ≤ wrap32 (sf + b2i (decide (sf > 1)) + 2 + (if exp.natAbs > 99 then 3 else 2)
          + g.scipen) then
      writeDecimal g l sf dr dl0 width s
    else writeScientific g l sf exp s

/-- Function `writeFloat64` (lines 180-302). -/
def writeFloat64 (fp : FloatOps) (g : Globals) (col : Col) (row : Int) (s : Cur) : Cur :=
  let x := col.doubles row
  if !x.isfinite then
    if x.isnan then write_chars g.na s
    else
      let s := if x.isNeg then s.put 45 else s
      ((s.put 73).put 110).put 102
  else if x.isZero then s.put 48
  else
    let s := if x.isNeg then s.put 45 else s
    let r := fp.sig x.fraction x.exponent
    writeDigits g r.1 r.2 s

/-! ## POSIXct -/

/-- The rounding of the seventh decimal of `writePOSIXct` (lines 423-426): from
`m = (int)((x-xi)*10000000)` to the microseconds `m` and the carry into the seconds. -/
def posixMicros (m7 : Int) : Int × Int :=
  let m := wrap32 (m7 + m7.tmod 10)
  let m := m.tdiv 10
  let carry := m.tdiv 1000000
  (wrap32 (m - wrap32 (carry * 1000000)), carry)

/-- The day `d` and the seconds of the day `t` of `writePOSIXct` (lines 428-435). -/
def posixFields (xi : Int) : Int × Int :=
  if xi ≥ 0 then (xi.tdiv 86400, xi.tmod 86400)
  else
    let d := (xi + 1).tdiv 86400 - 1
    (d, xi - d * 86400)

/-- Lines 447-450 of `writePOSIXct`: the three digits of the milliseconds,
`*(ch+2) = '0'+m%10; m/=10; *(ch+1) = '0'+m%10; m/=10; *ch = '0'+m; ch += 3;`. -/
def millisDigits (m : Int) (s : Cur) : Cur :=
  let s := s.store (s.ch + 2) (toByte (48 + m.tmod 10))
  let m := m.tdiv 10
  let s := s.store (s.ch + 1) (toByte (48 + m.tmod 10))
  let m := m.tdiv 10
  let s := s.store s.ch (toByte (48 + m))
  s.move 3

/-- Lines 454-460 of `writePOSIXct`: the six digits of the microseconds. -/
def microsDigits (m : Int) (s : Cur) : Cur :=
  let s := s.store (s.ch + 5) (toByte (48 + m.tmod 10))
  let m := m.tdiv 10
  let s := s.store (s.ch + 4) (toByte (48 + m.tmod 10))
  let m := m.tdiv 10
  let s := s.store (s.ch + 3) (toByte (48 + m.tmod 10))
  let m := m.tdiv 10
  let s := s.store (s.ch + 2) (toByte (48 + m.tmod 10))
  let m := m.tdiv 10
  let s := s.store (s.ch + 1) (toByte (48 + m.tmod 10))
  let m := m.tdiv 10
  let s := s.store s.ch (toByte (48 + m))
  s.move 6

/-- Lines 440-461 of `writePOSIXct`: the fractional part of the seconds. -/
def writeFraction (g : Globals) (m : Int) (s : Cur) : Cur :=
  if g.squashDateTime ∨ (m ≠ 0 ∧ m.tmod 1000 = 0) then
    millisDigits (m.tdiv 1000) ((s.put 46).move (-(b2i g.squashDateTime)))
  else if m ≠ 0 then microsDigits m (s.put 46)
  else s

/-- Function `writePOSIXct` (lines 406-466).  The `int64_t` day and seconds are passed
to the `int32_t` parameters of `write_date` and `write_time`. -/
def writePOSIXct (fp : FloatOps) (g : Globals) (col : Col) (row : Int) (s : Cur) : Cur :=
  let x := col.doubles row
  if !x.isfinite then write_chars g.na s
  else
    let xi := fp.floor x
    let mc := posixMicros (fp.frac7 x)
    let xi := xi + mc.2
    let dt := posixFields xi
    let s := write_date g (wrap32 dt.1) s
    let s := (s.put 84).move (-(b2i g.squashDateTime))
    let s := write_time g (wrap32 dt.2) s
    let s := writeFraction g mc.1 s
    (s.put 90).move (-(b2i g.squashDateTime))

/-- Function `writeDateFloat64` (lines 401-404). -/
def writeDateFloat64 (fp : FloatOps) (g : Globals) (col : Col) (row : Int) (s : Cur) : Cur :=
  let x := col.doubles row
  write_date g (if x.isfinite then fp.toInt x else INT32_MIN) s

/-- Three decimal digits, zero padded. -/
def digits3 (n : Int) : List Nat := [digit (n / 100), digit (n / 10), digit n]

/-- Six decimal digits, zero padded. -/
def digits6 (n : Int) : List Nat :=
  [digit (n / 100000), digit (n / 10000), digit (n / 1000), digit (n / 100), digit (n / 10),
   digit n]

/-- The fractional suffix of a POSIXct field with `m` microseconds: squashed, the three
digits of the milliseconds; else `.mmm` when `m` is a non-zero multiple of 1000,
`.uuuuuu` when `m` is another non-zero value and nothing when `m = 0`. -/
def posixSuffix (squash : Bool) (m : Int) : List Nat :=
  if squash then digits3 (m / 1000)
  else if m = 0 then []
  else if m % 1000 = 0 then 46 :: digits3 (m / 1000)
  else 46 :: digits6 m

/-- The text of a POSIXct field: date `T` time suffix `Z`, without `T` and `Z` when
squashed. -/
def posixText (squash : Bool) (y mo d hh mi ss m : Int) : List Nat :=
  dateText squash y mo d ++ (if squash then [] else [84]) ++ timeText squash hh mi ss
    ++ posixSuffix squash m ++ (if squash then [] else [90])

/-! ## Boolean writers -/

/-- Function `writeBool8` (lines 63-69). -/
def writeBool8 (_g : Globals) (col : Col) (row : Int) (s : Cur) : Cur :=
  let x := col.int8s row
  let s := s.put (toByte (48 + b2i (decide (x = 1))))
  s.move (-(b2i (decide (x = INT8_MIN))))

/-- Function `writeBool32` (lines 71-81). -/
def writeBool32 (g : Globals) (col : Col) (row : Int) (s : Cur) : Cur :=
  let x := col.int32s row
  if x = INT32_MIN then write_chars g.na s else s.put (toByte (48 + x))

/-- Function `writeBool32AsString` (lines 83-95). -/
def writeBool32AsString (g : Globals) (col : Col) (row : Int) (s : Cur) : Cur :=
  let x := col.int32s row
  if x = INT32_MIN then write_chars g.na s
  else if x ≠ 0 then (((s.put 84).put 82).put 85).put 69
  else ((((s.put 70).put 65).put 76).put 83).put 69

/-! ## Batch planner and batches -/

/-- A value stored in a `size_t`, taken as 64 bits wide: unsigned arithmetic wraps. -/
def sizeT (v : Int) : Int := v % 18446744073709551616

/-- The values the planner fixes: the scratch buffer size, the rows per batch, the
number of batches and the number of threads. -/
structure Plan where
  buffSize : Int
  rowsPerBatch : Int
  numBatches : Int
  nth : Int
deriving DecidableEq

/-- The buffer size of line 612 and the batch planner of lines 799-815.  `buffSize` and
`maxLineLen` are `size_t`, `rowsPerBatch`, `numBatches` and `nth` are `int`, `nrow` is
`int64_t`. -/
def planner (buffMB maxLineLen nrow nth0 : Int) : Plan :=
  let buffSize0 := sizeT (1024 * 1024 * buffMB)
  let big : Bool := decide (sizeT (2 * maxLineLen) > buffSize0)
  let buffSize := if big then sizeT (2 * maxLineLen) else buffSize0
  let rpb0 := if big then 2 else wrap32 (buffSize0 / maxLineLen)
  let rpb1 := if rpb0 > nrow then wrap32 nrow else rpb0
  let rpb := if rpb1 < 1 then 1 else rpb1
  let numBatches := wrap32 ((nrow - 1).tdiv rpb + 1)
  let nth := if numBatches < nth0 then numBatches else nth0
  { buffSize := buffSize, rowsPerBatch := rpb, numBatches := numBatches, nth := nth }

/-- The end of the batch that starts at `start` (line 898). -/
def batchEnd (nrow rowsPerBatch start : Int) : Int :=
  if nrow - start < rowsPerBatch then nrow else start + rowsPerBatch

/-- The iterations of `for(int64_t start=0; start < args.nrow; start += rowsPerBatch)`
(line 876) from `start` on, each with its `end`; the first argument bounds the number
of iterations. -/
def batches : Nat → Int → Int → Int → List (Int × Int)
  | 0, _, _, _ => []
  | f + 1, nrow, rpb, start =>
    if start < nrow then (start, batchEnd nrow rpb start) :: batches f nrow rpb (start + rpb)
    else []

/-- The batches of a job of `nrow` rows; with `rowsPerBatch >= 1` the loop makes at most
`nrow` iterations. -/
def rowBatches (nrow rowsPerBatch : Int) : List (Int × Int) :=
  batches nrow.toNat nrow rowsPerBatch 0

/-- The bytes one iteration hands to the sink when nothing is compressed: the rows
`start..end-1` formatted from `ch = myBuff` on, whatever the buffer held before
(lines 881-882, 901-926 and 970). -/
def batchBytes (g : Globals) (args : fwriteMainArgs) (b : Int × Int) (buf : Cur) : List Nat :=
  Cur.out buf.ch (writeRows g args b.1 b.2 buf)

/-- The bytes written to the sink by the ordered sections, which run in iteration
order; `buf k` is the state of the scratch buffer iteration `k` finds. -/
def committed (g : Globals) (args : fwriteMainArgs) (buf : Nat → Cur) :
    Nat → List (Int × Int) → List Nat
  | _, [] => []
  | k, b :: rest => batchBytes g args b (buf k) ++ committed g args buf (k + 1) rest

/-- Row ranges that follow one another without gap or overlap from `lo` to `hi`, none
of them empty. -/
def IsTiling : Int → Int → List (Int × Int) → Prop
  | lo, hi, [] => lo = hi
  | lo, hi, b :: rest => b.1 = lo ∧ lo < b.2 ∧ b.2 ≤ hi ∧ IsTiling b.2 hi rest

/-- The texts of the `n` rows from row `i` on, one after another. -/
def rowsText (rowBytes : Int → List Nat) : Nat → Int → List Nat
  | 0, _ => []
  | n + 1, i => rowBytes i ++ rowsText rowBytes n (i + 1)

/-- The value of a C `int64_t` after 64-bit two's complement wrap-around. -/
def wrap64 (v : Int) : Int :=
  (v + 9223372036854775808) % 18446744073709551616 - 9223372036854775808

/-! ## Line budget -/

/-- The functions and the table that `fwrite.h` declares and the host supplies: the
table `writerMaxLen` and the length probes `getStringLen`, `getMaxStringLen`,
`getMaxCategLen` and `getMaxListItemLen`, all of type `int`; and `log10`, the `int`
that line 645 makes of the logarithm of the C library, `(int)log10(args.nrow)`, as a
function of `nrow`.  They are parameters of the model. -/
structure Host where
  writerMaxLen : WriterTag → Int
  getStringLen : Col → Int → Int
  getMaxStringLen : Col → Int → Int
  getMaxCategLen : Col → Int
  getMaxListItemLen : Col → Int → Int
  log10 : Int → Int

/-- The integer part of the logarithm to base 10 of `nrow >= 1`, one less than the
number of decimal digits of `nrow`: what `(int)log10(nrow)` is when `log10` is exact. -/
def ilog10 (nrow : Int) : Int := Nat.log 10 nrow.toNat

/-- The locals `eolLen`, `naLen` (line 614) and `yamlLen` (line 702): each an `int`
that takes the `size_t` of `strlen`. -/
def eolLen (args : fwriteMainArgs) : Int := wrap32 (cstr args.eol).length
def naLen (args : fwriteMainArgs) : Int := wrap32 (cstr args.na).length
def yamlLen (args : fwriteMainArgs) : Int := wrap32 (cstr args.yaml).length

/-- The body of the loop of lines 653-669 for column `j`: the `int` `width*2` that is
added to `maxLineLen`, `none` for the `STOP` of the default case. -/
def colBudget (h : Host) (args : fwriteMainArgs) (j : Nat) : Option Int :=
  let naLen : Int := naLen args
  let width := h.writerMaxLen (args.whichFun j)
  let probed : Option Int :=
    if width = 0 then
      match args.whichFun j with
      | WF_String => some (h.getMaxStringLen (args.columns j) args.nrow)
      | WF_CategString => some (h.getMaxCategLen (args.columns j))
      | WF_List => some (h.getMaxListItemLen (args.columns j) args.nrow)
      | _ => none
    else some width
  probed.map (fun width =>
    let width := if args.whichFun j = WF_Float64 ∧ args.scipen > 0
      then wrap32 (width + min args.scipen 350) else width
    let width := if width < naLen then naLen else width
    wrap32 (width * 2))

/-- The loop `for (int j=0; j<args.ncol; j++)` of lines 653-669, entered with
`n = ncol - j` columns left and the running `maxLineLen`, a `size_t` to which the `int`
`width*2` is added. -/
def colsBudget (h : Host) (args : fwriteMainArgs) : Nat → Nat → Int → Option Int
  | 0, _, acc => some acc
  | n + 1, j, acc =>
    match colBudget h args j with
    | none => none
    | some w => colsBudget h args n (j + 1) (sizeT (acc + w))

/-- The line budget `maxLineLen` of lines 642-669, a `size_t`; what is assigned and
added to it are sums and products of `int`s. -/
def maxLineLen (h : Host) (args : fwriteMainArgs) : Option Int :=
  let g := fwriteMainGlobals args
  let m := sizeT (wrap32 (eolLen args
    + args.ncol * (2 * b2i (decide (g.doQuote ≠ 0)) + g.sepLen)))
  let m :=
    if args.doRowNames then
      let m := sizeT (m + (match args.rowNames with
           | none => wrap32 (1 + h.log10 args.nrow)
           | some rowNames =>
             if args.rowNameFun = WF_String
             then wrap32 (h.getMaxStringLen rowNames args.nrow * 2)
             else 11))
      sizeT (m + wrap32 (2 + g.sepLen))
    else m
  colsBudget h args args.ncol 0 m

/-! ## Header -/

/-- The call `memcpy(dst, src, n)` with `src` given by its `n` bytes. -/
def memcpy (dst : Int) : List Nat → Cur → Cur
  | [], s => s
  | c :: t, s => memcpy (dst + 1) t (s.store dst c)

/-- The loop of line 712, `headerLen += getStringLen(args.colNames, j)*2`, entered with
`n = ncol - j` names left: the sum of the `int`s added. -/
def namesLen (h : Host) (names : Col) : Nat → Nat → Int
  | 0, _ => 0
  | n + 1, j => wrap32 (h.getStringLen names j * 2) + namesLen h names n (j + 1)

/-- The size `headerLen` of the header buffer (lines 708-714), a `size_t` to which
`int`s are added. -/
def headerLen (h : Host) (args : fwriteMainArgs) : Int :=
  let g := fwriteMainGlobals args
  let n : Int := sizeT ((if args.bom then 3 else 0) + yamlLen args)
  match args.colNames with
  | none => n
  | some names =>
    sizeT (n + namesLen h names args.ncol 0
      + wrap32 (args.ncol * (g.sepLen + b2i (decide (g.doQuote ≠ 0)) * 2) + eolLen args + 3))

/-- The loop of lines 731-735 over the column names, entered with `n = ncol - j` names
left; `g` holds the header quote mode. -/
def headerNames (g : Globals) (names : Col) : Nat → Nat → Cur → Cur
  | 0, _, s => s
  | n + 1, j, s => headerNames g names n (j + 1) (putSep g (writeString g names j s))

/-- The assembly of the header in its buffer (lines 719-740): the globals after it and
the cursor.  The global `doQuote` is set to `quoteHeaders = args.doQuote` for the names
and set back afterwards. -/
def writeHeader (args : fwriteMainArgs) (s : Cur) : Globals × Cur :=
  let g := fwriteMainGlobals args
  let s := if args.bom then ((s.put 239).put 187).put 191 else s
  let s := (memcpy s.ch (cstr args.yaml) s).move (cstr args.yaml).length
  match args.colNames with
  | none => (g, s)
  | some names =>
    let s :=
      if args.doRowNames then
        putSep g (if g.doQuote ≠ 0 then (s.put 34).put 34 else s)
      else s
    let tempDoQuote := g.doQuote
    let g := { g with doQuote := args.doQuote }
    let s := headerNames g names args.ncol 0 s
    let g := { g with doQuote := tempDoQuote }
    let s := s.move (-g.sepLen)
    (g, write_chars args.eol s)

/-- The header as printed on standard output (lines 741-744): after the assembly,
`*ch = '\0'`. -/
def writeHeaderStdout (args : fwriteMainArgs) (s : Cur) : Cur :=
  let s := (writeHeader args s).2
  s.store s.ch 0

/-- The bytes of the header: those between the start of its buffer and the cursor
after the assembly. -/
def headerBytes (args : fwriteMainArgs) : List Nat :=
  Cur.out 0 (writeHeader args (Cur.init 0)).2

/-- The header as the header emitter is described: the three bytes of the BOM, the
YAML bytes, and for column names the empty leading field of the row names, the names
`cells 0 .. cells (ncol-1)` joined by `sep`, and `eol`. -/
def headerText (args : fwriteMainArgs) (cells : Nat → List Nat) : List Nat :=
  (if args.bom then [239, 187, 191] else []) ++ cstr args.yaml
    ++ (if args.colNames.isSome then
          (if args.doRowNames then
            (if (fwriteMainGlobals args).doQuote ≠ 0 then [34, 34] else [])
              ++ sepBytes args.sep
           else [])
          ++ List.intercalate (sepBytes args.sep) ((List.range args.ncol).map cells)
          ++ cstr args.eol
        else [])

/-! ## Compression and the sink -/

/-- Modelled from the spec: the return code `Z_OK` of zlib, whose header `zlib.h` is not
among the sources; its value is 0. -/
def Z_OK : Int := 0

/-- Modelled from the spec: the return code `Z_STREAM_ERROR` of zlib, whose header
`zlib.h` is not among the sources; its value is -2. -/
def Z_STREAM_ERROR : Int := -2

/-- The functions of zlib that `fwrite.c` calls, as parameters: the return code of
`deflateInit2`; `deflate(stream, Z_SYNC_FLUSH)` on a stream fresh from `init_stream`, as
its return code and the bytes it puts into the destination; `crc32(crc, buf, len)`; the
value of `crc32(0L, Z_NULL, 0)`; and `crc32_combine(crc1, crc2, len2)`. -/
structure Zlib where
  deflateInit2 : Int
  deflate : List Nat → Int × List Nat
  crc32 : Nat → List Nat → Nat
  crc32_null : Nat
  crc32_combine : Nat → Nat → Nat → Nat

/-- Function `init_stream` (lines 562-570). -/
def init_stream (z : Zlib) : Int := z.deflateInit2

/-- Function `compressbuff` (lines 572-582): the return code and the `*destLen` bytes
of the destination. -/
def compressbuff (z : Zlib) (source : List Nat) : Int × List Nat :=
  let r := z.deflate source
  (if r.1 ≠ Z_STREAM_ERROR then Z_OK else r.1, r.2)

/-- The calls of `STOP` in `fwriteMain` that the model reaches. -/
inductive Stop where
  | config
  | budget
  | stream
  | headerCompress (code : Int)
  | deflate (code : Int)
  deriving DecidableEq

/-- The state of the sink and of the locals `crc`, `len`, `failed` and
`failed_compress` of `fwriteMain`; `file` holds the bytes written so far. -/
structure Sink where
  file : List Nat
  crc : Nat
  len : Nat
  failed : Bool
  failed_compress : Int
  deriving DecidableEq

/-- What a call of `fwriteMain` leaves: the bytes written to the sink and the `STOP`
it ended with, if any. -/
structure Outcome where
  file : List Nat
  stop : Option Stop
  deriving DecidableEq

/-- The string `"\037\213\10\0\0\0\0\0\0\3"` of line 766. -/
def gzipHeader : List Nat := [31, 139, 8, 0, 0, 0, 0, 0, 0, 3]

/-- The bytes the macro `PUT4(a, b)` (line 996) stores into the `unsigned char` array
`a`: `b`, `b>>8`, `b>>16`, `b>>24`, each cut to a byte. -/
def PUT4 (b : Nat) : List Nat :=
  [b % 256, b / 256 % 256, b / 65536 % 256, b / 16777216 % 256]

/-- The array `tail` of lines 1001-1005. -/
def gzipTail (crc len : Nat) : List Nat := [3, 0] ++ PUT4 crc ++ PUT4 len

/-- The writing of the header to the sink (lines 715-789): `hl` is `headerLen`, `hdr`
the bytes assembled in the buffer, `gz` the flag `args.is_gzip`.  Writes to the sink
are taken to succeed. -/
def commitHeader (z : Zlib) (gz : Bool) (hl : Int) (hdr : List Nat) (st : Sink) :
    Sink × Option Stop :=
  if hl = 0 then (st, none)
  else if gz then
    if init_stream z ≠ 0 then (st, some Stop.stream)
    else
      let file := st.file ++ gzipHeader
      let crc := z.crc32_null % 4294967296
      let len := hdr.length
      let crc := z.crc32 crc hdr % 4294967296
      let r := compressbuff z hdr
      let file := if r.1 = Z_OK then file ++ r.2 else file
      ({ st with file := file, crc := crc, len := len },
        if r.1 ≠ 0 then some (Stop.headerCompress r.1) else none)
  else ({ st with file := st.file ++ hdr }, none)

/-- One iteration of the loop over the batches (lines 876-993), the iterations taken in
order: the stream is set up, the rows are formatted, compressed if `gz`, and committed.
`mycrc` is an `int`, `crc` an `unsigned int`, `len` a `size_t`. -/
def batchStage (z : Zlib) (g : Globals) (args : fwriteMainArgs) (gz : Bool) (st : Sink)
    (b : Int × Int) : Sink :=
  if st.failed || (gz && decide (init_stream z ≠ 0)) then { st with failed := true }
  else
    let bytes := batchBytes g args b (Cur.init 0)
    if gz then
      let mylen := bytes.length
      let mycrc := wrap32 (z.crc32 0 bytes)
      let r := compressbuff z bytes
      if r.1 ≠ 0 then
        { st with
          failed := true
          failed_compress := if st.failed_compress = 0 then r.1 else st.failed_compress }
      else
        { st with
          file := st.file ++ r.2
          crc := z.crc32_combine st.crc (mycrc % 18446744073709551616).toNat mylen
                   % 4294967296
          len := (st.len + mylen) % 18446744073709551616 }
    else { st with file := st.file ++ bytes }

/-- The end of `fwriteMain` after the loop (lines 995-1047): the trailer and the report
of a compression failure. -/
def finish (gz : Bool) (st : Sink) : Outcome :=
  { file := if gz then st.file ++ gzipTail st.crc st.len else st.file
    stop := if st.failed ∧ st.failed_compress ≠ 0 then some (Stop.deflate st.failed_compress)
            else none }

/-- The globals when the loop over the batches starts: those of lines 591-609, which,
when there is a header (`headerLen` not 0), have gone through its assembly, where
`doQuote` is overwritten for the column names and set back (lines 730 and 737). -/
def dataGlobals (h : Host) (args : fwriteMainArgs) : Globals :=
  if headerLen h args = 0 then fwriteMainGlobals args
  else (writeHeader args (Cur.init 0)).1

/-- Function `fwriteMain` (lines 586-1048) as far as the bytes it writes and the `STOP`
it ends with; `crc0` and `len0` are the values the locals `crc` and `len` hold before
anything is assigned to them. -/
def fwriteMain (z : Zlib) (h : Host) (args : fwriteMainArgs) (crc0 len0 : Nat) : Outcome :=
  if args.buffMB < 1 ∨ args.buffMB > 1024 then { file := [], stop := some Stop.config }
  else if eolLen args ≤ 0 then { file := [], stop := some Stop.config }
  else
    match maxLineLen h args with
    | none => { file := [], stop := some Stop.budget }
    | some mll =>
      let gz := args.is_gzip && decide (strHead args.filename ≠ 0)
      let st : Sink :=
        { file := [], crc := crc0, len := len0, failed := false, failed_compress := 0 }
      let r := commitHeader z gz (headerLen h args) (headerBytes args) st
      match r.2 with
      | some e => { file := r.1.file, stop := some e }
      | none =>
        if args.nrow = 0 then { file := r.1.file, stop := none }
        else if gz && decide (init_stream z ≠ 0) then
          { file := r.1.file, stop := some Stop.stream }
        else
          finish gz
            ((rowBatches args.nrow
                (planner args.buffMB mll args.nrow args.nth).rowsPerBatch).foldl
              (batchStage z (dataGlobals h args) args gz) r.1)

/-! ## The two formats of `writeFloat64` -/

/-- Lines 253-298 of `writeFloat64`: the digits `l` without trailing zero, their number
`sf` and the decimal exponent `exp` are written in the decimal or in the scientific
format; the right-hand side of the test of line 263 is a sum of `int`s. -/
def writeForm (g : Globals) (l : Nat) (sf exp : Int) (s : Cur) : Cur :=
  let dr0 := sf - exp - 1
  let dr := if dr0 ≤ 0 then 0 else dr0
  let dl0 := if dr0 ≤ 0 then -dr0 else if sf > dr0 then 0 else 1
  let width := if dr0 ≤ 0 then sf + dl0 else if sf > dr0 then sf + 1 else dr0 + 1 + dl0
  if width ≤ wrap32 (sf + b2i (decide (sf > 1)) + 2 + (if exp.natAbs > 99 then 3 else 2)
        + g.scipen) then
    writeDecimal g l sf dr dl0 width s
  else writeScientific g l sf exp s

/-- The field width `width` of the decimal format (lines 255-260). -/
def decimalWidth (sf exp : Int) : Int :=
  if sf - exp - 1 ≤ 0 then sf + -(sf - exp - 1)
  else if sf > sf - exp - 1 then sf + 1 else sf - exp - 1 + 1 + 1

/-- The statements `*ch-- = b` for the bytes `b` of a list, in order. -/
def putBackList : List Nat → Cur → Cur
  | [], s => s
  | b :: t, s => putBackList t (s.putBack b)

/-- The last `k` decimal digits of `l` as bytes, most significant first, with leading
zeros when `l` has fewer than `k` digits. -/
def msd (l : Nat) : Nat → List Nat
  | 0 => []
  | k + 1 => msd (l / 10) k ++ [48 + l % 10]

/-- The digits before the decimal separator in the plain decimal form of
`l * 10^(exp - sf + 1)`, `l` having `sf` digits. -/
def plainInt (l : Nat) (sf exp : Int) : List Nat :=
  if sf - 1 ≤ exp then msd l sf.toNat ++ List.replicate (exp - (sf - 1)).toNat 48
  else if 0 ≤ exp then msd (l / 10 ^ (sf - 1 - exp).toNat) (exp + 1).toNat
  else [48]

/-- The digits after the decimal separator in the plain decimal form, none for an
integer. -/
def plainFrac (l : Nat) (sf exp : Int) : List Nat :=
  if sf - 1 ≤ exp then [] else msd l (sf - 1 - exp).toNat

/-- The plain decimal form: the integer digits, and the separator `dec` with the
fraction digits unless the value is an integer. -/
def plainText (dec : Nat) (l : Nat) (sf exp : Int) : List Nat :=
  plainInt l sf exp ++ (if sf - 1 ≤ exp then [] else dec :: plainFrac l sf exp)

/-- The exponent digits of the scientific form: two, or three from 100 on. -/
def expText (exp : Int) : List Nat :=
  if exp.natAbs < 100 then msd exp.natAbs 2 else msd exp.natAbs 3

/-- The scientific form `d[dec ddd]e(+|-)NN[N]`. -/
def sciText (dec : Nat) (l : Nat) (sf exp : Int) : List Nat :=
  msd (l / 10 ^ (sf.toNat - 1)) 1
    ++ (if sf > 1 then dec :: msd l (sf.toNat - 1) else [])
    ++ [101, if exp < 0 then 45 else 43] ++ expText exp

/-- The value of the numeral with the integer digits `ip` and the fraction digits
`fp`. -/
def numeral (ip fp : List Nat) : Option ℚ :=
  match parseNatFrom 0 ip, parseNatFrom 0 fp with
  | some a, some b => some ((a : ℚ) + (b : ℚ) / (10 : ℚ) ^ fp.length)
  | _, _ => none

/-- The text of row `i`: the row-name field and `sep` when row names are written, the
cells `cells 0 .. cells (ncol-1)` joined by `sep`, and `eol`. -/
def rowText (args : fwriteMainArgs) (i : Int) (rnCell : List Nat) (cells : Nat → List Nat) :
    List Nat :=
  (if args.doRowNames then
      rowNameText (fwriteMainGlobals args) args i rnCell ++ sepBytes args.sep
    else [])
    ++ List.intercalate (sepBytes args.sep) ((List.range args.ncol).map cells)
    ++ cstr args.eol

/-! ## Test vectors -/

/-- A globals record for examples: `sep=','`, `na="NA"`, `dec='.'`, quote mode auto. -/
def g0 : Globals :=
  { na := ascii "NA", sep := 44, sepLen := 1, sep2 := 0, dec := 46, doQuote := INT8_MIN,
    qmethodEscape := false, scipen := 0, squashDateTime := false, verbose := false }

/-- Quote mode off with an empty NA token. -/
def gOff : Globals :=
  { na := [], sep := 44, sepLen := 1, sep2 := 0, dec := 46, doQuote := 0,
    qmethodEscape := false, scipen := 0, squashDateTime := false, verbose := false }

/-- Squashed date and time output. -/
def gSquash : Globals :=
  { na := ascii "NA", sep := 44, sepLen := 1, sep2 := 0, dec := 46, doQuote := INT8_MIN,
    qmethodEscape := false, scipen := 0, squashDateTime := true, verbose := false }

/-- An NA token that reads as a date. -/
def gDateNA : Globals :=
  { na := ascii "1970-01-01", sep := 44, sepLen := 1, sep2 := 0, dec := 46, doQuote := INT8_MIN,
    qmethodEscape := false, scipen := 0, squashDateTime := false, verbose := false }

/-- A table `funs` for examples: the writers of this file by tag; a tag whose writer
is not used in the examples writes nothing. -/
def funs0 : WriterTag → Writer
  | WF_Int32 => writeInt32
  | WF_Int64 => writeInt64
  | WF_ITime => writeITime
  | WF_DateInt32 => writeDateInt32
  | WF_String => writeString
  | WF_CategString => writeCategString
  | _ => fun _ _ _ s => s

/-- Scenario 1 of the spec: two Int32 columns with rows `(1,2)` and `(3,INT32_MIN)`,
`sep=','`, `eol="\n"`, `na="NA"`, no header. -/
def job2 : fwriteMainArgs :=
  { filename := ascii "out.csv"
    columns := fun j => { int32s := fun i =>
      if j = 0 then (if i = 0 then 1 else 3) else (if i = 0 then 2 else INT32_MIN) }
    funs := funs0
    whichFun := fun _ => WF_Int32
    colNames := none
    doRowNames := false
    rowNames := none
    rowNameFun := WF_Int32
    nrow := 2
    ncol := 2
    sep := 44
    sep2 := 0
    dec := 46
    eol := [10]
    na := ascii "NA"
    doQuote := INT8_MIN
    qmethodEscape := false
    scipen := 0
    squashDateTime := false
    append := false
    buffMB := 8
    nth := 1
    showProgress := false
    is_gzip := false
    bom := false
    yaml := []
    verbose := false }

/-- The doubles `+0.0`, `-0.0`, `+Inf`, `-Inf`, a NaN, `1.0` and `0.123456`. -/
def dZero : Double := { sign := false, exponent := 0, fraction := 0 }
def dNegZero : Double := { sign := true, exponent := 0, fraction := 0 }
def dInf : Double := { sign := false, exponent := 2047, fraction := 0 }
def dNegInf : Double := { sign := true, exponent := 2047, fraction := 0 }
def dNaN : Double := { sign := false, exponent := 2047, fraction := 2251799813685248 }
def dOne : Double := { sign := false, exponent := 1023, fraction := 0 }
def dFrac : Double := { sign := false, exponent := 1019, fraction := 4392342702175935 }

/-- The floating-point results on the example doubles: `floor` is 1 on `1.0` and 0 on
the zeros and on `0.123456`; `(int)((x-xi)*10000000)` is 1234560 on `0.123456` (the
product rounds to the double 1234560.0) and 0 on the others. -/
def fp0 : FloatOps :=
  { sig := fun _ _ => (0, 0)
    floor := fun x => if x = dOne then 1 else 0
    frac7 := fun x => if x = dFrac then 1234560 else 0
    toInt := fun x => if x = dOne then 1 else 0 }

/-- Globals with an empty NA token. -/
def gNoNA : Globals :=
  { na := [], sep := 44, sepLen := 1, sep2 := 0, dec := 46, doQuote := INT8_MIN,
    qmethodEscape := false, scipen := 0, squashDateTime := false, verbose := false }

/-- A host for examples: no fixed width for the string writers, the length probes
computed from the cells (a missing cell has length 0), and for `(int)log10(nrow)` the
integer part of the logarithm, `INT_MIN` when `nrow` has no finite logarithm (what the
conversion yields on x86-64). -/
def host0 : Host :=
  { writerMaxLen := fun t =>
      match t with
      | WF_String => 0
      | WF_CategString => 0
      | WF_List => 0
      | WF_Int32 => 11
      | WF_Int64 => 20
      | _ => 30
    getStringLen := fun col j =>
      match col.strings j with
      | none => 0
      | some x => (cstr x).length
    getMaxStringLen := fun col nrow =>
      (List.range nrow.toNat).foldl
        (fun m i => max m (match col.strings i with
                           | none => 0
                           | some x => ((cstr x).length : Int))) 0
    getMaxCategLen := fun _ => 0
    getMaxListItemLen := fun _ _ => 0
    log10 := fun nrow => if nrow ≤ 0 then INT32_MIN else ilog10 nrow }

/-- A string column of three double quotes, a column of missing strings, and the column
of the names `a` and `b`. -/
def colQuotes : Col := { strings := fun _ => some [34, 34, 34] }
def colMissing : Col := { strings := fun _ => none }
def colAB : Col := { strings := fun j => if j = 0 then some (ascii "a") else some (ascii "b") }

/-- A job with one string column holding `"""` (three double quotes) in its only row,
a missing row name, `na="N/A"`, no separator, quote mode on. -/
def jobNA : fwriteMainArgs :=
  { job2 with
    columns := fun _ => colQuotes
    whichFun := fun _ => WF_String
    doRowNames := true
    rowNames := some colMissing
    rowNameFun := WF_String
    nrow := 1
    ncol := 1
    sep := 0
    na := ascii "N/A"
    doQuote := 1 }

/-- Scenario 1 with the column names `a` and `b` and row names. -/
def jobNames : fwriteMainArgs :=
  { job2 with
    colNames := some colAB
    doRowNames := true }

/-- A job printed on standard output whose header is the BOM alone. -/
def jobBom : fwriteMainArgs :=
  { job2 with filename := [], bom := true }

/-- A stand-in for zlib in examples: `deflate` copies its input and returns `Z_OK`, the
checksum is the sum of the bytes modulo `2^32`. -/
def z0 : Zlib :=
  { deflateInit2 := 0
    deflate := fun l => (0, l)
    crc32 := fun c l => (c + l.sum) % 4294967296
    crc32_null := 0
    crc32_combine := fun a b _ => (a + b) % 4294967296 }

/-- A stand-in for zlib whose `deflate` returns `Z_BUF_ERROR` (-5). -/
def zBuf : Zlib := { z0 with deflate := fun l => (-5, l) }

/-- A stand-in for zlib whose `deflate` returns `Z_STREAM_ERROR`. -/
def zErr : Zlib := { z0 with deflate := fun _ => (Z_STREAM_ERROR, []) }

/-- Scenario 1 written to a gzip file: no BOM, no YAML, no column names. -/
def jobGz : fwriteMainArgs := { job2 with is_gzip := true }

/-- A gzip job with the column names `a` and `b` and no rows. -/
def jobGzEmpty : fwriteMainArgs := { job2 with is_gzip := true, colNames := some colAB, nrow := 0 }

/-- An NA token that reads as a date and time. -/
def gPosixNA : Globals :=
  { na := ascii "1970-01-01T00:00:00Z", sep := 44, sepLen := 1, sep2 := 0, dec := 46,
    doQuote := INT8_MIN, qmethodEscape := false, scipen := 0, squashDateTime := false,
    verbose := false }

/-- The double `253402300800.0`, the first second of the year 10000. -/
def dFar : Double := { sign := false, exponent := 1060, fraction := 3799886965243904 }

/-- The floating-point results of `fp0`, with `floor` 253402300800 on `dFar`. -/
def fpFar : FloatOps :=
  { fp0 with floor := fun x => if x = dFar then 253402300800 else fp0.floor x }

/-- The globals `g0` with the largest `scipen` an `int` holds. -/
def gScipenMax : Globals := { g0 with scipen := 2147483647 }

/-- The double `-1e-20`, for which `x - floor(x)` rounds to `1.0`. -/
def dTiny : Double := { sign := true, exponent := 956, fraction := 2142540351554083 }

/-- The floating-point results on `dTiny`: `floor` is -1 and `(int)((x-xi)*10000000)` is
10000000, the difference `x - xi` being the double `1.0`. -/
def fpTiny : FloatOps :=
  { fp0 with
    floor := fun x => if x = dTiny then -1 else fp0.floor x
    frac7 := fun x => if x = dTiny then 10000000 else fp0.frac7 x }

/-- A string column with `abc` in row 0 and a missing string below. -/
def colAbc : Col := { strings := fun i => if i = 0 then some (ascii "abc") else none }

/-- Scenario 1 with one string column instead: `abc` in the first row, a missing string
in the second; `na="NA"`, quote mode auto. -/
def jobStr : fwriteMainArgs :=
  { job2 with
    columns := fun _ => colAbc
    whichFun := fun _ => WF_String
    ncol := 1 }

/-! ## Memory lemmas -/

open Cur

theorem bytesAt_length (m : Int → Nat) (lo : Int) (n : Nat) : (bytesAt m lo n).length = n := by
  induction n generalizing lo with
  | zero => rfl
  | succ k ih => simp [bytesAt, ih]

theorem bytesAt_add (m : Int → Nat) (lo : Int) (a b : Nat) :
    bytesAt m lo (a + b) = bytesAt m lo a ++ bytesAt m (lo + a) b := by
  induction a generalizing lo with
  | zero => simp [bytesAt]
  | succ k ih =>
    have h : k + 1 + b = (k + b) + 1 := by omega
    rw [h]
    simp only [bytesAt, List.cons_append, ih]
    have h2 : lo + 1 + (k : Int) = lo + ((k + 1 : Nat) : Int) := by push_cast; ring
    rw [h2]

theorem bytesAt_congr (m m2 : Int → Nat) (lo : Int) (n : Nat)
    (h : ∀ a, lo ≤ a → a < lo + n → m2 a = m a) : bytesAt m2 lo n = bytesAt m lo n := by
  induction n generalizing lo with
  | zero => rfl
  | succ k ih =>
    simp only [bytesAt]
    rw [h lo (le_refl _) (by push_cast; omega), ih (lo + 1) (fun a h1 h2 => h a (by omega) (by push_cast; omega))]

theorem bytesAt_getElem? (m : Int → Nat) (lo : Int) (n i : Nat) (h : i < n) :
    (bytesAt m lo n)[i]? = some (m (lo + i)) := by
  induction n generalizing lo i with
  | zero => omega
  | succ k ih =>
    cases i with
    | zero => simp [bytesAt]
    | succ j =>
      simp only [bytesAt, List.getElem?_cons_succ]
      rw [ih (lo + 1) j (by omega)]
      congr 2
      push_cast; ring

/-- Characterisation used for code that stores at computed offsets. -/
theorem bytesAt_eq_of_getElem (m : Int → Nat) (lo : Int) (l : List Nat)
    (h : ∀ i (hi : i < l.length), m (lo + i) = l[i]) : bytesAt m lo l.length = l := by
  apply List.ext_getElem? 
  intro i
  by_cases hi : i < l.length
  · rw [bytesAt_getElem? m lo _ i hi, List.getElem?_eq_getElem hi, h i hi]
  · rw [List.getElem?_eq_none (by rw [bytesAt_length]; omega), List.getElem?_eq_none (by omega)]

theorem out_of_frame (s s2 : Cur) (lo : Int) (l : List Nat) (hlo : lo ≤ s.ch)
    (hch : s2.ch = s.ch + l.length)
    (hold : ∀ a, lo ≤ a → a < s.ch → s2.mem a = s.mem a)
    (hnew : ∀ i (hi : i < l.length), s2.mem (s.ch + i) = l[i]) :
    out lo s2 = out lo s ++ l := by
  unfold out
  have h1 : (s2.ch - lo).toNat = (s.ch - lo).toNat + l.length := by omega
  rw [h1, bytesAt_add]
  congr 1
  · exact bytesAt_congr _ _ _ _ (fun a h1 h2 => hold a h1 (by omega))
  · have h3 : lo + ((s.ch - lo).toNat : Int) = s.ch := by omega
    rw [h3]
    exact bytesAt_eq_of_getElem _ _ _ hnew

theorem out_put (s : Cur) (lo : Int) (b : Nat) (hlo : lo ≤ s.ch) :
    out lo (s.put b) = out lo s ++ [b] := by
  apply out_of_frame s _ lo [b] hlo
  · simp [put, move, store]
  · intro a _ h2
    simp [put, move, store]
    intro h; omega
  · intro i hi
    simp at hi
    subst hi
    simp [put, move, store]

theorem appends_put (b : Nat) : Appends (fun s => s.put b) [b] :=
  fun s lo h => out_put s lo b h

theorem appends_id : Appends (fun s => s) [] := fun s lo _ => by simp

theorem Appends.comp {f g : Cur → Cur} {l1 l2 : List Nat} (hf : Appends f l1) (hg : Appends g l2) :
    Appends (fun s => g (f s)) (l1 ++ l2) := by
  intro s lo hlo
  have h1 := hf s lo hlo
  have hch : lo ≤ (f s).ch := by
    have h0 := hf s s.ch (le_refl _)
    have hl := congrArg List.length h0
    simp only [out, bytesAt_length, List.length_append, sub_self, Int.toNat_zero, zero_add] at hl
    by_contra hc
    have hz : ((f s).ch - s.ch).toNat = 0 := by omega
    rw [hz] at hl
    have hnil : l1 = [] := List.length_eq_zero.mp hl.symm
    subst hnil
    -- f moved the cursor below lo although it appended nothing: contradiction at a lower base
    have h2 := hf s ((f s).ch) (by omega)
    have hl2 := congrArg List.length h2
    simp only [out, bytesAt_length, List.length_append, sub_self, Int.toNat_zero, List.length_nil, add_zero] at hl2
    omega
  rw [hg (f s) lo hch, h1, List.append_assoc]

theorem Appends.ch {f : Cur → Cur} {l : List Nat} (hf : Appends f l) (s : Cur) :
    (f s).ch = s.ch + l.length := by
  have h0 := hf s s.ch (le_refl _)
  have hl := congrArg List.length h0
  simp only [out, bytesAt_length, List.length_append, sub_self, Int.toNat_zero, zero_add] at hl
  by_cases hc : s.ch ≤ (f s).ch
  · omega
  · have h2 := hf s ((f s).ch) (by omega)
    have hl2 := congrArg List.length h2
    simp only [out, bytesAt_length, List.length_append, sub_self, Int.toNat_zero] at hl2
    omega


theorem reverseLoop_ch (fuel : Nat) (upp low : Int) (s : Cur) :
    (reverseLoop fuel upp low s).ch = s.ch := by
  induction fuel generalizing upp low s with
  | zero => rfl
  | succ k ih =>
    simp only [reverseLoop]
    split
    · rw [ih]; rfl
    · rfl

theorem reverseLoop_mem (fuel : Nat) (upp low : Int) (s : Cur) (hf : upp - low ≤ fuel) (a : Int) :
    (reverseLoop fuel upp low s).mem a
      = if low ≤ a ∧ a ≤ upp then s.mem (low + upp - a) else s.mem a := by
  induction fuel generalizing upp low s with
  | zero =>
    simp only [reverseLoop]
    split
    · next h => congr 1; omega
    · rfl
  | succ k ih =>
    simp only [reverseLoop]
    split
    · next hgt =>
      rw [ih (upp - 1) (low + 1) _ (by omega)]
      simp only [Cur.store]
      split_ifs <;> first | rfl | omega | (congr 1; omega)
    · next hle =>
      split
      · next h => congr 1; omega
      · rfl

theorem bytesAt_reflect (m m2 : Int → Nat) (low : Int) (n : Nat)
    (h : ∀ a, low ≤ a → a < low + n → m2 a = m (low + (low + n - 1) - a)) :
    bytesAt m2 low n = (bytesAt m low n).reverse := by
  apply List.ext_getElem?
  intro i
  by_cases hi : i < n
  · rw [bytesAt_getElem? m2 low n i hi, List.getElem?_reverse (by rw [bytesAt_length]; exact hi),
      bytesAt_length, bytesAt_getElem? m low n _ (by omega), h _ (by omega) (by omega)]
    congr 2
    omega
  · rw [List.getElem?_eq_none (by rw [bytesAt_length]; omega),
      List.getElem?_eq_none (by rw [List.length_reverse, bytesAt_length]; omega)]

/-- In-place reversal of the bytes between `low` and the cursor. -/
theorem out_reverse (s : Cur) (lo low : Int) (pre l : List Nat) (h1 : lo ≤ low)
    (h2 : low + l.length = s.ch) (h : out lo s = pre ++ l) :
    out lo (reverse s.ch low s) = pre ++ l.reverse := by
  have hlen := congrArg List.length h
  simp only [out, bytesAt_length, List.length_append] at hlen
  have hsplit : (s.ch - lo).toNat = pre.length + l.length := hlen
  have hpre : lo + (pre.length : Int) = low := by omega
  unfold out at h
  rw [hsplit, bytesAt_add, hpre] at h
  obtain ⟨hp, hl⟩ := List.append_inj h (by rw [bytesAt_length])
  unfold out reverse
  rw [reverseLoop_ch, hsplit, bytesAt_add, hpre]
  congr 1
  · refine (bytesAt_congr s.mem _ lo pre.length ?_).trans hp
    intro a h3 h4
    rw [reverseLoop_mem _ _ _ _ (by omega)]
    rw [if_neg (by omega)]
  · refine (bytesAt_reflect s.mem _ low l.length ?_).trans (congrArg List.reverse hl)
    intro a h3 h4
    rw [reverseLoop_mem _ _ _ _ (by omega)]
    rw [if_pos (by omega)]
    congr 1
    omega

theorem toByte_digit (n : Nat) : toByte (48 + (n : Int).tmod 10) = 48 + n % 10 := by
  unfold toByte
  rw [Int.tmod_eq_emod (by omega) (by omega)]
  omega

theorem lsdDigits_step (n : Nat) (h : 0 < n / 10) :
    lsdDigits n = (48 + n % 10) :: lsdDigits (n / 10) := by
  unfold lsdDigits
  rw [if_neg (by omega), if_neg (by omega), Nat.digits_def' (by omega) (by omega)]
  simp

theorem lsdDigits_small (n : Nat) (h : n / 10 = 0) : lsdDigits n = [48 + n % 10] := by
  unfold lsdDigits
  have hn : n < 10 := by omega
  by_cases h0 : n = 0
  · subst h0; simp
  · rw [if_neg h0, Nat.digits_def' (by omega) (by omega), h]
    simp

theorem out_digitLoop (fuel n : Nat) (s : Cur) (lo : Int) (hlo : lo ≤ s.ch) (hf : n < fuel) :
    out lo (digitLoop fuel (n : Int) s) = out lo s ++ lsdDigits n := by
  induction fuel generalizing n s with
  | zero => omega
  | succ k ih =>
    simp only [digitLoop]
    have hdiv : (n : Int).tdiv 10 = ((n / 10 : Nat) : Int) := by
      rw [Int.tdiv_eq_ediv (by omega) (by omega)]; norm_cast
    rw [hdiv, toByte_digit]
    split
    · next hpos =>
      have hp : 0 < n / 10 := by exact_mod_cast hpos
      rw [ih (n / 10) _ (by simp [Cur.put, Cur.move, Cur.store]; omega) (by omega), out_put _ _ _ hlo,
        lsdDigits_step n hp]
      simp
    · next hnp =>
      have hz : n / 10 = 0 := by
        have : ¬ (0 < n / 10) := by intro h; apply hnp; exact_mod_cast h
        omega
      rw [out_put _ _ _ hlo, lsdDigits_small n hz]

theorem digitLoop_ch (fuel n : Nat) (s : Cur) (hf : n < fuel) :
    (digitLoop fuel (n : Int) s).ch = s.ch + (lsdDigits n).length := by
  have h := out_digitLoop fuel n s s.ch (le_refl _) hf
  have hl := congrArg List.length h
  simp only [out, bytesAt_length, List.length_append, sub_self, Int.toNat_zero, zero_add] at hl
  have hmono : s.ch ≤ (digitLoop fuel (n : Int) s).ch := by
    clear h hl
    induction fuel generalizing n s with
    | zero => omega
    | succ k ih =>
      simp only [digitLoop]
      have hdiv : (n : Int).tdiv 10 = ((n / 10 : Nat) : Int) := by
        rw [Int.tdiv_eq_ediv (by omega) (by omega)]; norm_cast
      rw [hdiv]
      split
      · have := ih (n / 10) (s.put (toByte (48 + (n : Int).tmod 10))) (by omega)
        simp only [Cur.put, Cur.move, Cur.store] at this ⊢
        omega
      · simp only [Cur.put, Cur.move, Cur.store]; omega
  omega


/-! ## Appending writers -/

theorem appends_write_chars (x : List Nat) : Appends (write_chars x) (cstr x) := by
  induction x with
  | nil => exact appends_id
  | cons c t ih =>
    intro s lo hlo
    simp only [write_chars, cstr]
    split
    · simp
    · have h := Appends.comp (appends_put c) ih s lo hlo
      simpa using h

theorem cstr_of_nulFree (x : List Nat) (h : NulFree x) : cstr x = x := by
  induction x with
  | nil => rfl
  | cons c t ih =>
    have hc : c ≠ 0 := h c (List.mem_cons_self _ _)
    have ht : NulFree t := fun d hd => h d (List.mem_cons_of_mem _ hd)
    simp [cstr, hc, ih ht]

/-- The digit loop followed by the in-place reversal appends the canonical numeral. -/
theorem out_digits_reversed (n : Nat) (s : Cur) (lo : Int) (hlo : lo ≤ s.ch) :
    out lo (reverse (digitLoop (n + 1) (n : Int) s).ch s.ch (digitLoop (n + 1) (n : Int) s))
      = out lo s ++ decimalNat n := by
  have h1 := out_digitLoop (n + 1) n s lo hlo (by omega)
  have h2 := digitLoop_ch (n + 1) n s (by omega)
  exact out_reverse _ lo s.ch (out lo s) (lsdDigits n) hlo h2.symm h1

/-- The body shared by `writeInt32` and `writeInt64` after the sentinel test. -/
theorem out_signed (x : Int) (s : Cur) (lo : Int) (hlo : lo ≤ s.ch) :
    out lo (reverse
        (digitLoop ((if x < 0 then -x else x).toNat + 1) (if x < 0 then -x else x)
          (if x < 0 then s.put 45 else s)).ch
        (if x < 0 then s.put 45 else s).ch
        (digitLoop ((if x < 0 then -x else x).toNat + 1) (if x < 0 then -x else x)
          (if x < 0 then s.put 45 else s)))
      = out lo s ++ decimal x := by
  have habs : (if x < 0 then -x else x) = ((x.natAbs : Nat) : Int) := by
    split <;> omega
  rw [habs, Int.toNat_ofNat]
  unfold decimal
  by_cases hneg : x < 0
  · simp only [hneg, if_true]
    rw [out_digits_reversed _ _ lo (by simp [Cur.put, Cur.move, Cur.store]; omega),
      out_put _ _ _ hlo]
    simp
  · simp only [hneg, if_false]
    exact out_digits_reversed _ _ lo hlo

theorem appends_writeInt32 (g : Globals) (col : Col) (row : Int) :
    Appends (writeInt32 g col row)
      (if col.int32s row = INT32_MIN then cstr g.na else decimal (col.int32s row)) := by
  intro s lo hlo
  unfold writeInt32
  by_cases hx : col.int32s row = INT32_MIN
  · simp only [hx, if_true]
    exact appends_write_chars g.na s lo hlo
  · simp only [hx, if_false]
    exact out_signed _ s lo hlo

theorem appends_writeInt64 (g : Globals) (col : Col) (row : Int) :
    Appends (writeInt64 g col row)
      (if col.int64s row = INT64_MIN then cstr g.na else decimal (col.int64s row)) := by
  intro s lo hlo
  unfold writeInt64
  by_cases hx : col.int64s row = INT64_MIN
  · simp only [hx, if_true]
    exact appends_write_chars g.na s lo hlo
  · simp only [hx, if_false]
    exact out_signed _ s lo hlo

/-! ## Reading a numeral back -/

theorem parseNatFrom_append (acc : Nat) (a : List Nat) (c : Nat) :
    parseNatFrom acc (a ++ [c])
      = (parseNatFrom acc a).bind
          (fun v => if 48 ≤ c ∧ c ≤ 57 then some (10 * v + (c - 48)) else none) := by
  induction a generalizing acc with
  | nil => simp [parseNatFrom]
  | cons d t ih =>
    simp only [List.cons_append, parseNatFrom]
    split
    · exact ih _
    · rfl

theorem parseNatFrom_digits (l : List Nat) (h : ∀ d ∈ l, d < 10) :
    parseNatFrom 0 ((l.map (fun d => 48 + d)).reverse) = some (Nat.ofDigits 10 l) := by
  induction l with
  | nil => simp [parseNatFrom]
  | cons d t ih =>
    have hd : d < 10 := h d (List.mem_cons_self _ _)
    have ht : ∀ e ∈ t, e < 10 := fun e he => h e (List.mem_cons_of_mem _ he)
    rw [List.map_cons, List.reverse_cons, parseNatFrom_append, ih ht]
    simp only [Option.some_bind]
    rw [if_pos (by omega), Nat.ofDigits_cons]
    simp only [Nat.cast_id, Option.some.injEq]
    omega

theorem parseNatFrom_decimalNat (n : Nat) : parseNatFrom 0 (decimalNat n) = some n := by
  unfold decimalNat lsdDigits
  by_cases h0 : n = 0
  · subst h0; simp [parseNatFrom]
  · rw [if_neg h0, parseNatFrom_digits _ (fun d hd => Nat.digits_lt_base (by omega) hd),
      Nat.ofDigits_digits]

theorem decimalNat_head (n : Nat) :
    ∃ c t, decimalNat n = c :: t ∧ 48 ≤ c ∧ c ≤ 57 ∧ (n ≠ 0 → c ≠ 48) := by
  unfold decimalNat lsdDigits
  by_cases h0 : n = 0
  · subst h0; exact ⟨48, [], by simp, by omega, by omega, fun h => absurd rfl h⟩
  · rw [if_neg h0]
    have hne : Nat.digits 10 n ≠ [] := Nat.digits_ne_nil_iff_ne_zero.mpr h0
    have hlast := Nat.getLast_digit_ne_zero 10 h0
    have hmem : (Nat.digits 10 n).getLast hne ∈ Nat.digits 10 n := List.getLast_mem hne
    have hlt := Nat.digits_lt_base (by omega : 1 < 10) hmem
    obtain ⟨init, hinit⟩ : ∃ init, Nat.digits 10 n = init ++ [(Nat.digits 10 n).getLast hne] :=
      ⟨(Nat.digits 10 n).dropLast, (List.dropLast_append_getLast hne).symm⟩
    refine ⟨48 + (Nat.digits 10 n).getLast hne, (init.map (fun d => 48 + d)).reverse, ?_, by omega,
      by omega, fun _ => by omega⟩
    conv_lhs => rw [hinit]
    simp

theorem parseDecimal_decimal (x : Int) : parseDecimal (decimal x) = some x := by
  obtain ⟨c, t, hct, h1, h2, _⟩ := decimalNat_head x.natAbs
  have hp := parseNatFrom_decimalNat x.natAbs
  unfold decimal
  by_cases hneg : x < 0
  · rw [if_pos hneg, hct]
    rw [hct] at hp
    simp only [parseDecimal, if_true, hp, Option.map_some', Option.some.injEq]
    omega
  · rw [if_neg hneg, hct]
    rw [hct] at hp
    simp only [parseDecimal]
    rw [if_neg (by omega), hp]
    simp only [Option.map_some', Option.some.injEq]
    omega

theorem appends_cond_put (c : Prop) [Decidable c] (b : Nat) :
    Appends (fun s => if c then s.put b else s) (if c then [b] else []) := by
  by_cases h : c
  · simp only [h, if_true]; exact appends_put b
  · simp only [h, if_false]; exact appends_id

theorem out_move_back (s : Cur) (lo : Int) (l : List Nat) (b : Nat) (h : out lo s = l ++ [b]) :
    out lo (s.move (-1)) = l := by
  have hlen := congrArg List.length h
  simp only [out, bytesAt_length, List.length_append, List.length_singleton] at hlen
  unfold out at h ⊢
  simp only [Cur.move]
  have h1 : (s.ch + -1 - lo).toNat = l.length := by omega
  rw [hlen, bytesAt_add] at h
  rw [h1]
  exact (List.append_inj h (by rw [bytesAt_length])).1

theorem out_store_at_cursor (s : Cur) (lo : Int) (b : Nat) (hlo : lo ≤ s.ch) :
    out lo ((s.store s.ch b).move 0) = out lo s := by
  have h := out_of_frame s ((s.store s.ch b).move 0) lo [] hlo (by simp [Cur.move, Cur.store])
    (fun a _ h2 => by simp only [Cur.move, Cur.store]; rw [if_neg (by omega)])
    (fun i hi => by simp at hi)
  simpa using h

theorem appends_putSep (args : fwriteMainArgs) :
    Appends (putSep (fwriteMainGlobals args)) (sepBytes args.sep) := by
  intro s lo hlo
  unfold putSep sepBytes fwriteMainGlobals
  by_cases h : args.sep = 0
  · simp only [h, if_true]
    simpa using out_store_at_cursor s lo 0 hlo
  · simp only [h, if_false]
    exact out_put s lo args.sep hlo

theorem appends_writeCells (g : Globals) (args : fwriteMainArgs) (i : Int) (cells : Nat → List Nat)
    (sep : List Nat) (hsep : Appends (putSep g) sep) (n j : Nat)
    (hcells : ∀ k, j ≤ k → k < j + n →
      Appends (args.funs (args.whichFun k) g (args.columns k) i) (cells k)) :
    Appends (writeCells g args i n j)
      (((List.range' j n).map (fun k => cells k ++ sep)).flatten) := by
  induction n generalizing j with
  | zero => exact appends_id
  | succ m ih =>
    have h1 := hcells j (le_refl _) (by omega)
    have h2 := ih (j + 1) (fun k hk1 hk2 => hcells k (by omega) (by omega))
    have h := Appends.comp (Appends.comp h1 hsep) h2
    intro s lo hlo
    have := h s lo hlo
    simpa [writeCells, List.range'_succ] using this

theorem flatten_sep_eq_intercalate (sep : List Nat) (l : List (List Nat)) (h : l ≠ []) :
    (l.map (fun c => c ++ sep)).flatten = List.intercalate sep l ++ sep := by
  induction l with
  | nil => exact absurd rfl h
  | cons a t ih =>
    cases t with
    | nil => simp [List.intercalate]
    | cons b u =>
      have := ih (by simp)
      simp only [List.map_cons, List.flatten_cons] at this ⊢
      rw [this]
      simp [List.intercalate]

theorem appends_writeRowName (g : Globals) (args : fwriteMainArgs) (i : Int) (rnCell : List Nat)
    (hi : 0 ≤ i)
    (hrn : ∀ rowNames, args.rowNames = some rowNames →
      Appends (args.funs args.rowNameFun g rowNames i) rnCell) :
    Appends (writeRowName g args i) (rowNameText g args i rnCell) := by
  unfold writeRowName rowNameText
  cases hr : args.rowNames with
  | none =>
    have h2 := appends_writeInt64 g { int64s := fun _ => i + 1 } 0
    have hne : ¬ (i + 1 = INT64_MIN) := by unfold INT64_MIN; omega
    simp only [hne, if_false] at h2
    exact Appends.comp (Appends.comp (appends_cond_put _ 34) h2) (appends_cond_put _ 34)
  | some rowNames =>
    exact Appends.comp (Appends.comp (appends_cond_put _ 34) (hrn rowNames hr)) (appends_cond_put _ 34)

/-! ## Strings -/

theorem Appends.unique {f : Cur → Cur} {l1 l2 : List Nat} (h1 : Appends f l1) (h2 : Appends f l2) :
    l1 = l2 := by
  have a := h1 (Cur.init 0) 0 (le_refl _)
  have b := h2 (Cur.init 0) 0 (le_refl _)
  rw [a] at b
  exact List.append_cancel_left b

theorem appends_copyDouble (x : List Nat) : Appends (copyDouble x) (escDouble (cstr x)) := by
  induction x with
  | nil => exact appends_id
  | cons c t ih =>
    by_cases h0 : c = 0
    · intro s lo _
      simp [copyDouble, cstr, escDouble, h0]
    · have h := Appends.comp (Appends.comp (appends_cond_put (c = 34) 34) (appends_put c)) ih
      intro s lo hlo
      have := h s lo hlo
      by_cases h34 : c = 34
      · simpa [copyDouble, cstr, escDouble, h0, h34] using this
      · simpa [copyDouble, cstr, escDouble, h0, h34] using this

theorem appends_copyEscape (x : List Nat) : Appends (copyEscape x) (escBackslash (cstr x)) := by
  induction x with
  | nil => exact appends_id
  | cons c t ih =>
    by_cases h0 : c = 0
    · intro s lo _
      simp [copyEscape, cstr, escBackslash, h0]
    · have h := Appends.comp (Appends.comp (appends_cond_put (c = 34 ∨ c = 92) 92) (appends_put c)) ih
      intro s lo hlo
      have := h s lo hlo
      by_cases hsp : c = 34 ∨ c = 92
      · simpa [copyEscape, cstr, escBackslash, h0, hsp] using this
      · simpa [copyEscape, cstr, escBackslash, h0, hsp] using this

theorem appends_writeQuoted (g : Globals) (q : Int) (x : List Nat) :
    Appends (writeQuoted g q x) (if q = 0 then cstr x else quoted g (cstr x)) := by
  unfold writeQuoted quoted esc
  by_cases hq : q = 0
  · simp only [hq, if_true]
    exact appends_write_chars x
  · simp only [hq, if_false]
    by_cases hm : g.qmethodEscape = true
    · simp only [hm, if_true]
      have h := Appends.comp (Appends.comp (appends_put 34) (appends_copyEscape x)) (appends_put 34)
      simpa using h
    · simp only [hm]
      have h := Appends.comp (Appends.comp (appends_put 34) (appends_copyDouble x)) (appends_put 34)
      simpa using h

theorem copyPlain_spec (g : Globals) (x : List Nat) (s : Cur) (lo : Int) (hlo : lo ≤ s.ch) :
    (copyPlain g x s).1 = x.dropWhile (isPlain g)
      ∧ out lo (copyPlain g x s).2 = out lo s ++ x.takeWhile (isPlain g) := by
  induction x generalizing s with
  | nil => simp [copyPlain]
  | cons c t ih =>
    by_cases hp : c ≠ 0 ∧ c ≠ g.sep ∧ c ≠ g.sep2 ∧ c ≠ 10 ∧ c ≠ 13 ∧ c ≠ 34
    · have hb : isPlain g c = true := by simp [isPlain, hp]
      have h := ih (s.put c) (by simp [Cur.put, Cur.move, Cur.store]; omega)
      simp only [copyPlain, if_pos hp, List.dropWhile_cons, List.takeWhile_cons, hb, if_true]
      refine ⟨h.1, ?_⟩
      rw [h.2, out_put _ _ _ hlo]
      simp
    · have hb : isPlain g c = false := by simp only [isPlain, decide_eq_false_iff_not]; exact hp
      simp [copyPlain, if_neg hp, List.dropWhile_cons, List.takeWhile_cons, hb]

theorem out_rewind (s s2 : Cur) (lo : Int) (l : List Nat) (t : Int)
    (h : out lo s2 = out lo s ++ l) :
    out lo { mem := s2.mem, ch := s.ch, top := t } = out lo s := by
  have hlen := congrArg List.length h
  simp only [out, bytesAt_length, List.length_append] at hlen
  unfold out at h ⊢
  simp only []
  rw [hlen, bytesAt_add] at h
  exact (List.append_inj h (by rw [bytesAt_length, bytesAt_length])).1

theorem needsQuote_iff (g : Globals) (x : List Nat) (hx : NulFree x) :
    needsQuote g x ↔ x = [] ∨ x.dropWhile (isPlain g) ≠ [] := by
  unfold needsQuote
  constructor
  · rintro (h | ⟨c, hc, hsp⟩)
    · exact Or.inl h
    · right
      intro hd
      have hall := List.dropWhile_eq_nil_iff.mp hd c hc
      simp only [isPlain, decide_eq_true_eq] at hall
      omega
  · rintro (h | h)
    · exact Or.inl h
    · right
      by_contra hno
      apply h
      apply List.dropWhile_eq_nil_iff.mpr
      intro c hc
      simp only [isPlain, decide_eq_true_eq]
      have h0 := hx c hc
      refine ⟨h0, ?_, ?_, ?_, ?_, ?_⟩ <;> (intro he; exact hno ⟨c, hc, by simp [he]⟩)

theorem strHead_eq_zero_iff (x : List Nat) (hx : NulFree x) : strHead x = 0 ↔ x = [] := by
  cases x with
  | nil => simp [strHead]
  | cons c t =>
    have := hx c (List.mem_cons_self _ _)
    simp [strHead, this]

theorem nulFree_dropWhile (p : Nat → Bool) (x : List Nat) (hx : NulFree x) :
    NulFree (x.dropWhile p) :=
  fun c hc => hx c ((List.dropWhile_sublist p).subset hc)

/-- What `write_string` appends for a NUL-free string. -/
theorem appends_write_string (g : Globals) (x : List Nat) (hx : NulFree x) :
    Appends (write_string g (some x))
      (if g.doQuote = INT8_MIN then (if needsQuote g x then quoted g x else x)
       else if g.doQuote = 0 then x else quoted g x) := by
  have hc := cstr_of_nulFree x hx
  unfold write_string
  simp only []
  by_cases hq : g.doQuote = INT8_MIN
  · simp only [hq, if_true]
    by_cases he : x = []
    · subst he
      have hn : needsQuote g [] := Or.inl rfl
      simp only [hn, if_true, strHead]
      have h := Appends.comp (appends_put 34) (appends_put 34)
      intro s lo hlo
      have := h s lo hlo
      simpa [quoted, esc, escDouble, escBackslash] using this
    · have hsh : ¬ strHead x = 0 := by rw [strHead_eq_zero_iff x hx]; exact he
      intro s lo hlo
      simp only [hsh, if_false]
      obtain ⟨h1, h2⟩ := copyPlain_spec g x s lo hlo
      by_cases hd : x.dropWhile (isPlain g) = []
      · have hn : ¬ needsQuote g x := by
          rw [needsQuote_iff g x hx]; simp [he, hd]
        have htw : x.takeWhile (isPlain g) = x := by
          have := List.takeWhile_append_dropWhile (isPlain g) x
          rw [hd, List.append_nil] at this
          exact this
        have hr : strHead (copyPlain g x s).1 = 0 := by rw [h1, hd]; rfl
        simp only [hn, if_false, hr, if_true]
        rw [h2, htw]
      · have hn : needsQuote g x := by
          rw [needsQuote_iff g x hx]; exact Or.inr hd
        have hr : ¬ strHead (copyPlain g x s).1 = 0 := by
          rw [h1, strHead_eq_zero_iff _ (nulFree_dropWhile _ x hx)]; exact hd
        simp only [hn, if_true, hr, if_false]
        have hw := appends_writeQuoted g 1 x
          { mem := (copyPlain g x s).2.mem, ch := s.ch, top := (copyPlain g x s).2.top } lo hlo
        rw [hw, out_rewind s _ lo _ _ h2, hc]
        simp
  · simp only [hq, if_false]
    have hw := appends_writeQuoted g g.doQuote x
    rw [hc] at hw
    exact hw

theorem length_escDouble (x : List Nat) : x.length ≤ (escDouble x).length := by
  induction x with
  | nil => simp [escDouble]
  | cons c t ih =>
    simp only [escDouble]
    split <;> simp <;> omega

theorem length_escBackslash (x : List Nat) : x.length ≤ (escBackslash x).length := by
  induction x with
  | nil => simp [escBackslash]
  | cons c t ih =>
    simp only [escBackslash]
    split <;> simp <;> omega

theorem quoted_ne_self (g : Globals) (x : List Nat) : quoted g x ≠ x := by
  intro h
  have hl := congrArg List.length h
  have h1 := length_escDouble x
  have h2 := length_escBackslash x
  unfold quoted esc at hl
  split at hl <;> simp at hl <;> omega

theorem unescDouble_escDouble (x : List Nat) : unescDouble (escDouble x) = x := by
  induction x with
  | nil => rfl
  | cons c t ih =>
    simp only [escDouble]
    by_cases h : c = 34
    · simp [h, unescDouble, ih]
    · simp only [h, if_false]
      cases he : escDouble t with
      | nil =>
        rw [he] at ih
        simp [unescDouble] at ih ⊢
        exact ih
      | cons d u =>
        rw [he] at ih
        simp [unescDouble, h, ih]

theorem unescBackslash_escBackslash (x : List Nat) : unescBackslash (escBackslash x) = x := by
  induction x with
  | nil => rfl
  | cons c t ih =>
    simp only [escBackslash]
    by_cases h : c = 34 ∨ c = 92
    · simp [h, unescBackslash, ih]
    · simp only [h, if_false]
      have h92 : c ≠ 92 := fun e => h (Or.inr e)
      cases he : escBackslash t with
      | nil =>
        rw [he] at ih
        simp [unescBackslash] at ih ⊢
        exact ih
      | cons d u =>
        rw [he] at ih
        simp [unescBackslash, h92, ih]

/-! ## Times -/

/-- The statements `*ch++ = b; ch -= squashDateTime;`. -/
theorem appends_put_retract (sq : Bool) (b : Nat) :
    Appends (fun s => (s.put b).move (-(b2i sq))) (if sq then [] else [b]) := by
  intro s lo hlo
  cases sq with
  | true =>
    simp only [b2i, if_true, List.append_nil]
    exact out_move_back _ lo _ b (out_put s lo b hlo)
  | false =>
    have hm : ∀ t : Cur, t.move (-(b2i false)) = t := fun t => by simp [Cur.move, b2i]
    simp only [hm]
    simpa using out_put s lo b hlo

theorem appends_write_time (g : Globals) (x : Int) (hx : ¬ x < 0) :
    Appends (write_time g x)
      ([toByte (48 + (timeFields x).1.tdiv 10), toByte (48 + (timeFields x).1.tmod 10)]
        ++ (if g.squashDateTime then [] else [58])
        ++ [toByte (48 + (timeFields x).2.1.tdiv 10), toByte (48 + (timeFields x).2.1.tmod 10)]
        ++ (if g.squashDateTime then [] else [58])
        ++ [toByte (48 + (timeFields x).2.2.tdiv 10), toByte (48 + (timeFields x).2.2.tmod 10)]) := by
  have h := Appends.comp (Appends.comp (Appends.comp (Appends.comp (Appends.comp (Appends.comp
    (Appends.comp
      (appends_put (toByte (48 + (timeFields x).1.tdiv 10)))
      (appends_put (toByte (48 + (timeFields x).1.tmod 10))))
      (appends_put_retract g.squashDateTime 58))
      (appends_put (toByte (48 + (timeFields x).2.1.tdiv 10))))
      (appends_put (toByte (48 + (timeFields x).2.1.tmod 10))))
      (appends_put_retract g.squashDateTime 58))
      (appends_put (toByte (48 + (timeFields x).2.2.tdiv 10))))
      (appends_put (toByte (48 + (timeFields x).2.2.tmod 10)))
  intro s lo hlo
  have h2 := h s lo hlo
  unfold write_time
  rw [if_neg hx]
  simp only [timeFields] at h2 ⊢
  rw [h2]
  simp

theorem toByte_digit_div (n : Int) (h0 : 0 ≤ n) (h1 : n ≤ 99) :
    toByte (48 + n.tdiv 10) = digit (n / 10) := by
  unfold toByte digit
  rw [Int.tdiv_eq_ediv h0 (by omega)]
  omega

theorem toByte_digit_mod (n : Int) (h0 : 0 ≤ n) : toByte (48 + n.tmod 10) = digit n := by
  unfold toByte digit
  rw [Int.tmod_eq_emod h0 (by omega)]
  omega

theorem timeFields_range (x : Int) (h0 : 0 ≤ x) (h1 : x ≤ 86399) :
    0 ≤ (timeFields x).1 ∧ (timeFields x).1 ≤ 23 ∧ 0 ≤ (timeFields x).2.1
      ∧ (timeFields x).2.1 ≤ 59 ∧ 0 ≤ (timeFields x).2.2 ∧ (timeFields x).2.2 ≤ 59
      ∧ 3600 * (timeFields x).1 + 60 * (timeFields x).2.1 + (timeFields x).2.2 = x := by
  unfold timeFields
  simp only []
  rw [Int.tdiv_eq_ediv h0 (by omega), Int.tmod_eq_emod h0 (by omega),
    Int.tdiv_eq_ediv (by omega) (by omega)]
  omega

/-! ## Dates -/

theorem out_of_frame_bytes (s s2 : Cur) (lo : Int) (l : List Nat) (hlo : lo ≤ s.ch)
    (hch : s2.ch = s.ch + l.length)
    (hold : ∀ a, a < s.ch → s2.mem a = s.mem a)
    (hnew : bytesAt s2.mem s.ch l.length = l) :
    out lo s2 = out lo s ++ l := by
  unfold out
  have h1 : (s2.ch - lo).toNat = (s.ch - lo).toNat + l.length := by omega
  rw [h1, bytesAt_add]
  congr 1
  · exact bytesAt_congr _ _ _ _ (fun a _ h2 => hold a (by omega))
  · have h3 : lo + ((s.ch - lo).toNat : Int) = s.ch := by omega
    rw [h3]
    exact hnew

theorem appends_write_date (g : Globals) (x : Int) (hx : ¬ (x < -719468 ∨ x > 2932896)) :
    Appends (write_date g x) (dateBytes g.squashDateTime (dateYear x) (dateMD x)) := by
  intro s lo hlo
  unfold write_date
  rw [if_neg hx]
  simp only []
  have hy : (marchYear (x + 719468)
      + b2i (decide (marchDay (x + 719468) ≠ 0) && decide ((dateMD x).tdiv 100 < 3))) = dateYear x := rfl
  have hmd : monthday (marchDay (x + 719468)) = dateMD x := rfl
  have hz : x + 719468 - marchYear (x + 719468) * 365 - (marchYear (x + 719468)).tdiv 4
      + (marchYear (x + 719468)).tdiv 100 - (marchYear (x + 719468)).tdiv 400 + 1
      = marchDay (x + 719468) := rfl
  have hmy : (x + 719468 - (x + 719468).tdiv 1461 + (x + 719468).tdiv 36525
      - (x + 719468).tdiv 146097).tdiv 365 = marchYear (x + 719468) := rfl
  rw [hmy, hz, hmd, hy]
  generalize dateYear x = y
  generalize dateMD x = md
  obtain ⟨m, c, t⟩ := s
  cases g.squashDateTime with
  | true =>
    apply out_of_frame_bytes _ _ lo _ hlo
    · simp only [Cur.putBack, Cur.move, Cur.store, b2i, dateBytes, Bool.not_true,
        Bool.false_eq_true, if_true, if_false, List.append_nil, List.cons_append,
        List.nil_append, List.length_cons, List.length_nil]
      push_cast
      omega
    · intro a ha
      simp only [Cur.putBack, Cur.move, Cur.store, b2i, Bool.not_true,
        Bool.false_eq_true, if_true, if_false] at ha ⊢
      repeat (first | rw [if_pos (by omega)] | rw [if_neg (by omega)])
    · simp only [Cur.putBack, Cur.move, Cur.store, b2i, dateBytes, bytesAt, Bool.not_true,
        Bool.false_eq_true, if_true, if_false, List.append_nil, List.cons_append,
        List.nil_append, List.length_cons, List.length_nil]
      repeat (first | rw [if_pos (by omega)] | rw [if_neg (by omega)])
  | false =>
    apply out_of_frame_bytes _ _ lo _ hlo
    · simp only [Cur.putBack, Cur.move, Cur.store, b2i, dateBytes, Bool.not_false,
        Bool.false_eq_true, if_true, if_false, List.append_nil, List.cons_append,
        List.nil_append, List.length_cons, List.length_nil]
      push_cast
      omega
    · intro a ha
      simp only [Cur.putBack, Cur.move, Cur.store, b2i, Bool.not_false,
        Bool.false_eq_true, if_true, if_false] at ha ⊢
      repeat (first | rw [if_pos (by omega)] | rw [if_neg (by omega)])
    · simp only [Cur.putBack, Cur.move, Cur.store, b2i, dateBytes, bytesAt, Bool.not_false,
        Bool.false_eq_true, if_true, if_false, List.append_nil, List.cons_append,
        List.nil_append, List.length_cons, List.length_nil]
      repeat (first | rw [if_pos (by omega)] | rw [if_neg (by omega)])

theorem allFrom_spec (f : Nat → Bool) (n s : Nat) (h : allFrom f n s = true) (i : Nat)
    (h1 : s ≤ i) (h2 : i < s + n) : f i = true := by
  induction n generalizing s with
  | zero => omega
  | succ k ih =>
    simp only [allFrom, Bool.and_eq_true] at h
    by_cases hi : i = s
    · rw [hi]; exact h.1
    · exact ih (s + 1) h.2 (by omega) (by omega)

theorem allJumps_ok : allFrom (fun k => allFrom jumpOK 100 (100 * k)) 100 0 = true := by
  decide!

theorem table_ok : allFrom tableOK 365 1 = true := by
  decide!

theorem jump_spec (y : Nat) (h1 : 1 ≤ y) (h2 : y ≤ 9999) :
    marchN (daysBefore y - leapN y - 1) < 365 * y
      ∧ 365 * y ≤ marchN (daysBefore y - leapN y) := by
  have hk := allFrom_spec _ 100 0 allJumps_ok (y / 100) (by omega) (by omega)
  have hy := allFrom_spec jumpOK 100 (100 * (y / 100)) hk y (by omega) (by omega)
  simp only [jumpOK, Bool.or_eq_true, beq_iff_eq, Bool.and_eq_true, decide_eq_true_eq] at hy
  rcases hy with h0 | h
  · omega
  · exact h

theorem marchN_step (x : Nat) (h : x + 1 ≤ 3652364) : marchN x ≤ marchN (x + 1) := by
  unfold marchN
  omega

theorem marchN_mono (a b : Nat) (hab : a ≤ b) (hb : b ≤ 3652364) : marchN a ≤ marchN b := by
  induction b with
  | zero =>
    have : a = 0 := by omega
    rw [this]
  | succ k ih =>
    by_cases h : a = k + 1
    · rw [h]
    · exact le_trans (ih (by omega) (by omega)) (marchN_step k hb)

theorem daysBefore_int (y : Nat) :
    (daysBefore y : Int) = 365 * y + (y : Int) / 4 - (y : Int) / 100 + (y : Int) / 400 := by
  unfold daysBefore
  omega

theorem div_step (k : Int) (hk : 0 < k) (y : Int) :
    (y + 1) / k = y / k + (if (y + 1) % k = 0 then 1 else 0) := by
  have h1 := Int.emod_add_ediv (y + 1) k
  have h2 := Int.emod_add_ediv y k
  have h3 := Int.emod_nonneg y (by omega : k ≠ 0)
  have h4 := Int.emod_lt_of_pos y hk
  have h5 := Int.emod_nonneg (y + 1) (by omega : k ≠ 0)
  have h6 := Int.emod_lt_of_pos (y + 1) hk
  split
  · next h =>
    rw [h] at h1
    have : k * ((y + 1) / k - y / k - 1) = y % k + 1 - k := by linarith
    have hz : (y + 1) / k - y / k - 1 = 0 := by
      by_contra hne
      rcases lt_or_gt_of_ne hne with hlt | hgt
      · have : k * ((y + 1) / k - y / k - 1) ≤ k * (-1) := by
          apply mul_le_mul_of_nonneg_left (by omega) (by omega)
        omega
      · have : k * 1 ≤ k * ((y + 1) / k - y / k - 1) := by
          apply mul_le_mul_of_nonneg_left (by omega) (by omega)
        omega
    omega
  · next h =>
    have : k * ((y + 1) / k - y / k) = y % k + 1 - (y + 1) % k := by linarith
    have hz : (y + 1) / k - y / k = 0 := by
      by_contra hne
      rcases lt_or_gt_of_ne hne with hlt | hgt
      · have : k * ((y + 1) / k - y / k) ≤ k * (-1) := by
          apply mul_le_mul_of_nonneg_left (by omega) (by omega)
        omega
      · have : k * 1 ≤ k * ((y + 1) / k - y / k) := by
          apply mul_le_mul_of_nonneg_left (by omega) (by omega)
        omega
    omega

theorem daysBefore_succ (y : Nat) : daysBefore (y + 1) = daysBefore y + 365 + leapN (y + 1) := by
  have h : (daysBefore (y + 1) : Int) = daysBefore y + 365 + leapN (y + 1) := by
    rw [daysBefore_int, daysBefore_int]
    push_cast
    rw [div_step 4 (by norm_num), div_step 100 (by norm_num), div_step 400 (by norm_num)]
    unfold leapN
    have h1 : ((y : Int) + 1) % 400 = 0 → ((y : Int) + 1) % 100 = 0 := by omega
    have h2 : ((y : Int) + 1) % 100 = 0 → ((y : Int) + 1) % 4 = 0 := by omega
    have e4 : ((y + 1) % 4 = 0) ↔ (((y : Int) + 1) % 4 = 0) := by omega
    have e100 : ((y + 1) % 100 = 0) ↔ (((y : Int) + 1) % 100 = 0) := by omega
    have e400 : ((y + 1) % 400 = 0) ↔ (((y : Int) + 1) % 400 = 0) := by omega
    simp only [e4, e100, e400, ne_eq]
    by_cases c4 : ((y : Int) + 1) % 4 = 0 <;> by_cases c100 : ((y : Int) + 1) % 100 = 0 <;>
      by_cases c400 : ((y : Int) + 1) % 400 = 0 <;> simp [c4, c100, c400] <;> omega
  exact_mod_cast h

theorem daysBefore_le (y : Nat) (h : y ≤ 9999) : daysBefore y ≤ 3652059 := by
  unfold daysBefore
  omega

/-- The year computed by line 374 is the year of the preceding 1 March, except on
29 February, which it counts to the year that starts the next day. -/
theorem marchN_bounds (x : Nat) (hx : x ≤ 3652364) :
    marchN x / 365 ≤ 9999
      ∧ daysBefore (marchN x / 365) - leapN (marchN x / 365) ≤ x
      ∧ x ≤ daysBefore (marchN x / 365) + 364 := by
  have hy : marchN x / 365 ≤ 9999 := by
    have := marchN_mono x 3652364 hx (le_refl _)
    have e : marchN 3652364 = 3649940 := by decide
    omega
  have hlow : 365 * (marchN x / 365) ≤ marchN x := by omega
  have hupp : marchN x < 365 * (marchN x / 365 + 1) := by omega
  generalize marchN x / 365 = y at hy hlow hupp
  refine ⟨hy, ?_, ?_⟩
  · by_contra hc
    have hy1 : 1 ≤ y := by
      by_contra h0
      have : y = 0 := by omega
      subst this
      simp [daysBefore] at hc
    have hj := (jump_spec y hy1 hy).1
    have hb := daysBefore_le y hy
    have := marchN_mono x (daysBefore y - leapN y - 1) (by omega) (by omega)
    omega
  · by_contra hc
    by_cases h9 : y = 9999
    · subst h9
      have : daysBefore 9999 = 3652059 := by decide
      omega
    · have hj := (jump_spec (y + 1) (by omega) (by omega)).2
      have hs := daysBefore_succ y
      have hb := daysBefore_le (y + 1) (by omega)
      have := marchN_mono (daysBefore (y + 1) - leapN (y + 1)) x (by omega) hx
      omega

theorem marchYear_cast (n : Nat) : marchYear (n : Int) = ((marchN n / 365 : Nat) : Int) := by
  unfold marchYear marchN
  rw [Int.tdiv_eq_ediv (by omega : (0 : Int) ≤ (n : Int)) (by norm_num : (0 : Int) ≤ 1461),
    Int.tdiv_eq_ediv (by omega : (0 : Int) ≤ (n : Int)) (by norm_num : (0 : Int) ≤ 36525),
    Int.tdiv_eq_ediv (by omega : (0 : Int) ≤ (n : Int)) (by norm_num : (0 : Int) ≤ 146097),
    Int.tdiv_eq_ediv (by omega) (by norm_num : (0 : Int) ≤ 365)]
  omega

theorem marchDay_cast (n : Nat) :
    marchDay (n : Int) = (n : Int) - (daysBefore (marchN n / 365) : Nat) + 1 := by
  unfold marchDay
  rw [marchYear_cast, daysBefore_int]
  generalize marchN n / 365 = y
  rw [Int.tdiv_eq_ediv (by omega : (0 : Int) ≤ (y : Int)) (by norm_num : (0 : Int) ≤ 4),
    Int.tdiv_eq_ediv (by omega : (0 : Int) ≤ (y : Int)) (by norm_num : (0 : Int) ≤ 100),
    Int.tdiv_eq_ediv (by omega : (0 : Int) ≤ (y : Int)) (by norm_num : (0 : Int) ≤ 400)]
  omega

theorem monthday_cast (z : Nat) : monthday (z : Int) = ((monthdayTable.getD z 0 : Nat) : Int) := by
  unfold monthday
  rw [if_pos (by omega), Int.toNat_ofNat]

theorem table_spec (z : Nat) (h1 : 1 ≤ z) (h2 : z ≤ 365) :
    1 ≤ monthdayTable.getD z 0 / 100 ∧ monthdayTable.getD z 0 / 100 ≤ 12
      ∧ 1 ≤ monthdayTable.getD z 0 % 100
      ∧ monthdayTable.getD z 0 % 100
          ≤ (if monthdayTable.getD z 0 / 100 = 2 then 28
             else if monthdayTable.getD z 0 / 100 = 4 ∨ monthdayTable.getD z 0 / 100 = 6
                ∨ monthdayTable.getD z 0 / 100 = 9 ∨ monthdayTable.getD z 0 / 100 = 11 then 30
             else 31)
      ∧ (153 * (if monthdayTable.getD z 0 / 100 > 2 then monthdayTable.getD z 0 / 100 - 3
                else monthdayTable.getD z 0 / 100 + 9) + 2) / 5 + monthdayTable.getD z 0 % 100 = z := by
  have h := allFrom_spec tableOK 365 1 table_ok z h1 (by omega)
  simpa [tableOK] using h


theorem date_fields (x : Int) (h1 : -719468 ≤ x) (h2 : x ≤ 2932896) :
    ∃ y z : Nat, marchYear (x + 719468) = (y : Int) ∧ marchDay (x + 719468) = (z : Int)
      ∧ y ≤ 9999 ∧ z ≤ 365 ∧ x + 719468 + 1 = (daysBefore y : Int) + z
      ∧ (z = 0 → leapN y = 1 ∧ 1 ≤ y) := by
  obtain ⟨n, hn⟩ : ∃ n : Nat, x + 719468 = (n : Int) := ⟨(x + 719468).toNat, by omega⟩
  have hb := marchN_bounds n (by omega)
  rw [hn, marchYear_cast, marchDay_cast]
  generalize marchN n / 365 = y at hb
  obtain ⟨hy, hlo, hhi⟩ := hb
  have hl : leapN y ≤ 1 := by unfold leapN; split <;> omega
  refine ⟨y, n + 1 - daysBefore y, rfl, by omega, hy, by omega, by omega, ?_⟩
  intro hz
  have hy1 : 1 ≤ y := by
    by_contra h0
    have : y = 0 := by omega
    subst this
    simp [daysBefore] at hz
  exact ⟨by omega, hy1⟩

theorem era_split (y : Int) :
    y / 400 * 146097 + ((y - y / 400 * 400) * 365 + (y - y / 400 * 400) / 4
        - (y - y / 400 * 400) / 100)
      = 365 * y + y / 4 - y / 100 + y / 400 := by
  omega

theorem days_from_civil_eq (Y M D : Int) (y : Nat) (doy : Int)
    (hadj : (if M ≤ 2 then Y - 1 else Y) = (y : Int))
    (hdoy : (153 * (if M > 2 then M - 3 else M + 9) + 2) / 5 + D - 1 = doy) :
    days_from_civil Y M D = (daysBefore y : Int) + doy - 719468 := by
  unfold days_from_civil
  simp only []
  rw [hadj]
  have e := era_split (y : Int)
  have hd := daysBefore_int y
  have hh : (y : Int) / 400 * 146097
      + (((y : Int) - (y : Int) / 400 * 400) * 365 + ((y : Int) - (y : Int) / 400 * 400) / 4
        - ((y : Int) - (y : Int) / 400 * 400) / 100
        + ((153 * (if M > 2 then M - 3 else M + 9) + 2) / 5 + D - 1)) - 719468
      = (daysBefore y : Int) + doy - 719468 := by
    rw [hdoy, hd, ← e]
    ring
  exact hh

theorem date_civil (x : Int) (h1 : -719468 ≤ x) (h2 : x ≤ 2932896) :
    ∃ Y M D : Int, dateYear x = Y ∧ dateMD x = 100 * M + D ∧ 0 ≤ Y ∧ Y ≤ 9999
      ∧ 1 ≤ D ∧ D ≤ 31 ∧ validDate Y M D ∧ days_from_civil Y M D = x := by
  obtain ⟨y, z, hmy, hmz, hy, hz, hx, hleap⟩ := date_fields x h1 h2
  by_cases hz0 : z = 0
  · subst hz0
    obtain ⟨hl, hy1⟩ := hleap rfl
    obtain ⟨p, hp⟩ : ∃ p : Nat, y = p + 1 := ⟨y - 1, by omega⟩
    subst hp
    have hs := daysBefore_succ p
    rw [hl] at hs
    have hmd : dateMD x = 229 := by
      unfold dateMD
      rw [hmz, monthday_cast]
      rfl
    have hY : dateYear x = ((p + 1 : Nat) : Int) := by
      unfold dateYear
      rw [hmz, hmy]
      simp [b2i]
    have hlp : isLeap ((p + 1 : Nat) : Int) := by
      unfold leapN at hl
      unfold isLeap
      split at hl
      · omega
      · omega
    have hv : validDate ((p + 1 : Nat) : Int) 2 29 := by
      unfold validDate daysInMonth
      rw [if_pos rfl, if_pos hlp]
      norm_num
    have hd := days_from_civil_eq ((p + 1 : Nat) : Int) 2 29 p 365
      (by push_cast; norm_num) (by norm_num)
    refine ⟨((p + 1 : Nat) : Int), 2, 29, hY, by rw [hmd]; norm_num, by omega, by omega,
      by norm_num, by norm_num, hv, ?_⟩
    rw [hd]
    omega
  · have ht := table_spec z (by omega) hz
    have hdm := Nat.div_add_mod (monthdayTable.getD z 0) 100
    have hmd : dateMD x = ((monthdayTable.getD z 0 : Nat) : Int) := by
      unfold dateMD
      rw [hmz, monthday_cast]
    generalize monthdayTable.getD z 0 = md at ht hdm hmd
    generalize hm : md / 100 = m at ht hdm
    generalize hd : md % 100 = d at ht hdm
    obtain ⟨m1, m2, d1, d2, hdoy⟩ := ht
    have hmI : (md : Int) / 100 = (m : Int) := by omega
    have hY : dateYear x = (y : Int) + (if m < 3 then 1 else 0) := by
      unfold dateYear
      rw [hmz, hmy, hmd, Int.tdiv_eq_ediv (by omega) (by norm_num), hmI]
      have hzz : ((z : Int) ≠ 0) := by omega
      by_cases hm3 : m < 3
      · have : ((m : Int) < 3) := by omega
        simp [b2i, hzz, this, hm3]
      · have : ¬ ((m : Int) < 3) := by omega
        simp [b2i, hzz, this, hm3]
    have d31 : d ≤ 31 := by
      split at d2
      · omega
      · split at d2 <;> omega
    have hz307 : m < 3 → 307 ≤ z := by
      intro h3
      rw [if_neg (by omega)] at hdoy
      omega
    have hY9 : (y : Int) + (if m < 3 then 1 else 0) ≤ 9999 := by
      split
      · next h3 =>
        have := hz307 h3
        by_contra hc
        have : y = 9999 := by omega
        subst this
        have : daysBefore 9999 = 3652059 := by decide
        omega
      · omega
    have hv : validDate ((y : Int) + (if m < 3 then 1 else 0)) (m : Int) (d : Int) := by
      unfold validDate daysInMonth
      refine ⟨by omega, by omega, by omega, ?_⟩
      by_cases c2 : m = 2
      · have : (m : Int) = 2 := by omega
        rw [if_pos this]
        rw [if_pos c2] at d2
        split <;> omega
      · have : ¬ (m : Int) = 2 := by omega
        rw [if_neg this]
        rw [if_neg c2] at d2
        by_cases c30 : m = 4 ∨ m = 6 ∨ m = 9 ∨ m = 11
        · have : (m : Int) = 4 ∨ (m : Int) = 6 ∨ (m : Int) = 9 ∨ (m : Int) = 11 := by omega
          rw [if_pos this]
          rw [if_pos c30] at d2
          omega
        · have : ¬ ((m : Int) = 4 ∨ (m : Int) = 6 ∨ (m : Int) = 9 ∨ (m : Int) = 11) := by omega
          rw [if_neg this]
          rw [if_neg c30] at d2
          omega
    have hd := days_from_civil_eq ((y : Int) + (if m < 3 then 1 else 0)) (m : Int) (d : Int) y
      ((z : Int) - 1)
      (by
        by_cases h3 : m < 3
        · have : (m : Int) ≤ 2 := by omega
          simp [h3, this]
        · have : ¬ (m : Int) ≤ 2 := by omega
          simp [h3, this])
      (by
        by_cases h3 : m > 2
        · have : (m : Int) > 2 := by omega
          rw [if_pos this]
          rw [if_pos h3] at hdoy
          omega
        · have : ¬ (m : Int) > 2 := by omega
          rw [if_neg this]
          rw [if_neg h3] at hdoy
          omega)
    refine ⟨(y : Int) + (if m < 3 then 1 else 0), (m : Int), (d : Int), hY, by rw [hmd]; omega,
      by split <;> omega, hY9, by omega, by omega, hv, ?_⟩
    rw [hd]
    omega


theorem digit_congr (a b : Int) (h : a % 10 = b % 10) : digit a = digit b := by
  unfold digit
  rw [h]

theorem dateBytes_eq_dateText (sq : Bool) (Y M D : Int) (hY0 : 0 ≤ Y) (hM : 0 ≤ M)
    (hD0 : 0 ≤ D) (hD : D ≤ 99) :
    dateBytes sq Y (100 * M + D) = dateText sq Y M D := by
  have t1 : ∀ a : Int, 0 ≤ a → a.tdiv 10 = a / 10 :=
    fun a ha => Int.tdiv_eq_ediv ha (by norm_num)
  unfold dateBytes dateText digits4 digits2
  rw [t1 Y hY0, t1 (Y / 10) (by omega), t1 (Y / 10 / 10) (by omega),
    t1 (100 * M + D) (by omega), t1 ((100 * M + D) / 10) (by omega),
    t1 ((100 * M + D) / 10 / 10) (by omega),
    toByte_digit_mod _ hY0, toByte_digit_mod (Y / 10) (by omega),
    toByte_digit_mod (Y / 10 / 10) (by omega), toByte_digit_mod (Y / 10 / 10 / 10) (by omega),
    toByte_digit_mod (100 * M + D) (by omega), toByte_digit_mod ((100 * M + D) / 10) (by omega),
    toByte_digit_mod ((100 * M + D) / 10 / 10) (by omega),
    toByte_digit_mod ((100 * M + D) / 10 / 10 / 10) (by omega)]
  rw [digit_congr (Y / 10 / 10 / 10) (Y / 1000) (by omega),
    digit_congr (Y / 10 / 10) (Y / 100) (by omega),
    digit_congr ((100 * M + D) / 10 / 10 / 10) (M / 10) (by omega),
    digit_congr ((100 * M + D) / 10 / 10) M (by omega),
    digit_congr ((100 * M + D) / 10) (D / 10) (by omega),
    digit_congr (100 * M + D) D (by omega)]

/-- What `write_date` appends inside its domain. -/
theorem appends_write_date_text (g : Globals) (x : Int) (h1 : -719468 ≤ x) (h2 : x ≤ 2932896) :
    ∃ Y M D : Int, 0 ≤ Y ∧ Y ≤ 9999 ∧ validDate Y M D ∧ days_from_civil Y M D = x
      ∧ Appends (write_date g x) (dateText g.squashDateTime Y M D) := by
  obtain ⟨Y, M, D, hY, hMD, y0, y9, d1, d31, hv, hd⟩ := date_civil x h1 h2
  have h := appends_write_date g x (by omega)
  rw [hY, hMD, dateBytes_eq_dateText _ Y M D y0 (by unfold validDate at hv; omega) (by omega)
    (by omega)] at h
  exact ⟨Y, M, D, y0, y9, hv, hd, h⟩

theorem dateText_length (sq : Bool) (Y M D : Int) :
    (dateText sq Y M D).length = (if sq then 8 else 10) := by
  cases sq <;> simp [dateText, digits4, digits2]

theorem dateText_head (sq : Bool) (Y M D : Int) :
    ∃ c t, dateText sq Y M D = c :: t ∧ 48 ≤ c ∧ c ≤ 57 := by
  refine ⟨digit (Y / 1000),
    [digit (Y / 100), digit (Y / 10), digit Y] ++ (if sq then [] else [45]) ++ digits2 M
      ++ (if sq then [] else [45]) ++ digits2 D, by simp [dateText, digits4], ?_, ?_⟩
    <;> unfold digit <;> omega

theorem appends_write_date_na (g : Globals) (x : Int) (h : x < -719468 ∨ x > 2932896) :
    Appends (write_date g x) (cstr g.na) := by
  intro s lo hlo
  unfold write_date
  rw [if_pos h]
  exact appends_write_chars g.na s lo hlo

theorem appends_of_eval {f : Cur → Cur} {l l2 : List Nat} (h : Appends f l)
    (e : out 0 (f (Cur.init 0)) = l2) : Appends f l2 := by
  have h0 := h (Cur.init 0) 0 (le_refl _)
  rw [e] at h0
  have : l2 = l := by simpa [out, Cur.init, bytesAt] using h0
  rw [this]
  exact h

theorem cstr_head (na : List Nat) (c : Nat) (t : List Nat) (h : cstr na = c :: t) :
    strHead na = c := by
  cases na with
  | nil => simp [cstr] at h
  | cons a u =>
    by_cases ha : a = 0
    · simp [cstr, ha] at h
    · simp only [cstr, if_neg ha, List.cons.injEq] at h
      simp [strHead, h.1]

theorem monthdayTable_length : monthdayTable.length = 366 := by decide!

/-! ## Nanotime -/

theorem appends_write_time_text (g : Globals) (x : Int) (h0 : 0 ≤ x) (h1 : x ≤ 86399) :
    ∃ hh mm ss : Int, 0 ≤ hh ∧ hh ≤ 23 ∧ 0 ≤ mm ∧ mm ≤ 59 ∧ 0 ≤ ss ∧ ss ≤ 59
      ∧ 3600 * hh + 60 * mm + ss = x
      ∧ Appends (write_time g x) (timeText g.squashDateTime hh mm ss) := by
  obtain ⟨a1, a2, a3, a4, a5, a6, a7⟩ := timeFields_range x h0 h1
  have h := appends_write_time g x (by omega)
  rw [toByte_digit_div _ a1 (by omega), toByte_digit_mod _ a1, toByte_digit_div _ a3 (by omega),
    toByte_digit_mod _ a3, toByte_digit_div _ a5 (by omega), toByte_digit_mod _ a5] at h
  exact ⟨_, _, _, a1, a2, a3, a4, a5, a6, a7, by simpa [timeText, digits2] using h⟩

theorem timeText_length (sq : Bool) (hh mm ss : Int) :
    (timeText sq hh mm ss).length = (if sq then 6 else 8) := by
  cases sq <;> simp [timeText, digits2]

theorem wrap32_id (v : Int) (h1 : -2147483648 ≤ v) (h2 : v ≤ 2147483647) : wrap32 v = v := by
  unfold wrap32
  omega

theorem wrap32_add_mul (v k : Int) : wrap32 (v + 4294967296 * k) = wrap32 v := by
  unfold wrap32
  omega

/-- The nine digits of the nanoseconds, written from the last to the first. -/
theorem appends_nanos (n : Int) (h0 : 0 ≤ n) :
    Appends (fun s => (nanosLoop 9 n s).move 9) (digits9 n) := by
  intro s lo hlo
  obtain ⟨m, c, t⟩ := s
  have t1 : ∀ a : Int, 0 ≤ a → a.tdiv 10 = a / 10 :=
    fun a ha => Int.tdiv_eq_ediv ha (by norm_num)
  apply out_of_frame_bytes _ _ lo _ hlo
  · simp [nanosLoop, Cur.move, Cur.store, digits9]
  · intro a ha
    simp only [nanosLoop, Cur.move, Cur.store] at ha ⊢
    repeat (first | rw [if_pos (by omega)] | rw [if_neg (by omega)])
  · simp only [nanosLoop, Cur.move, Cur.store, digits9, bytesAt, List.length_cons,
      List.length_nil]
    repeat (first | rw [if_pos (by omega)] | rw [if_neg (by omega)])
    rw [t1 n h0, t1 (n / 10) (by omega), t1 (n / 10 / 10) (by omega),
      t1 (n / 10 / 10 / 10) (by omega), t1 (n / 10 / 10 / 10 / 10) (by omega),
      t1 (n / 10 / 10 / 10 / 10 / 10) (by omega),
      t1 (n / 10 / 10 / 10 / 10 / 10 / 10) (by omega),
      t1 (n / 10 / 10 / 10 / 10 / 10 / 10 / 10) (by omega),
      toByte_digit_mod _ h0, toByte_digit_mod (n / 10) (by omega),
      toByte_digit_mod (n / 10 / 10) (by omega), toByte_digit_mod (n / 10 / 10 / 10) (by omega),
      toByte_digit_mod (n / 10 / 10 / 10 / 10) (by omega),
      toByte_digit_mod (n / 10 / 10 / 10 / 10 / 10) (by omega),
      toByte_digit_mod (n / 10 / 10 / 10 / 10 / 10 / 10) (by omega),
      toByte_digit_mod (n / 10 / 10 / 10 / 10 / 10 / 10 / 10) (by omega),
      toByte_digit_mod (n / 10 / 10 / 10 / 10 / 10 / 10 / 10 / 10) (by omega)]
    rw [digit_congr (n / 10 / 10 / 10 / 10 / 10 / 10 / 10 / 10) (n / 100000000) (by omega),
      digit_congr (n / 10 / 10 / 10 / 10 / 10 / 10 / 10) (n / 10000000) (by omega),
      digit_congr (n / 10 / 10 / 10 / 10 / 10 / 10) (n / 1000000) (by omega),
      digit_congr (n / 10 / 10 / 10 / 10 / 10) (n / 100000) (by omega),
      digit_congr (n / 10 / 10 / 10 / 10) (n / 10000) (by omega),
      digit_congr (n / 10 / 10 / 10) (n / 1000) (by omega),
      digit_congr (n / 10 / 10) (n / 100) (by omega)]

/-- The split of `writeNanotime` is the floored one, and the day is a day `write_date`
accepts. -/
theorem nanoFields_spec (x : Int) (h1 : INT64_MIN < x) (h2 : x ≤ INT64_MAX) :
    0 ≤ (nanoFields x).2.1 ∧ (nanoFields x).2.1 ≤ 86399
      ∧ 0 ≤ (nanoFields x).2.2 ∧ (nanoFields x).2.2 ≤ 999999999
      ∧ (nanoFields x).1 * 86400 * 1000000000 + (nanoFields x).2.1 * 1000000000
          + (nanoFields x).2.2 = x
      ∧ -106752 ≤ (nanoFields x).1 ∧ (nanoFields x).1 ≤ 106751 := by
  unfold INT64_MIN at h1
  unfold INT64_MAX at h2
  by_cases hx : 0 ≤ x
  · have e1 : x.tmod 1000000000 = x % 1000000000 := Int.tmod_eq_emod hx (by norm_num)
    have e2 : x.tdiv 1000000000 = x / 1000000000 := Int.tdiv_eq_ediv hx (by norm_num)
    have e3 : (x / 1000000000).tdiv 86400 = x / 1000000000 / 86400 :=
      Int.tdiv_eq_ediv (by omega) (by norm_num)
    have e4 : (x / 1000000000).tmod 86400 = x / 1000000000 % 86400 :=
      Int.tmod_eq_emod (by omega) (by norm_num)
    unfold nanoFields
    simp only []
    rw [e1, e2, wrap32_id (x % 1000000000) (by omega) (by omega),
      if_pos (by constructor <;> omega), e3, e4,
      wrap32_id (x / 1000000000 / 86400) (by omega) (by omega),
      wrap32_id (x / 1000000000 % 86400) (by omega) (by omega)]
    simp only []
    omega
  · obtain ⟨p, hp⟩ : ∃ p : Int, x = -p := ⟨-x, by omega⟩
    subst hp
    have hp0 : 0 < p := by omega
    have e2 : (-p).tdiv 1000000000 = -(p / 1000000000) := by
      rw [Int.neg_tdiv, Int.tdiv_eq_ediv (by omega) (by norm_num)]
    have e1 : (-p).tmod 1000000000 = -(p % 1000000000) := by
      have h := Int.tdiv_add_tmod (-p) 1000000000
      rw [e2] at h
      omega
    unfold nanoFields
    simp only []
    rw [e1, e2, wrap32_id (-(p % 1000000000)) (by omega) (by omega)]
    by_cases hn : p % 1000000000 = 0
    · have hq : 0 < p / 1000000000 := by omega
      rw [if_neg (by omega)]
      rw [hn]
      simp only [neg_zero, ne_eq, not_true_eq_false, if_false]
      have e5 : (-(p / 1000000000) + 1).tdiv 86400 = -((p / 1000000000 - 1) / 86400) := by
        have : -(p / 1000000000) + 1 = -(p / 1000000000 - 1) := by ring
        rw [this, Int.neg_tdiv, Int.tdiv_eq_ediv (by omega) (by norm_num)]
      rw [e5, wrap32_id (-((p / 1000000000 - 1) / 86400) - 1) (by omega) (by omega)]
      have hk : -(p / 1000000000) - (-((p / 1000000000 - 1) / 86400) - 1) * 86400
          = (-(p / 1000000000) - wrap32 ((-((p / 1000000000 - 1) / 86400) - 1) * 86400))
            + 4294967296 * ((wrap32 ((-((p / 1000000000 - 1) / 86400) - 1) * 86400)
                - (-((p / 1000000000 - 1) / 86400) - 1) * 86400) / 4294967296) := by
        unfold wrap32
        omega
      have hw : wrap32 (-(p / 1000000000)
            - wrap32 ((-((p / 1000000000 - 1) / 86400) - 1) * 86400))
          = -(p / 1000000000) - (-((p / 1000000000 - 1) / 86400) - 1) * 86400 := by
        rw [← wrap32_id (-(p / 1000000000) - (-((p / 1000000000 - 1) / 86400) - 1) * 86400)
          (by omega) (by omega)]
        conv_rhs => rw [hk]
        rw [wrap32_add_mul]
      rw [hw]
      omega
    · rw [if_neg (by omega)]
      have hne : ¬ (-(p % 1000000000) = 0) := by omega
      simp only [ne_eq, hne, not_false_eq_true, if_true]
      rw [wrap32_id (-(p % 1000000000) + 1000000000) (by omega) (by omega)]
      have e5 : (-(p / 1000000000) - 1 + 1).tdiv 86400 = -((p / 1000000000) / 86400) := by
        have : -(p / 1000000000) - 1 + 1 = -(p / 1000000000) := by ring
        rw [this, Int.neg_tdiv, Int.tdiv_eq_ediv (by omega) (by norm_num)]
      rw [e5, wrap32_id (-((p / 1000000000) / 86400) - 1) (by omega) (by omega)]
      have hk : -(p / 1000000000) - 1 - (-((p / 1000000000) / 86400) - 1) * 86400
          = (-(p / 1000000000) - 1 - wrap32 ((-((p / 1000000000) / 86400) - 1) * 86400))
            + 4294967296 * ((wrap32 ((-((p / 1000000000) / 86400) - 1) * 86400)
                - (-((p / 1000000000) / 86400) - 1) * 86400) / 4294967296) := by
        unfold wrap32
        omega
      have hw : wrap32 (-(p / 1000000000) - 1
            - wrap32 ((-((p / 1000000000) / 86400) - 1) * 86400))
          = -(p / 1000000000) - 1 - (-((p / 1000000000) / 86400) - 1) * 86400 := by
        rw [← wrap32_id (-(p / 1000000000) - 1 - (-((p / 1000000000) / 86400) - 1) * 86400)
          (by omega) (by omega)]
        conv_rhs => rw [hk]
        rw [wrap32_add_mul]
      rw [hw]
      omega

/-! ## Doubles -/

theorem appends_millisDigits (m : Int) (h0 : 0 ≤ m) (h1 : m ≤ 999) :
    Appends (millisDigits m) (digits3 m) := by
  intro s lo hlo
  obtain ⟨mem, c, t⟩ := s
  have t1 : ∀ a : Int, 0 ≤ a → a.tdiv 10 = a / 10 :=
    fun a ha => Int.tdiv_eq_ediv ha (by norm_num)
  have hlead : toByte (48 + m / 10 / 10) = digit (m / 100) := by
    unfold toByte digit
    omega
  apply out_of_frame_bytes _ _ lo _ hlo
  · simp [millisDigits, Cur.move, Cur.store, digits3]
  · intro a ha
    simp only [millisDigits, Cur.move, Cur.store] at ha ⊢
    repeat (first | rw [if_pos trivial] | rw [if_pos (by omega)] | rw [if_neg (by omega)])
  · simp only [millisDigits, Cur.move, Cur.store, digits3, bytesAt, List.length_cons,
      List.length_nil]
    repeat (first | rw [if_pos trivial] | rw [if_pos (by omega)] | rw [if_neg (by omega)])
    rw [t1 m h0, t1 (m / 10) (by omega), toByte_digit_mod _ h0,
      toByte_digit_mod (m / 10) (by omega), hlead]

theorem appends_microsDigits (m : Int) (h0 : 0 ≤ m) (h1 : m ≤ 999999) :
    Appends (microsDigits m) (digits6 m) := by
  intro s lo hlo
  obtain ⟨mem, c, t⟩ := s
  have t1 : ∀ a : Int, 0 ≤ a → a.tdiv 10 = a / 10 :=
    fun a ha => Int.tdiv_eq_ediv ha (by norm_num)
  have hlead : toByte (48 + m / 10 / 10 / 10 / 10 / 10) = digit (m / 100000) := by
    unfold toByte digit
    omega
  apply out_of_frame_bytes _ _ lo _ hlo
  · simp [microsDigits, Cur.move, Cur.store, digits6]
  · intro a ha
    simp only [microsDigits, Cur.move, Cur.store] at ha ⊢
    repeat (first | rw [if_pos trivial] | rw [if_pos (by omega)] | rw [if_neg (by omega)])
  · simp only [microsDigits, Cur.move, Cur.store, digits6, bytesAt, List.length_cons,
      List.length_nil]
    repeat (first | rw [if_pos trivial] | rw [if_pos (by omega)] | rw [if_neg (by omega)])
    rw [t1 m h0, t1 (m / 10) (by omega), t1 (m / 10 / 10) (by omega),
      t1 (m / 10 / 10 / 10) (by omega), t1 (m / 10 / 10 / 10 / 10) (by omega),
      toByte_digit_mod _ h0, toByte_digit_mod (m / 10) (by omega),
      toByte_digit_mod (m / 10 / 10) (by omega), toByte_digit_mod (m / 10 / 10 / 10) (by omega),
      toByte_digit_mod (m / 10 / 10 / 10 / 10) (by omega), hlead]
    rw [digit_congr (m / 10 / 10 / 10 / 10) (m / 10000) (by omega),
      digit_congr (m / 10 / 10 / 10) (m / 1000) (by omega),
      digit_congr (m / 10 / 10) (m / 100) (by omega)]

theorem appends_writeFraction (g : Globals) (m : Int) (h0 : 0 ≤ m) (h1 : m ≤ 999999) :
    Appends (writeFraction g m) (posixSuffix g.squashDateTime m) := by
  have e1 : m.tmod 1000 = m % 1000 := Int.tmod_eq_emod h0 (by norm_num)
  have e2 : m.tdiv 1000 = m / 1000 := Int.tdiv_eq_ediv h0 (by norm_num)
  unfold writeFraction posixSuffix
  rw [e1, e2]
  have hm := appends_millisDigits (m / 1000) (by omega) (by omega)
  cases hsq : g.squashDateTime with
  | true =>
    simp only [true_or, if_true]
    have h := Appends.comp (appends_put_retract true 46) hm
    simpa using h
  | false =>
    simp only [Bool.false_eq_true, false_or, if_false]
    by_cases hz : m = 0
    · subst hz
      simp only [ne_eq, not_true_eq_false, false_and, if_false]
      exact appends_id
    · by_cases hk : m % 1000 = 0
      · simp only [ne_eq, hz, not_false_eq_true, hk, and_self, if_true, if_false]
        have h := Appends.comp (appends_put_retract false 46) hm
        simpa using h
      · simp only [ne_eq, hz, not_false_eq_true, hk, and_false, if_true, if_false]
        have h := Appends.comp (appends_put 46) (appends_microsDigits m h0 h1)
        simpa using h

/-- The split of the seconds into day and seconds of the day is the floored one. -/
theorem posixFields_spec (xi : Int) :
    0 ≤ (posixFields xi).2 ∧ (posixFields xi).2 ≤ 86399
      ∧ (posixFields xi).1 * 86400 + (posixFields xi).2 = xi := by
  unfold posixFields
  by_cases h : xi ≥ 0
  · rw [if_pos h]
    simp only []
    rw [Int.tdiv_eq_ediv h (by norm_num), Int.tmod_eq_emod h (by norm_num)]
    omega
  · rw [if_neg h]
    simp only []
    obtain ⟨p, hp⟩ : ∃ p : Int, xi + 1 = -p := ⟨-(xi + 1), by omega⟩
    rw [hp, Int.neg_tdiv, Int.tdiv_eq_ediv (by omega) (by norm_num)]
    omega

/-! ## Boolean writers -/

theorem appends_writeBool8 (g : Globals) (col : Col) (row : Int) :
    Appends (writeBool8 g col row)
      (if col.int8s row = INT8_MIN then [] else if col.int8s row = 1 then [49] else [48]) := by
  intro s lo hlo
  unfold writeBool8
  simp only []
  by_cases hna : col.int8s row = INT8_MIN
  · have h1 : ¬ col.int8s row = 1 := by rw [hna]; decide
    simp only [hna, decide_True, b2i, if_true, List.append_nil]
    exact out_move_back _ lo _ _ (out_put s lo _ hlo)
  · have hm : ∀ t : Cur, t.move (-(b2i (decide (col.int8s row = INT8_MIN)))) = t := by
      intro t
      simp [Cur.move, b2i, hna]
    rw [hm, out_put s lo _ hlo]
    rw [if_neg hna]
    by_cases h1 : col.int8s row = 1
    · rw [if_pos h1]
      simp [h1, b2i, toByte]
    · rw [if_neg h1]
      simp [h1, b2i, toByte]

theorem appends_writeBool32AsString (g : Globals) (col : Col) (row : Int) :
    Appends (writeBool32AsString g col row)
      (if col.int32s row = INT32_MIN then cstr g.na
       else if col.int32s row ≠ 0 then [84, 82, 85, 69] else [70, 65, 76, 83, 69]) := by
  by_cases hna : col.int32s row = INT32_MIN
  · have hf : writeBool32AsString g col row = write_chars g.na := by
      funext s
      unfold writeBool32AsString
      simp only []
      rw [if_pos hna]
    rw [hf, if_pos hna]
    exact appends_write_chars g.na
  · by_cases h0 : col.int32s row ≠ 0
    · have hf : writeBool32AsString g col row
          = fun s => (((s.put 84).put 82).put 85).put 69 := by
        funext s
        unfold writeBool32AsString
        simp only []
        rw [if_neg hna, if_pos h0]
      rw [hf, if_neg hna, if_pos h0]
      have h := Appends.comp (Appends.comp (Appends.comp (appends_put 84) (appends_put 82))
        (appends_put 85)) (appends_put 69)
      simpa using h
    · have hf : writeBool32AsString g col row
          = fun s => ((((s.put 70).put 65).put 76).put 83).put 69 := by
        funext s
        unfold writeBool32AsString
        simp only []
        rw [if_neg hna, if_neg h0]
      rw [hf, if_neg hna, if_neg h0]
      have h := Appends.comp (Appends.comp (Appends.comp (Appends.comp (appends_put 70)
        (appends_put 65)) (appends_put 76)) (appends_put 83)) (appends_put 69)
      simpa using h

/-! ## Rows -/

theorem appends_writeRow (args : fwriteMainArgs) (i : Int) (cells : Nat → List Nat)
    (rnCell : List Nat) (hncol : 1 ≤ args.ncol) (hi : 0 ≤ i)
    (hcells : ∀ j, j < args.ncol →
      Appends (args.funs (args.whichFun j) (fwriteMainGlobals args) (args.columns j) i) (cells j))
    (hrn : ∀ rowNames, args.rowNames = some rowNames →
      Appends (args.funs args.rowNameFun (fwriteMainGlobals args) rowNames i) rnCell) :
    Appends (writeRow (fwriteMainGlobals args) args i)
      ((if args.doRowNames then
          rowNameText (fwriteMainGlobals args) args i rnCell ++ sepBytes args.sep
        else [])
        ++ List.intercalate (sepBytes args.sep) ((List.range args.ncol).map cells)
        ++ cstr args.eol) := by
  have hname : Appends
      (fun s => if args.doRowNames then
        putSep (fwriteMainGlobals args) (writeRowName (fwriteMainGlobals args) args i s) else s)
      (if args.doRowNames then
          rowNameText (fwriteMainGlobals args) args i rnCell ++ sepBytes args.sep
        else []) := by
    by_cases hd : args.doRowNames
    · simp only [hd, if_true]
      exact Appends.comp (appends_writeRowName _ args i rnCell hi hrn) (appends_putSep args)
    · simp only [hd]
      exact appends_id
  have hcs := appends_writeCells (fwriteMainGlobals args) args i cells (sepBytes args.sep)
    (appends_putSep args) args.ncol 0 (fun k _ hk => hcells k (by omega))
  have hne : (List.range args.ncol).map cells ≠ [] := by
    intro h
    have := congrArg List.length h
    simp at this
    omega
  have hflat : ((List.range' 0 args.ncol).map (fun k => cells k ++ sepBytes args.sep)).flatten
      = List.intercalate (sepBytes args.sep) ((List.range args.ncol).map cells)
        ++ sepBytes args.sep := by
    rw [← flatten_sep_eq_intercalate _ _ hne, List.range_eq_range', List.map_map]
    rfl
  rw [hflat] at hcs
  have h12 := Appends.comp hname hcs
  intro s lo hlo
  have hout := h12 s lo hlo
  have hback : out lo
      ((writeCells (fwriteMainGlobals args) args i args.ncol 0
          (if args.doRowNames then
            putSep (fwriteMainGlobals args) (writeRowName (fwriteMainGlobals args) args i s)
          else s)).move (-(fwriteMainGlobals args).sepLen))
      = out lo s
        ++ ((if args.doRowNames then
              rowNameText (fwriteMainGlobals args) args i rnCell ++ sepBytes args.sep
            else [])
          ++ List.intercalate (sepBytes args.sep) ((List.range args.ncol).map cells)) := by
    by_cases h0 : args.sep = 0
    · have hz : (fwriteMainGlobals args).sepLen = 0 := by simp [fwriteMainGlobals, h0]
      rw [hz]
      have hs : sepBytes args.sep = [] := by simp [sepBytes, h0]
      rw [hs] at hout
      have hm : ∀ t : Cur, t.move (-0) = t := fun t => by simp [Cur.move]
      rw [hm]
      simpa [hs] using hout
    · have hz : (fwriteMainGlobals args).sepLen = 1 := by simp [fwriteMainGlobals, h0]
      rw [hz]
      have hs : sepBytes args.sep = [args.sep] := by simp [sepBytes, h0]
      apply out_move_back _ lo _ args.sep
      rw [hout]
      simp [hs]
  have hch : lo ≤ ((writeCells (fwriteMainGlobals args) args i args.ncol 0
          (if args.doRowNames then
            putSep (fwriteMainGlobals args) (writeRowName (fwriteMainGlobals args) args i s)
          else s)).move (-(fwriteMainGlobals args).sepLen)).ch := by
    have hl := congrArg List.length hback
    simp only [out, bytesAt_length, List.length_append] at hl
    by_contra hc
    have h0 : ∀ a b : Int, ¬ lo ≤ a → (a - lo).toNat = 0 := fun a b h => by omega
    rw [h0 _ 0 hc] at hl
    have h3 := Appends.ch h12 s
    simp only [List.length_append] at h3
    by_cases hsz : args.sep = 0
    · have hz : (fwriteMainGlobals args).sepLen = 0 := by simp [fwriteMainGlobals, hsz]
      rw [hz] at hc
      simp only [Cur.move] at hc
      omega
    · have hz : (fwriteMainGlobals args).sepLen = 1 := by simp [fwriteMainGlobals, hsz]
      have hs : sepBytes args.sep = [args.sep] := by simp [sepBytes, hsz]
      rw [hz] at hc
      rw [hs] at h3
      simp only [Cur.move, List.length_singleton] at hc h3
      push_cast at h3
      omega
  have hfin := appends_write_chars args.eol _ lo hch
  unfold writeRow
  simp only []
  rw [hfin, hback]
  simp

/-! ## Planner and batches -/

theorem out_self (s : Cur) : out s.ch s = [] := by
  simp [out, bytesAt]

theorem rowsText_append (rowBytes : Int → List Nat) (a b : Nat) (i : Int) :
    rowsText rowBytes (a + b) i = rowsText rowBytes a i ++ rowsText rowBytes b (i + a) := by
  induction a generalizing i with
  | zero => simp [rowsText]
  | succ n ih =>
    have e : n + 1 + b = (n + b) + 1 := by omega
    rw [e]
    have e2 : i + 1 + (n : Int) = i + ((n + 1 : Nat) : Int) := by
      push_cast
      omega
    simp only [rowsText, ih, List.append_assoc, e2]

theorem rowsText_length_le (rowBytes : Int → List Nat) (m : Nat) (n : Nat) (i : Int)
    (h : ∀ k, i ≤ k → k < i + n → (rowBytes k).length ≤ m) :
    (rowsText rowBytes n i).length ≤ n * m := by
  induction n generalizing i with
  | zero => simp [rowsText]
  | succ n ih =>
    simp only [rowsText, List.length_append]
    have h1 := h i (le_refl _) (by push_cast; omega)
    have h2 := ih (i + 1) (fun k hk1 hk2 => h k (by omega) (by push_cast; omega))
    have e : (n + 1) * m = m + n * m := by ring
    omega

theorem appends_writeRowsFrom (g : Globals) (args : fwriteMainArgs) (rowBytes : Int → List Nat)
    (n : Nat) (lo : Int)
    (h : ∀ i, lo ≤ i → i < lo + n → Appends (writeRow g args i) (rowBytes i)) :
    Appends (writeRowsFrom g args n lo) (rowsText rowBytes n lo) := by
  induction n generalizing lo with
  | zero => exact appends_id
  | succ n ih =>
    have h1 := h lo (le_refl _) (by push_cast; omega)
    have h2 := ih (lo + 1) (fun i hi1 hi2 => h i (by omega) (by push_cast; omega))
    exact (Appends.comp h1 h2 :
      Appends (fun s => writeRowsFrom g args n (lo + 1) (writeRow g args lo s)) _)

theorem appends_writeRows (g : Globals) (args : fwriteMainArgs) (rowBytes : Int → List Nat)
    (start stop : Int)
    (h : ∀ i, start ≤ i → i < stop → Appends (writeRow g args i) (rowBytes i)) :
    Appends (writeRows g args start stop) (rowsText rowBytes (stop - start).toNat start) :=
  appends_writeRowsFrom g args rowBytes _ start (fun i h1 h2 => h i h1 (by omega))

theorem batchBytes_eq (g : Globals) (args : fwriteMainArgs) (rowBytes : Int → List Nat)
    (b : Int × Int) (buf : Cur)
    (h : ∀ i, b.1 ≤ i → i < b.2 → Appends (writeRow g args i) (rowBytes i)) :
    batchBytes g args b buf = rowsText rowBytes (b.2 - b.1).toNat b.1 := by
  unfold batchBytes
  rw [appends_writeRows g args rowBytes b.1 b.2 h buf buf.ch (le_refl _), out_self]
  rfl

theorem batches_of_ge (f : Nat) (nrow rpb start : Int) (h : nrow ≤ start) :
    batches f nrow rpb start = [] := by
  cases f with
  | zero => rfl
  | succ f =>
    have hn : ¬ start < nrow := by omega
    simp only [batches, hn, if_false]

theorem batches_tiling (nrow rpb : Int) (hr : 1 ≤ rpb) (f : Nat) (start : Int)
    (h1 : start ≤ nrow) (h2 : nrow - start ≤ f) :
    IsTiling start nrow (batches f nrow rpb start) := by
  induction f generalizing start with
  | zero =>
    have : start = nrow := by
      have : nrow - start ≤ 0 := by exact_mod_cast h2
      omega
    simp [batches, IsTiling, this]
  | succ f ih =>
    by_cases hlt : start < nrow
    · simp only [batches, hlt, if_true, IsTiling, batchEnd]
      by_cases hlast : nrow - start < rpb
      · simp only [hlast, if_true]
        rw [batches_of_ge f nrow rpb (start + rpb) (by omega)]
        simp only [IsTiling]
        exact ⟨trivial, hlt, le_refl _, trivial⟩
      · simp only [hlast, if_false]
        refine ⟨trivial, by omega, by omega, ?_⟩
        exact ih (start + rpb) (by omega) (by push_cast at h2; omega)
    · have : start = nrow := by omega
      simp [batches, hlt, IsTiling, this]

theorem batches_size (nrow rpb : Int) (hr : 1 ≤ rpb) (f : Nat) (start : Int) (b : Int × Int)
    (hb : b ∈ batches f nrow rpb start) :
    start ≤ b.1 ∧ b.1 < b.2 ∧ b.2 - b.1 ≤ rpb ∧ b.2 ≤ nrow := by
  induction f generalizing start with
  | zero => simp [batches] at hb
  | succ f ih =>
    by_cases hlt : start < nrow
    · simp only [batches, hlt, if_true, List.mem_cons] at hb
      rcases hb with hb | hb
      · subst hb
        simp only [batchEnd]
        by_cases hlast : nrow - start < rpb
        · simp only [hlast, if_true]
          omega
        · simp only [hlast, if_false]
          omega
      · have := ih (start + rpb) hb
        omega
    · simp [batches, hlt] at hb

theorem batches_end (nrow rpb : Int) (hr : 1 ≤ rpb) (f : Nat) (start : Int) (b : Int × Int)
    (hb : b ∈ batches f nrow rpb start) :
    b.1 < b.2 ∧ b.2 - b.1 ≤ rpb ∧ b.2 = min (b.1 + rpb) nrow := by
  induction f generalizing start with
  | zero => simp [batches] at hb
  | succ f ih =>
    by_cases hlt : start < nrow
    · simp only [batches, hlt, if_true, List.mem_cons] at hb
      rcases hb with hb | hb
      · subst hb
        simp only [batchEnd]
        by_cases hlast : nrow - start < rpb
        · simp only [hlast, if_true]
          refine ⟨hlt, by omega, ?_⟩
          rw [min_eq_right (by omega)]
        · simp only [hlast, if_false]
          refine ⟨by omega, by omega, ?_⟩
          rw [min_eq_left (by omega)]
      · exact ih (start + rpb) hb
    · simp [batches, hlt] at hb

theorem committed_of_tiling (g : Globals) (args : fwriteMainArgs) (rowBytes : Int → List Nat)
    (buf : Nat → Cur) (hi : Int) (bs : List (Int × Int)) (lo : Int) (k : Nat)
    (ht : IsTiling lo hi bs)
    (hrows : ∀ i, lo ≤ i → i < hi → Appends (writeRow g args i) (rowBytes i)) :
    lo ≤ hi ∧ committed g args buf k bs = rowsText rowBytes (hi - lo).toNat lo := by
  induction bs generalizing lo k with
  | nil =>
    simp only [IsTiling] at ht
    subst ht
    simp [committed, rowsText]
  | cons b rest ih =>
    obtain ⟨h1, h2, h3, h4⟩ := ht
    have hrec := ih b.2 (k + 1) h4 (fun i hi1 hi2 => hrows i (by omega) hi2)
    refine ⟨by omega, ?_⟩
    simp only [committed]
    rw [hrec.2, batchBytes_eq g args rowBytes b (buf k)
      (fun i hi1 hi2 => hrows i (by omega) (by omega))]
    have e : (hi - lo).toNat = (b.2 - b.1).toNat + (hi - b.2).toNat := by omega
    rw [e, rowsText_append, h1]
    congr 2
    omega

theorem appends_writeRow_job2 (i : Int) (h0 : 0 ≤ i) (h1 : i < 2) :
    Appends (writeRow (fwriteMainGlobals job2) job2 i)
      (if i = 0 then ascii "1,2\n" else ascii "3,NA\n") := by
  have h := appends_writeRow job2 i
    (fun j => if (job2.columns j).int32s i = INT32_MIN then cstr (fwriteMainGlobals job2).na
      else decimal ((job2.columns j).int32s i)) [] (by decide) h0
    (fun j _ => appends_writeInt32 (fwriteMainGlobals job2) (job2.columns j) i)
    (fun rowNames hr => by simp [job2] at hr)
  interval_cases i
  · exact appends_of_eval h (by decide)
  · exact appends_of_eval h (by decide)

theorem planner_spec (buffMB maxLineLen nrow nth0 : Int) (hb : 1 ≤ buffMB ∧ buffMB ≤ 1024)
    (hm : 1 ≤ maxLineLen ∧ maxLineLen < 9223372036854775808) (hn : 1 ≤ nrow) :
    1 ≤ (planner buffMB maxLineLen nrow nth0).rowsPerBatch
      ∧ (planner buffMB maxLineLen nrow nth0).rowsPerBatch ≤ nrow
      ∧ (planner buffMB maxLineLen nrow nth0).rowsPerBatch * maxLineLen
          ≤ (planner buffMB maxLineLen nrow nth0).buffSize
      ∧ (planner buffMB maxLineLen nrow nth0).buffSize
          = max (1048576 * buffMB) (2 * maxLineLen) := by
  have e0 : sizeT (1024 * 1024 * buffMB) = 1048576 * buffMB := by
    unfold sizeT
    omega
  have e1 : sizeT (1048576 * buffMB) = 1048576 * buffMB := by
    unfold sizeT
    omega
  have e2 : sizeT (2 * maxLineLen) = 2 * maxLineLen := by
    unfold sizeT
    omega
  by_cases hbig : 2 * maxLineLen > 1048576 * buffMB
  · have hp : (planner buffMB maxLineLen nrow nth0).buffSize = 2 * maxLineLen
        ∧ (planner buffMB maxLineLen nrow nth0).rowsPerBatch
            = (if (if (2 : Int) > nrow then wrap32 nrow else 2) < 1 then 1
               else (if (2 : Int) > nrow then wrap32 nrow else 2)) := by
      simp [planner, e0, e1, e2, hbig]
    rw [hp.1, hp.2]
    have hw : (2 : Int) > nrow → wrap32 nrow = 1 := by
      intro h
      have : nrow = 1 := by omega
      rw [this]
      rfl
    by_cases h2 : (2 : Int) > nrow
    · simp only [h2, if_true, hw h2]
      norm_num
      omega
    · simp only [h2, if_false]
      norm_num
      omega
  · have hq2 : 2 ≤ 1048576 * buffMB / maxLineLen :=
      Int.le_ediv_of_mul_le (by omega) (by omega)
    have hqle : 1048576 * buffMB / maxLineLen ≤ 1048576 * buffMB :=
      Int.ediv_le_self _ (by omega)
    have hqm : 1048576 * buffMB / maxLineLen * maxLineLen ≤ 1048576 * buffMB :=
      Int.ediv_mul_le _ (by omega)
    have hwq : wrap32 (1048576 * buffMB / maxLineLen) = 1048576 * buffMB / maxLineLen := by
      unfold wrap32
      omega
    have hp : (planner buffMB maxLineLen nrow nth0).buffSize = 1048576 * buffMB
        ∧ (planner buffMB maxLineLen nrow nth0).rowsPerBatch
            = (if (if 1048576 * buffMB / maxLineLen > nrow then wrap32 nrow
                   else 1048576 * buffMB / maxLineLen) < 1 then 1
               else (if 1048576 * buffMB / maxLineLen > nrow then wrap32 nrow
                   else 1048576 * buffMB / maxLineLen)) := by
      simp [planner, e0, e1, e2, hbig, hwq]
    rw [hp.1, hp.2]
    have hmax : max (1048576 * buffMB) (2 * maxLineLen) = 1048576 * buffMB :=
      max_eq_left (by omega)
    rw [hmax]
    by_cases hgt : 1048576 * buffMB / maxLineLen > nrow
    · have hwn : wrap32 nrow = nrow := by
        unfold wrap32
        omega
      simp only [hgt, if_true, hwn]
      have h1 : ¬ nrow < 1 := by omega
      simp only [h1, if_false]
      refine ⟨hn, le_refl _, ?_, trivial⟩
      have : nrow * maxLineLen ≤ 1048576 * buffMB / maxLineLen * maxLineLen :=
        mul_le_mul_of_nonneg_right (by omega) (by omega)
      omega
    · simp only [hgt, if_false]
      have h1 : ¬ 1048576 * buffMB / maxLineLen < 1 := by omega
      simp only [h1, if_false]
      exact ⟨by omega, by omega, hqm, trivial⟩

/-! ## Planner values -/

theorem planner_values (buffMB maxLineLen nrow nth0 : Int) (hb : 1 ≤ buffMB ∧ buffMB ≤ 1024)
    (hm : 1 ≤ maxLineLen ∧ maxLineLen < 9223372036854775808) (hn : 1 ≤ nrow) :
    (planner buffMB maxLineLen nrow nth0).rowsPerBatch
        = min (max ((planner buffMB maxLineLen nrow nth0).buffSize / maxLineLen) 1) nrow
      ∧ 2 ≤ (planner buffMB maxLineLen nrow nth0).buffSize / maxLineLen
      ∧ (2 * maxLineLen > 1048576 * buffMB →
          (planner buffMB maxLineLen nrow nth0).buffSize = 2 * maxLineLen)
      ∧ (planner buffMB maxLineLen nrow nth0).numBatches
          = wrap32 ((nrow - 1).tdiv (planner buffMB maxLineLen nrow nth0).rowsPerBatch + 1)
      ∧ (planner buffMB maxLineLen nrow nth0).nth
          = (if (planner buffMB maxLineLen nrow nth0).numBatches < nth0
             then (planner buffMB maxLineLen nrow nth0).numBatches else nth0) := by
  have e0 : sizeT (1024 * 1024 * buffMB) = 1048576 * buffMB := by
    unfold sizeT
    omega
  have e1 : sizeT (1048576 * buffMB) = 1048576 * buffMB := by
    unfold sizeT
    omega
  have e2 : sizeT (2 * maxLineLen) = 2 * maxLineLen := by
    unfold sizeT
    omega
  refine ⟨?_, ?_, ?_, rfl, rfl⟩
  · by_cases hbig : 2 * maxLineLen > 1048576 * buffMB
    · have hp : (planner buffMB maxLineLen nrow nth0).buffSize = 2 * maxLineLen
          ∧ (planner buffMB maxLineLen nrow nth0).rowsPerBatch
              = (if (if (2 : Int) > nrow then wrap32 nrow else 2) < 1 then 1
                 else (if (2 : Int) > nrow then wrap32 nrow else 2)) := by
        simp [planner, e0, e1, e2, hbig]
      rw [hp.1, hp.2]
      have hq : 2 * maxLineLen / maxLineLen = 2 := Int.mul_ediv_cancel 2 (by omega)
      rw [hq]
      by_cases h2 : (2 : Int) > nrow
      · have hn1 : nrow = 1 := by omega
        subst hn1
        decide
      · simp only [h2, if_false]
        rw [max_eq_left (by norm_num), min_eq_left (by omega)]
        norm_num
    · have hq2 : 2 ≤ 1048576 * buffMB / maxLineLen :=
        Int.le_ediv_of_mul_le (by omega) (by omega)
      have hqle : 1048576 * buffMB / maxLineLen ≤ 1048576 * buffMB :=
        Int.ediv_le_self _ (by omega)
      have hwq : wrap32 (1048576 * buffMB / maxLineLen) = 1048576 * buffMB / maxLineLen := by
        unfold wrap32
        omega
      have hp : (planner buffMB maxLineLen nrow nth0).buffSize = 1048576 * buffMB
          ∧ (planner buffMB maxLineLen nrow nth0).rowsPerBatch
              = (if (if 1048576 * buffMB / maxLineLen > nrow then wrap32 nrow
                     else 1048576 * buffMB / maxLineLen) < 1 then 1
                 else (if 1048576 * buffMB / maxLineLen > nrow then wrap32 nrow
                     else 1048576 * buffMB / maxLineLen)) := by
        simp [planner, e0, e1, e2, hbig, hwq]
      rw [hp.1, hp.2]
      rw [max_eq_left (by omega)]
      by_cases hgt : 1048576 * buffMB / maxLineLen > nrow
      · have hwn : wrap32 nrow = nrow := by
          unfold wrap32
          omega
        simp only [hgt, if_true, hwn]
        have h1 : ¬ nrow < 1 := by omega
        simp only [h1, if_false]
        rw [min_eq_right (by omega)]
      · simp only [hgt, if_false]
        have h1 : ¬ 1048576 * buffMB / maxLineLen < 1 := by omega
        simp only [h1, if_false]
        rw [min_eq_left (by omega)]
  · rw [(planner_spec buffMB maxLineLen nrow nth0 hb hm hn).2.2.2]
    exact Int.le_ediv_of_mul_le (by omega) (le_max_right _ _)
  · intro hbig
    rw [(planner_spec buffMB maxLineLen nrow nth0 hb hm hn).2.2.2]
    exact max_eq_right (by omega)

/-! ## The seconds of `writePOSIXct` -/

theorem posixMicros_spec (m7 : Int) (h0 : 0 ≤ m7) (h1 : m7 ≤ 9999999) :
    (m7 + m7.tmod 10).tdiv 10 = (m7 + 5) / 10
      ∧ (posixMicros m7).2 = (if 9999995 ≤ m7 then 1 else 0)
      ∧ (posixMicros m7).1 + 1000000 * (posixMicros m7).2 = (m7 + 5) / 10
      ∧ 0 ≤ (posixMicros m7).1 ∧ (posixMicros m7).1 ≤ 999999 := by
  have e1 : m7.tmod 10 = m7 % 10 := Int.tmod_eq_emod h0 (by norm_num)
  have e2 : (m7 + m7 % 10).tdiv 10 = (m7 + m7 % 10) / 10 :=
    Int.tdiv_eq_ediv (by omega) (by norm_num)
  have e3 : (m7 + m7 % 10) / 10 = (m7 + 5) / 10 := by omega
  have e4 : wrap32 (m7 + m7 % 10) = m7 + m7 % 10 := by
    unfold wrap32
    omega
  have e5 : ((m7 + 5) / 10).tdiv 1000000 = (m7 + 5) / 10 / 1000000 :=
    Int.tdiv_eq_ediv (by omega) (by norm_num)
  have hc : (m7 + 5) / 10 / 1000000 = (if 9999995 ≤ m7 then 1 else 0) := by
    split <;> omega
  have hp : posixMicros m7
      = (wrap32 ((m7 + 5) / 10 - wrap32 ((m7 + 5) / 10 / 1000000 * 1000000)),
         (m7 + 5) / 10 / 1000000) := by
    unfold posixMicros
    simp only [e1, e4, e2, e3, e5]
  rw [hp]
  simp only []
  have e6 : wrap32 ((m7 + 5) / 10 / 1000000 * 1000000) = (m7 + 5) / 10 / 1000000 * 1000000 := by
    unfold wrap32
    omega
  rw [e6]
  have e7 : wrap32 ((m7 + 5) / 10 - (m7 + 5) / 10 / 1000000 * 1000000)
      = (m7 + 5) / 10 - (m7 + 5) / 10 / 1000000 * 1000000 := by
    unfold wrap32
    omega
  rw [e7]
  refine ⟨by rw [e1, e2, e3], hc, by omega, by omega, by omega⟩

theorem posixFields_wrap (xi : Int) :
    wrap64 (xi - wrap64 ((posixFields xi).1 * 86400)) = (posixFields xi).2 := by
  obtain ⟨a, b, c⟩ := posixFields_spec xi
  generalize (posixFields xi).1 = d at *
  generalize (posixFields xi).2 = t at *
  unfold wrap64
  omega

/-! ## The year digits of `write_date` -/

theorem parse_digits4 (n : Nat) (h : n ≤ 9999) :
    parseNatFrom 0 (digits4 (n : Int)) = some n := by
  have d0 : digit (n : Int) = 48 + n % 10 := by
    unfold digit
    omega
  have d1 : digit ((n : Int) / 10) = 48 + n / 10 % 10 := by
    unfold digit
    omega
  have d2 : digit ((n : Int) / 100) = 48 + n / 100 % 10 := by
    unfold digit
    omega
  have d3 : digit ((n : Int) / 1000) = 48 + n / 1000 % 10 := by
    unfold digit
    omega
  unfold digits4
  rw [d0, d1, d2, d3]
  have c0 : 48 ≤ 48 + n % 10 ∧ 48 + n % 10 ≤ 57 := by omega
  have c1 : 48 ≤ 48 + n / 10 % 10 ∧ 48 + n / 10 % 10 ≤ 57 := by omega
  have c2 : 48 ≤ 48 + n / 100 % 10 ∧ 48 + n / 100 % 10 ≤ 57 := by omega
  have c3 : 48 ≤ 48 + n / 1000 % 10 ∧ 48 + n / 1000 % 10 ≤ 57 := by omega
  simp only [parseNatFrom, c0, c1, c2, c3, and_self, if_true]
  congr 1
  omega

/-! ## Header -/

theorem move_zero (s : Cur) : s.move 0 = s := by
  simp [Cur.move]

theorem move_move (s : Cur) (a b : Int) : (s.move a).move b = s.move (a + b) := by
  simp [Cur.move, add_assoc]

theorem memcpy_move (l : List Nat) (dst : Int) (s : Cur) (k : Int) :
    memcpy dst l (s.move k) = (memcpy dst l s).move k := by
  induction l generalizing dst s with
  | nil => rfl
  | cons c t ih =>
    simp only [memcpy]
    rw [← ih]
    rfl

theorem appends_memcpy (l : List Nat) :
    Appends (fun s => (memcpy s.ch l s).move l.length) l := by
  induction l with
  | nil =>
    intro s lo _
    simp [memcpy, move_zero]
  | cons c t ih =>
    have h := Appends.comp (appends_put c) ih
    have hf : (fun s : Cur => (memcpy s.ch (c :: t) s).move ((c :: t).length : Nat))
        = fun s => (memcpy (s.put c).ch t (s.put c)).move (t.length : Nat) := by
      funext s
      have e1 : (s.put c).ch = s.ch + 1 := by simp [Cur.put, Cur.move, Cur.store]
      have e2 : s.put c = (s.store s.ch c).move 1 := rfl
      rw [e1]
      simp only [memcpy]
      rw [e2, memcpy_move, move_move]
      congr 1
      simp only [List.length_cons]
      push_cast
      ring
    rw [hf]
    simpa using h

theorem appends_unsep (args : fwriteMainArgs) {f : Cur → Cur} {l : List Nat}
    (h : Appends f (l ++ sepBytes args.sep)) :
    Appends (fun s => (f s).move (-(fwriteMainGlobals args).sepLen)) l := by
  intro s lo hlo
  have hout := h s lo hlo
  by_cases h0 : args.sep = 0
  · have hz : (fwriteMainGlobals args).sepLen = 0 := by simp [fwriteMainGlobals, h0]
    have hs : sepBytes args.sep = [] := by simp [sepBytes, h0]
    rw [hs] at hout
    simp only [hz, neg_zero, move_zero]
    simpa using hout
  · have hz : (fwriteMainGlobals args).sepLen = 1 := by simp [fwriteMainGlobals, h0]
    have hs : sepBytes args.sep = [args.sep] := by simp [sepBytes, h0]
    simp only [hz]
    apply out_move_back _ lo _ args.sep
    rw [hout]
    simp [hs]

theorem appends_headerNames (g : Globals) (names : Col) (cells : Nat → List Nat)
    (sep : List Nat) (hsep : Appends (putSep g) sep) (n j : Nat)
    (hcells : ∀ k, j ≤ k → k < j + n → Appends (writeString g names k) (cells k)) :
    Appends (headerNames g names n j)
      (((List.range' j n).map (fun k => cells k ++ sep)).flatten) := by
  induction n generalizing j with
  | zero => exact appends_id
  | succ m ih =>
    have h1 := hcells j (le_refl _) (by omega)
    have h2 := ih (j + 1) (fun k hk1 hk2 => hcells k (by omega) (by omega))
    have h := Appends.comp (Appends.comp h1 hsep) h2
    intro s lo hlo
    have := h s lo hlo
    simpa [headerNames, List.range'_succ] using this

theorem appends_ite (c : Prop) [Decidable c] {f : Cur → Cur} {l : List Nat}
    (h : Appends f l) :
    Appends (fun s => if c then f s else s) (if c then l else []) := by
  by_cases hc : c
  · rw [if_pos hc]
    have hf : (fun s => if c then f s else s) = f := by
      funext s
      rw [if_pos hc]
    rw [hf]
    exact h
  · rw [if_neg hc]
    have hf : (fun s : Cur => if c then f s else s) = fun s => s := by
      funext s
      rw [if_neg hc]
    rw [hf]
    exact appends_id

theorem appends_bom (b : Bool) :
    Appends (fun s => if b then ((s.put 239).put 187).put 191 else s)
      (if b then [239, 187, 191] else []) := by
  cases b with
  | true =>
    have h := Appends.comp (Appends.comp (appends_put 239) (appends_put 187)) (appends_put 191)
    simpa using h
  | false => simpa using appends_id

/-- The header for a job whose column names, if requested, are at least one. -/
theorem appends_writeHeader (args : fwriteMainArgs) (cells : Nat → List Nat)
    (hncol : args.colNames.isSome → 1 ≤ args.ncol)
    (hcells : ∀ names, args.colNames = some names → ∀ j, j < args.ncol →
      Appends (write_string { fwriteMainGlobals args with doQuote := args.doQuote }
        (names.strings j)) (cells j)) :
    Appends (fun s => (writeHeader args s).2) (headerText args cells) := by
  have hyaml := appends_memcpy (cstr args.yaml)
  have hpre := Appends.comp (appends_bom args.bom) hyaml
  cases hc : args.colNames with
  | none =>
    have hf : (fun s => (writeHeader args s).2)
        = fun s => (memcpy (if args.bom then ((s.put 239).put 187).put 191 else s).ch
            (cstr args.yaml) (if args.bom then ((s.put 239).put 187).put 191 else s)).move
              (cstr args.yaml).length := by
      funext s
      simp only [writeHeader, hc]
    rw [hf]
    have ht : headerText args cells
        = (if args.bom then [239, 187, 191] else []) ++ cstr args.yaml := by
      simp [headerText, hc]
    rw [ht]
    exact hpre
  | some names =>
    have hn : 1 ≤ args.ncol := hncol (by simp [hc])
    have hrn : Appends
        (fun s => if args.doRowNames then
          putSep (fwriteMainGlobals args)
            (if (fwriteMainGlobals args).doQuote ≠ 0 then (s.put 34).put 34 else s)
          else s)
        (if args.doRowNames then
          (if (fwriteMainGlobals args).doQuote ≠ 0 then [34, 34] else []) ++ sepBytes args.sep
         else []) := by
      exact appends_ite _ (Appends.comp
        (appends_ite _ (by simpa using Appends.comp (appends_put 34) (appends_put 34)))
        (appends_putSep args))
    have hsep : Appends
        (putSep { fwriteMainGlobals args with doQuote := args.doQuote }) (sepBytes args.sep) :=
      appends_putSep args
    have hnames := appends_headerNames
      { fwriteMainGlobals args with doQuote := args.doQuote } names cells (sepBytes args.sep)
      hsep args.ncol 0 (fun k _ hk => hcells names hc k (by omega))
    have hne : (List.range args.ncol).map cells ≠ [] := by
      intro h
      have := congrArg List.length h
      simp at this
      omega
    have hflat : ((List.range' 0 args.ncol).map (fun k => cells k ++ sepBytes args.sep)).flatten
        = List.intercalate (sepBytes args.sep) ((List.range args.ncol).map cells)
          ++ sepBytes args.sep := by
      rw [← flatten_sep_eq_intercalate _ _ hne, List.range_eq_range', List.map_map]
      rfl
    rw [hflat] at hnames
    have h3 := Appends.comp (Appends.comp hpre hrn) hnames
    rw [← List.append_assoc] at h3
    have h4 := Appends.comp (appends_unsep args h3) (appends_write_chars args.eol)
    have ht : headerText args cells
        = ((if args.bom then [239, 187, 191] else []) ++ cstr args.yaml
            ++ (if args.doRowNames then
                (if (fwriteMainGlobals args).doQuote ≠ 0 then [34, 34] else [])
                  ++ sepBytes args.sep
               else [])
            ++ List.intercalate (sepBytes args.sep) ((List.range args.ncol).map cells))
          ++ cstr args.eol := by
      simp [headerText, hc]
    rw [ht]
    intro s lo hlo
    have := h4 s lo hlo
    simpa [writeHeader, hc] using this

theorem writeHeader_globals (args : fwriteMainArgs) (s : Cur) :
    (writeHeader args s).1 = fwriteMainGlobals args := by
  unfold writeHeader
  cases args.colNames <;> rfl

/-! ## Compression and the sink -/

theorem compressbuff_code (z : Zlib) (src : List Nat) :
    ((compressbuff z src).1 ≠ 0 ↔ (z.deflate src).1 = Z_STREAM_ERROR)
      ∧ ((z.deflate src).1 = Z_STREAM_ERROR → (compressbuff z src).1 = Z_STREAM_ERROR)
      ∧ ((z.deflate src).1 ≠ Z_STREAM_ERROR → (compressbuff z src).1 = Z_OK)
      ∧ (compressbuff z src).2 = (z.deflate src).2 := by
  unfold compressbuff
  by_cases h : (z.deflate src).1 = Z_STREAM_ERROR
  · simp [h, Z_STREAM_ERROR]
  · simp [h, Z_OK]

theorem batchStage_failed (z : Zlib) (g : Globals) (args : fwriteMainArgs) (gz : Bool)
    (st : Sink) (b : Int × Int) (h : st.failed = true) :
    batchStage z g args gz st b = st := by
  unfold batchStage
  cases st
  simp_all

theorem batches_failed (z : Zlib) (g : Globals) (args : fwriteMainArgs) (gz : Bool)
    (bs : List (Int × Int)) (st : Sink) (h : st.failed = true) :
    bs.foldl (batchStage z g args gz) st = st := by
  induction bs with
  | nil => rfl
  | cons b t ih => rw [List.foldl_cons, batchStage_failed z g args gz st b h, ih]

theorem batchStage_error (z : Zlib) (g : Globals) (args : fwriteMainArgs) (st : Sink)
    (b : Int × Int) (hinit : init_stream z = 0) (hfail : st.failed = false)
    (herr : (z.deflate (batchBytes g args b (Cur.init 0))).1 = Z_STREAM_ERROR) :
    batchStage z g args true st b
      = { st with
          failed := true
          failed_compress :=
            if st.failed_compress = 0 then Z_STREAM_ERROR else st.failed_compress } := by
  have hc := (compressbuff_code z (batchBytes g args b (Cur.init 0))).2.1 herr
  unfold batchStage
  simp [hinit, hfail, hc, Z_STREAM_ERROR]

/-! ## Length of a string field -/

theorem length_escDouble_le (x : List Nat) : (escDouble x).length ≤ 2 * x.length := by
  induction x with
  | nil => simp [escDouble]
  | cons c t ih =>
    simp only [escDouble]
    split <;> simp <;> omega

theorem length_escBackslash_le (x : List Nat) : (escBackslash x).length ≤ 2 * x.length := by
  induction x with
  | nil => simp [escBackslash]
  | cons c t ih =>
    simp only [escBackslash]
    split <;> simp <;> omega

theorem length_quoted_le (g : Globals) (x : List Nat) :
    (quoted g x).length ≤ 2 * x.length + 2 := by
  have h1 := length_escDouble_le x
  have h2 := length_escBackslash_le x
  unfold quoted esc
  split <;> simp <;> omega

theorem length_escDouble_quotes (x : List Nat) (h : ∀ c ∈ x, c = 34) :
    (escDouble x).length = 2 * x.length := by
  induction x with
  | nil => simp [escDouble]
  | cons c t ih =>
    have hc : c = 34 := h c (by simp)
    have ht := ih (fun d hd => h d (by simp [hd]))
    simp only [escDouble, hc, if_true, List.length_cons, ht]
    omega

theorem length_escBackslash_quotes (x : List Nat) (h : ∀ c ∈ x, c = 34) :
    (escBackslash x).length = 2 * x.length := by
  induction x with
  | nil => simp [escBackslash]
  | cons c t ih =>
    have hc : c = 34 := h c (by simp)
    have ht := ih (fun d hd => h d (by simp [hd]))
    simp only [escBackslash, hc, true_or, if_true, List.length_cons, ht]
    omega

theorem length_quoted_quotes (g : Globals) (x : List Nat) (h : ∀ c ∈ x, c = 34) :
    (quoted g x).length = 2 * x.length + 2 := by
  have h1 := length_escDouble_quotes x h
  have h2 := length_escBackslash_quotes x h
  unfold quoted esc
  split <;> simp <;> omega

theorem copyPlain_top (g : Globals) (x : List Nat) (s : Cur) :
    (copyPlain g x s).2.top ≤ max s.top (s.ch + x.length) := by
  induction x generalizing s with
  | nil => simp [copyPlain]
  | cons c t ih =>
    by_cases hp : c ≠ 0 ∧ c ≠ g.sep ∧ c ≠ g.sep2 ∧ c ≠ 10 ∧ c ≠ 13 ∧ c ≠ 34
    · have h := ih (s.put c)
      have e1 : (s.put c).top = max s.top (s.ch + 1) := by simp [Cur.put, Cur.move, Cur.store]
      have e2 : (s.put c).ch = s.ch + 1 := by simp [Cur.put, Cur.move, Cur.store]
      rw [e1, e2] at h
      have e : copyPlain g (c :: t) s = copyPlain g t (s.put c) := by
        simp only [copyPlain]
        rw [if_pos hp]
      rw [e]
      simp only [List.length_cons]
      push_cast
      have h3 : max (max s.top (s.ch + 1)) (s.ch + 1 + (t.length : Int))
          ≤ max s.top (s.ch + ((t.length : Int) + 1)) := by
        simp only [max_le_iff, le_max_iff]
        omega
      exact le_trans h h3
    · have e : copyPlain g (c :: t) s = (c :: t, s) := by
        simp only [copyPlain]
        rw [if_neg hp]
      rw [e]
      exact le_max_left _ _

/-! ## Digits written backwards -/

theorem putBackList_append (a b : List Nat) (s : Cur) :
    putBackList (a ++ b) s = putBackList b (putBackList a s) := by
  induction a generalizing s with
  | nil => rfl
  | cons c t ih => exact ih (s.putBack c)

theorem putBackList_ch (w : List Nat) (s : Cur) :
    (putBackList w s).ch = s.ch - w.length := by
  induction w generalizing s with
  | nil => simp [putBackList]
  | cons c t ih =>
    rw [putBackList, ih]
    simp only [Cur.putBack, Cur.move, Cur.store, List.length_cons]
    push_cast
    omega

theorem putBackList_mem_out (w : List Nat) (s : Cur) (a : Int)
    (h : a ≤ s.ch - w.length ∨ s.ch < a) : (putBackList w s).mem a = s.mem a := by
  induction w generalizing s with
  | nil => rfl
  | cons c t ih =>
    rw [putBackList, ih]
    · simp only [Cur.putBack, Cur.move, Cur.store]
      rw [if_neg]
      simp only [List.length_cons] at h
      push_cast at h
      omega
    · simp only [Cur.putBack, Cur.move, Cur.store, List.length_cons] at h ⊢
      push_cast at h
      omega

theorem putBackList_mem_in (w : List Nat) (s : Cur) (i : Nat) (hi : i < w.length) :
    (putBackList w s).mem (s.ch - i) = w[i] := by
  induction w generalizing s i with
  | nil => simp at hi
  | cons c t ih =>
    rw [putBackList]
    cases i with
    | zero =>
      rw [putBackList_mem_out]
      · simp [Cur.putBack, Cur.move, Cur.store]
      · right
        simp [Cur.putBack, Cur.move, Cur.store]
    | succ j =>
      have hj : j < t.length := by
        simp only [List.length_cons] at hi
        omega
      have h := ih (s.putBack c) j hj
      have e : (s.putBack c).ch - (j : Int) = s.ch - ((j + 1 : Nat) : Int) := by
        simp only [Cur.putBack, Cur.move, Cur.store]
        push_cast
        omega
      rw [e] at h
      rw [h]
      rfl

/-- Writing the bytes of `w` backwards from the last byte of a field of `w.length` bytes
appends the reversed list. -/
theorem appends_putBackList (w : List Nat) :
    Appends (fun s => (putBackList w (s.move (w.length - 1))).move (w.length + 1))
      w.reverse := by
  intro s lo hlo
  apply out_of_frame s _ lo w.reverse hlo
  · simp only [Cur.move, putBackList_ch, List.length_reverse]
    omega
  · intro a _ h2
    simp only [Cur.move]
    rw [putBackList_mem_out]
    left
    simp only [Cur.move]
    omega
  · intro i hi
    have hi2 : i < w.length := by
      simpa using hi
    have h := putBackList_mem_in w (s.move (w.length - 1)) (w.length - 1 - i) (by omega)
    have e : (s.move (w.length - 1)).ch - ((w.length - 1 - i : Nat) : Int) = s.ch + i := by
      simp only [Cur.move]
      omega
    rw [e] at h
    show (putBackList w (s.move (w.length - 1))).mem (s.ch + i) = w.reverse[i]
    rw [h, List.getElem_reverse]

theorem msd_length (l k : Nat) : (msd l k).length = k := by
  induction k generalizing l with
  | zero => rfl
  | succ k ih => simp [msd, ih]

theorem msd_reverse_succ (l k : Nat) :
    (msd l (k + 1)).reverse = (48 + l % 10) :: (msd (l / 10) k).reverse := by
  simp [msd]

theorem toByte_digit_nat (l : Nat) : toByte (48 + ((l % 10 : Nat) : Int)) = 48 + l % 10 := by
  unfold toByte
  omega

theorem fracDigits_eq (fuel : Nat) (dr sf : Nat) (l : Nat) (s : Cur) (h : dr ≤ fuel) :
    fracDigits fuel dr sf l s
      = (((dr - min dr sf : Nat) : Int), ((sf - min dr sf : Nat) : Int), l / 10 ^ min dr sf,
          putBackList (msd l (min dr sf)).reverse s) := by
  induction fuel generalizing dr sf l s with
  | zero =>
    have : dr = 0 := by omega
    subst this
    simp [fracDigits, msd, putBackList]
  | succ f ih =>
    cases dr with
    | zero => simp [fracDigits, msd, putBackList]
    | succ d =>
      cases sf with
      | zero => simp [fracDigits, msd, putBackList]
      | succ t =>
        have hc : ((d + 1 : Nat) : Int) ≠ 0 ∧ ((t + 1 : Nat) : Int) ≠ 0 := by
          constructor <;> omega
        have e1 : ((d + 1 : Nat) : Int) - 1 = (d : Int) := by push_cast; omega
        have e2 : ((t + 1 : Nat) : Int) - 1 = (t : Int) := by push_cast; omega
        have hm : min (d + 1) (t + 1) = min d t + 1 := by omega
        rw [fracDigits, if_pos hc, e1, e2, ih d t (l / 10) _ (by omega), hm,
          msd_reverse_succ, toByte_digit_nat]
        simp only [putBackList, Prod.mk.injEq]
        refine ⟨by omega, by omega, ?_, trivial⟩
        rw [Nat.div_div_eq_div_mul, pow_succ, Nat.mul_comm]

theorem zerosBack_eq (fuel k : Nat) (s : Cur) (h : k ≤ fuel) :
    zerosBack fuel k s = putBackList (List.replicate k 48) s := by
  induction fuel generalizing k s with
  | zero =>
    have : k = 0 := by omega
    subst this
    rfl
  | succ f ih =>
    cases k with
    | zero => simp [zerosBack, putBackList]
    | succ j =>
      have hc : ((j + 1 : Nat) : Int) ≠ 0 := by omega
      have e1 : ((j + 1 : Nat) : Int) - 1 = (j : Int) := by push_cast; omega
      rw [zerosBack, if_pos hc, e1, ih j _ (by omega)]
      simp [List.replicate, putBackList]

theorem intDigits_eq (fuel sf : Nat) (l : Nat) (s : Cur) (h : sf ≤ fuel) :
    intDigits fuel sf l s = putBackList (msd l sf).reverse s := by
  induction fuel generalizing sf l s with
  | zero =>
    have : sf = 0 := by omega
    subst this
    rfl
  | succ f ih =>
    cases sf with
    | zero => simp [intDigits, msd, putBackList]
    | succ t =>
      have hc : ((t + 1 : Nat) : Int) ≠ 0 := by omega
      have e1 : ((t + 1 : Nat) : Int) - 1 = (t : Int) := by push_cast; omega
      rw [intDigits, if_pos hc, e1, ih t _ _ (by omega), msd_reverse_succ, toByte_digit_nat]
      rfl

theorem sciDigits_eq (fuel i : Nat) (l : Nat) (s : Cur) (h : i ≤ fuel) :
    sciDigits fuel (i + 1) l s = (l / 10 ^ i, putBackList (msd l i).reverse s) := by
  induction fuel generalizing i l s with
  | zero =>
    have : i = 0 := by omega
    subst this
    simp [sciDigits, msd, putBackList]
  | succ f ih =>
    cases i with
    | zero => simp [sciDigits, msd, putBackList]
    | succ j =>
      have hc : ((j + 1 : Nat) : Int) + 1 > 1 := by omega
      have e1 : ((j + 1 : Nat) : Int) + 1 - 1 = (j : Int) + 1 := by push_cast; omega
      rw [sciDigits, if_pos hc, e1, ih j _ _ (by omega), msd_reverse_succ, toByte_digit_nat]
      simp only [putBackList, Prod.mk.injEq, and_true]
      rw [Nat.div_div_eq_div_mul, pow_succ, Nat.mul_comm]

theorem writeDecimal_int (g : Globals) (l sf dl0 : Nat) (s : Cur) :
    writeDecimal g l sf 0 dl0 ((sf + dl0 : Nat) : Int) s
      = (putBackList (List.replicate dl0 48 ++ (msd l sf).reverse)
          (s.move (((sf + dl0 : Nat) : Int) - 1))).move (((sf + dl0 : Nat) : Int) + 1) := by
  unfold writeDecimal
  simp only [ne_eq, not_true_eq_false, if_false, Int.toNat_ofNat]
  rw [zerosBack_eq dl0 dl0 _ (le_refl _), intDigits_eq sf sf l _ (le_refl _),
    putBackList_append]

theorem writeDecimal_frac (g : Globals) (l sf dr dl0 : Nat) (width : Int) (s : Cur)
    (hdr : dr ≠ 0) :
    writeDecimal g l sf dr dl0 width s
      = (putBackList
          ((msd l (min dr sf)).reverse ++ List.replicate (dr - min dr sf) 48 ++ [g.dec]
            ++ List.replicate dl0 48
            ++ (msd (l / 10 ^ min dr sf) (sf - min dr sf)).reverse)
          (s.move (width - 1))).move (width + 1) := by
  have hd : ((dr : Nat) : Int) ≠ 0 := by omega
  unfold writeDecimal
  simp only [hd, ne_eq, not_false_eq_true, if_true, Int.toNat_ofNat]
  rw [fracDigits_eq dr dr sf l _ (le_refl _)]
  simp only [Int.toNat_ofNat]
  rw [zerosBack_eq dl0 dl0 _ (le_refl _),
    zerosBack_eq (dr - min dr sf) (dr - min dr sf) _ (le_refl _),
    intDigits_eq _ _ _ _ (le_refl _)]
  simp only [putBackList_append, putBackList]

theorem msd_zero (j : Nat) : msd 0 j = List.replicate j 48 := by
  induction j with
  | zero => rfl
  | succ j ih =>
    rw [msd, Nat.zero_div, ih, List.replicate_succ']

theorem msd_pad (l sf j : Nat) (h : l < 10 ^ sf) :
    msd l (sf + j) = List.replicate j 48 ++ msd l sf := by
  induction sf generalizing l with
  | zero =>
    have : l = 0 := by simpa using h
    subst this
    simp [msd_zero, msd]
  | succ t ih =>
    have e : t + 1 + j = (t + j) + 1 := by omega
    have hl : l / 10 < 10 ^ t := by
      rw [Nat.div_lt_iff_lt_mul (by norm_num)]
      rw [pow_succ] at h
      exact h
    rw [e, msd, ih (l / 10) hl, msd, List.append_assoc]

theorem parse_append_zeros (a : List Nat) (k : Nat) :
    parseNatFrom 0 (a ++ List.replicate k 48)
      = (parseNatFrom 0 a).map (fun v => v * 10 ^ k) := by
  induction k with
  | zero => cases h : parseNatFrom 0 a <;> simp [h]
  | succ k ih =>
    rw [List.replicate_succ', ← List.append_assoc, parseNatFrom_append, ih]
    cases parseNatFrom 0 a with
    | none => rfl
    | some v =>
      simp only [Option.map_some', Option.some_bind]
      rw [if_pos (by omega)]
      simp only [Nat.sub_self, Nat.add_zero, Option.some.injEq]
      rw [pow_succ]
      ring

theorem parse_msd (l k : Nat) : parseNatFrom 0 (msd l k) = some (l % 10 ^ k) := by
  induction k generalizing l with
  | zero => simp [msd, parseNatFrom, Nat.mod_one]
  | succ k ih =>
    rw [msd, parseNatFrom_append, ih]
    simp only [Option.some_bind]
    rw [if_pos (by omega)]
    simp only [Option.some.injEq]
    rw [pow_succ', Nat.mod_mul]
    omega

theorem appends_expDigits (exp : Int) (h : -999 ≤ exp ∧ exp ≤ 999) :
    Appends
      (fun s =>
        if (if exp < 0 then -exp else exp) < 100 then
          (s.put (toByte (48 + (if exp < 0 then -exp else exp).tdiv 10))).put
            (toByte (48 + (if exp < 0 then -exp else exp).tmod 10))
        else
          ((s.put (toByte (48 + (if exp < 0 then -exp else exp).tdiv 100))).put
              (toByte (48 + ((if exp < 0 then -exp else exp).tdiv 10).tmod 10))).put
            (toByte (48 + (if exp < 0 then -exp else exp).tmod 10)))
      (expText exp) := by
  obtain ⟨n, hn⟩ : ∃ n : Nat, (if exp < 0 then -exp else exp) = (n : Int) :=
    ⟨exp.natAbs, by split <;> omega⟩
  have hna : exp.natAbs = n := by
    split at hn <;> omega
  have hle : n ≤ 999 := by omega
  rw [hn]
  unfold expText
  rw [hna]
  have t10 : (n : Int).tdiv 10 = ((n / 10 : Nat) : Int) := by
    rw [Int.tdiv_eq_ediv (by omega) (by norm_num)]
    norm_cast
  have t100 : (n : Int).tdiv 100 = ((n / 100 : Nat) : Int) := by
    rw [Int.tdiv_eq_ediv (by omega) (by norm_num)]
    norm_cast
  have b1 : ∀ k : Nat, k ≤ 9 → toByte (48 + (k : Int)) = 48 + k := by
    intro k hk
    unfold toByte
    omega
  by_cases h100 : n < 100
  · have hc : (n : Int) < 100 := by omega
    rw [if_pos h100]
    simp only [hc, if_true]
    rw [t10, toByte_digit, b1 _ (by omega)]
    have e : msd n 2 = [48 + n / 10, 48 + n % 10] := by
      have : n / 10 % 10 = n / 10 := by omega
      simp [msd, this]
    rw [e]
    simpa using Appends.comp (appends_put (48 + n / 10)) (appends_put (48 + n % 10))
  · have hc : ¬ (n : Int) < 100 := by omega
    rw [if_neg h100]
    simp only [hc, if_false]
    rw [t10, t100, toByte_digit, toByte_digit, b1 _ (by omega)]
    have e : msd n 3 = [48 + n / 100, 48 + n / 10 % 10, 48 + n % 10] := by
      have : n / 10 / 10 % 10 = n / 100 := by omega
      simp [msd, this]
    rw [e]
    simpa using Appends.comp (Appends.comp (appends_put (48 + n / 100))
      (appends_put (48 + n / 10 % 10))) (appends_put (48 + n % 10))

theorem appends_sciMantissa (dec l m : Nat) (hl : l < 10 ^ (m + 1)) :
    Appends
      (fun s =>
        let r := sciDigits (m + 1) ((m + 1 : Nat) : Int) l (s.move ((m + 1 : Nat) : Int))
        let s := if ((m + 1 : Nat) : Int) = 1 then r.2.move (-1) else r.2.putBack dec
        let s := s.store s.ch (toByte (48 + (r.1 : Int)))
        s.move (((m + 1 : Nat) : Int) + b2i (decide (((m + 1 : Nat) : Int) > 1))))
      (msd (l / 10 ^ m) 1 ++ (if ((m + 1 : Nat) : Int) > 1 then dec :: msd l m else [])) := by
  have hd : l / 10 ^ m < 10 := Nat.div_lt_of_lt_mul (by rw [pow_succ] at hl; exact hl)
  have hb : toByte (48 + ((l / 10 ^ m : Nat) : Int)) = 48 + l / 10 ^ m := by
    generalize l / 10 ^ m = d at hd
    unfold toByte
    omega
  have h1 : msd (l / 10 ^ m) 1 = [48 + l / 10 ^ m] := by
    generalize l / 10 ^ m = d at hd
    have : d % 10 = d := by omega
    simp [msd, this]
  cases m with
  | zero =>
    have hl0 : l < 10 := by simpa using hl
    have hb0 : toByte (48 + (l : Int)) = 48 + l := by
      unfold toByte
      omega
    have hf : (fun s : Cur =>
        let r := sciDigits (0 + 1) ((0 + 1 : Nat) : Int) l (s.move ((0 + 1 : Nat) : Int))
        let s := if ((0 + 1 : Nat) : Int) = 1 then r.2.move (-1) else r.2.putBack dec
        let s := s.store s.ch (toByte (48 + (r.1 : Int)))
        s.move (((0 + 1 : Nat) : Int) + b2i (decide (((0 + 1 : Nat) : Int) > 1))))
        = fun s => (putBackList [48 + l] (s.move 0)).move 2 := by
      funext s
      simp only [sciDigits, putBackList, Cur.putBack, Cur.move, Cur.store, b2i]
      simp [hb0]
      omega
    rw [hf]
    have h := appends_putBackList [48 + l]
    have e : msd (l / 10 ^ 0) 1 ++ (if ((0 + 1 : Nat) : Int) > 1 then dec :: msd l 0 else [])
        = [48 + l] := by
      have : l % 10 = l := by omega
      simp [msd, this]
    rw [e]
    simpa using h
  | succ j =>
    have hf : (fun s : Cur =>
        let r := sciDigits (j + 1 + 1) ((j + 1 + 1 : Nat) : Int) l
          (s.move ((j + 1 + 1 : Nat) : Int))
        let s := if ((j + 1 + 1 : Nat) : Int) = 1 then r.2.move (-1) else r.2.putBack dec
        let s := s.store s.ch (toByte (48 + (r.1 : Int)))
        s.move (((j + 1 + 1 : Nat) : Int) + b2i (decide (((j + 1 + 1 : Nat) : Int) > 1))))
        = fun s => (putBackList ((msd l (j + 1)).reverse ++ [dec] ++ [48 + l / 10 ^ (j + 1)])
            (s.move ((((msd l (j + 1)).reverse ++ [dec] ++ [48 + l / 10 ^ (j + 1)]).length : Nat)
              - 1))).move
            ((((msd l (j + 1)).reverse ++ [dec] ++ [48 + l / 10 ^ (j + 1)]).length : Nat)
              + 1) := by
      funext s
      have hne : ¬ ((j + 1 + 1 : Nat) : Int) = 1 := by push_cast; omega
      have hgt : ((j + 1 + 1 : Nat) : Int) > 1 := by push_cast; omega
      have e1 : ((j + 1 + 1 : Nat) : Int) = ((j + 1 : Nat) : Int) + 1 := by push_cast; rfl
      have e2 : ((j + 1 + 1 + 1 : Nat) : Int) - 1 = ((j + 1 + 1 : Nat) : Int) := by
        push_cast
        ring
      have e3 : ((j + 1 + 1 : Nat) : Int) + 1 = -1 + (((j + 1 + 1 + 1 : Nat) : Int) + 1) := by
        push_cast
        ring
      have hs := sciDigits_eq (j + 1 + 1) (j + 1) l (s.move ((j + 1 + 1 : Nat) : Int))
        (by omega)
      rw [← e1] at hs
      simp only [hs, hne, if_false, hgt, decide_True, b2i, if_true, hb, putBackList_append,
        putBackList, List.length_append, List.length_reverse, msd_length, List.length_singleton,
        e2]
      simp only [Cur.putBack, move_move, e3]
    rw [hf, h1, if_pos (by push_cast; omega)]
    have h := appends_putBackList ((msd l (j + 1)).reverse ++ [dec] ++ [48 + l / 10 ^ (j + 1)])
    simpa using h

theorem appends_of_backward (f : Cur → Cur) (w : List Nat) (width : Int)
    (hw : width = w.length)
    (hf : ∀ s, f s = (putBackList w (s.move (width - 1))).move (width + 1)) :
    Appends f w.reverse := by
  have e : f = fun s => (putBackList w (s.move (w.length - 1))).move (w.length + 1) := by
    funext s
    rw [hf s, hw]
  rw [e]
  exact appends_putBackList w

/-- The decimal format writes the plain decimal form. -/
theorem appends_writeDecimal (g : Globals) (l n : Nat) (exp : Int) (hl : l < 10 ^ n) :
    Appends
      (writeDecimal g l n
        (if (n : Int) - exp - 1 ≤ 0 then 0 else (n : Int) - exp - 1)
        (if (n : Int) - exp - 1 ≤ 0 then -((n : Int) - exp - 1)
         else if (n : Int) > (n : Int) - exp - 1 then 0 else 1)
        (decimalWidth n exp))
      (plainText g.dec l n exp) := by
  by_cases hA : (n : Int) - 1 ≤ exp
  · obtain ⟨k, hk⟩ : ∃ k : Nat, exp = (n : Int) - 1 + k := ⟨(exp - (n - 1)).toNat, by omega⟩
    have c1 : (n : Int) - exp - 1 ≤ 0 := by omega
    have e1 : -((n : Int) - exp - 1) = (k : Int) := by omega
    have e2 : decimalWidth n exp = ((n + k : Nat) : Int) := by
      unfold decimalWidth
      rw [if_pos c1]
      push_cast
      omega
    have et : plainText g.dec l n exp
        = (List.replicate k 48 ++ (msd l n).reverse).reverse := by
      have e3 : (exp - ((n : Int) - 1)).toNat = k := by omega
      simp [plainText, plainInt, hA, e3]
    rw [if_pos c1, if_pos c1, e1, e2, et]
    apply appends_of_backward _ _ ((n + k : Nat) : Int)
    · simp [msd_length]
      omega
    · intro s
      exact writeDecimal_int g l n k s
  · by_cases hB : 0 ≤ exp
    · obtain ⟨d, hd⟩ : ∃ d : Nat, (n : Int) - exp - 1 = (d : Int) :=
        ⟨((n : Int) - exp - 1).toNat, by omega⟩
      have hd1 : 1 ≤ d := by omega
      have hdn : d < n := by omega
      have c1 : ¬ (n : Int) - exp - 1 ≤ 0 := by omega
      have c2 : (n : Int) > (n : Int) - exp - 1 := by omega
      have e2 : decimalWidth n exp = (n : Int) + 1 := by
        unfold decimalWidth
        rw [if_neg c1, if_pos c2]
      have hmin : min d n = d := by omega
      have et : plainText g.dec l n exp
          = ((msd l (min d n)).reverse ++ List.replicate (d - min d n) 48 ++ [g.dec]
              ++ List.replicate 0 48
              ++ (msd (l / 10 ^ min d n) (n - min d n)).reverse).reverse := by
        have e3 : ((n : Int) - 1 - exp).toNat = d := by omega
        have e4 : (exp + 1).toNat = n - d := by omega
        simp [plainText, plainInt, plainFrac, hA, hB, e3, e4, hmin]
      rw [if_neg c1, if_neg c1, if_pos c2, e2, hd, et]
      apply appends_of_backward _ _ ((n : Int) + 1)
      · simp [msd_length, hmin]
        omega
      · intro s
        exact writeDecimal_frac g l n d 0 _ s (by omega)
    · obtain ⟨d, hd⟩ : ∃ d : Nat, (n : Int) - exp - 1 = (d : Int) :=
        ⟨((n : Int) - exp - 1).toNat, by omega⟩
      have hdn : n ≤ d := by omega
      have c1 : ¬ (n : Int) - exp - 1 ≤ 0 := by omega
      have c2 : ¬ (n : Int) > (n : Int) - exp - 1 := by omega
      have e2 : decimalWidth n exp = (d : Int) + 1 + 1 := by
        unfold decimalWidth
        rw [if_neg c1, if_neg c2, hd]
      have hmin : min d n = n := by omega
      have hpad := msd_pad l n (d - n) hl
      have hdd : n + (d - n) = d := by omega
      rw [hdd] at hpad
      have et : plainText g.dec l n exp
          = ((msd l (min d n)).reverse ++ List.replicate (d - min d n) 48 ++ [g.dec]
              ++ List.replicate 1 48
              ++ (msd (l / 10 ^ min d n) (n - min d n)).reverse).reverse := by
        have e3 : ((n : Int) - 1 - exp).toNat = d := by omega
        simp [plainText, plainInt, plainFrac, hA, hB, e3, hmin, hpad, msd]
      have e5 : ((1 : Nat) : Int) = 1 := rfl
      rw [if_neg c1, if_neg c1, if_neg c2, e2, hd, et, ← e5]
      apply appends_of_backward _ _ ((d : Int) + ((1 : Nat) : Int) + ((1 : Nat) : Int))
      · simp [msd_length, hmin, msd]
        omega
      · intro s
        exact writeDecimal_frac g l n d 1 _ s (by omega)

/-- The scientific format writes the scientific form. -/
theorem appends_writeScientific (g : Globals) (l m : Nat) (exp : Int)
    (hl : l < 10 ^ (m + 1)) (hexp : -999 ≤ exp ∧ exp ≤ 999) :
    Appends (writeScientific g l ((m + 1 : Nat) : Int) exp)
      (sciText g.dec l ((m + 1 : Nat) : Int) exp) := by
  have hm := appends_sciMantissa g.dec l m hl
  have hsign : Appends (fun s : Cur => if exp < 0 then s.put 45 else s.put 43)
      [if exp < 0 then 45 else 43] := by
    by_cases h : exp < 0
    · simp only [h, if_true]
      exact appends_put 45
    · simp only [h, if_false]
      exact appends_put 43
  have h := Appends.comp (Appends.comp (Appends.comp hm (appends_put 101)) hsign)
    (appends_expDigits exp hexp)
  have et : sciText g.dec l ((m + 1 : Nat) : Int) exp
      = msd (l / 10 ^ m) 1 ++ (if ((m + 1 : Nat) : Int) > 1 then g.dec :: msd l m else [])
          ++ [101] ++ [if exp < 0 then 45 else 43] ++ expText exp := by
    simp [sciText]
  rw [et]
  intro s lo hlo
  have := h s lo hlo
  simpa [writeScientific] using this

theorem stripZeros_pow (l k : Nat) (hl : l % 10 ≠ 0) (fuel : Nat) (tz : Int) (h : k ≤ fuel) :
    stripZeros fuel (l * 10 ^ k) tz = (l, tz + k) := by
  induction k generalizing fuel tz with
  | zero =>
    cases fuel with
    | zero => simp [stripZeros]
    | succ f => simp [stripZeros, hl]
  | succ k ih =>
    obtain ⟨f, rfl⟩ : ∃ f, fuel = f + 1 := ⟨fuel - 1, by omega⟩
    have h0 : l * 10 ^ (k + 1) % 10 = 0 := by
      rw [pow_succ, ← Nat.mul_assoc]
      exact Nat.mul_mod_left _ _
    have h1 : l * 10 ^ (k + 1) / 10 = l * 10 ^ k := by
      rw [pow_succ, ← Nat.mul_assoc]
      exact Nat.mul_div_cancel _ (by norm_num)
    rw [stripZeros, if_pos h0, h1, ih f (tz + 1) (by omega)]
    congr 1
    push_cast
    ring

/-- After rounding and stripping, `writeDigits` hands the digits to the two formats. -/
theorem writeDigits_form (g : Globals) (l n : Nat) (exp : Int) (hn1 : 1 ≤ n) (hn : n ≤ 15)
    (hlast : l % 10 ≠ 0) (s : Cur) :
    writeDigits g (l * 10 ^ (16 - n)) exp s = writeForm g l n exp s := by
  have hl0 : 0 < l := by
    rcases Nat.eq_zero_or_pos l with h | h
    · rw [h] at hlast
      exact absurd rfl hlast
    · exact h
  have e16 : 16 - n = (15 - n) + 1 := by omega
  have h0 : l * 10 ^ (16 - n) % 10 = 0 := by
    rw [e16, pow_succ, ← Nat.mul_assoc]
    exact Nat.mul_mod_left _ _
  have h1 : l * 10 ^ (16 - n) / 10 = l * 10 ^ (15 - n) := by
    rw [e16, pow_succ, ← Nat.mul_assoc]
    exact Nat.mul_div_cancel _ (by norm_num)
  have hpos : l * 10 ^ (15 - n) ≠ 0 := by positivity
  have hfuel : 15 - n ≤ l * 10 ^ (15 - n) := by
    have h2 : 15 - n < 10 ^ (15 - n) := Nat.lt_pow_self (by norm_num) _
    have h3 : 10 ^ (15 - n) ≤ l * 10 ^ (15 - n) := Nat.le_mul_of_pos_left _ hl0
    omega
  have hs := stripZeros_pow l (15 - n) hlast (l * 10 ^ (15 - n)) 0 hfuel
  have hge : ¬ l * 10 ^ (16 - n) % 10 ≥ 5 := by omega
  have hsf : (15 : Int) - (0 + ((15 - n : Nat) : Int)) = (n : Int) := by omega
  have hsf0 : ¬ (n : Int) = 0 := by omega
  unfold writeDigits writeForm
  simp only [hge, if_false, h1, hpos, hs, hsf, hsf0]

theorem cast_div_add_mod (l d : Nat) (hd : 0 < d) :
    ((l / d : Nat) : ℚ) + ((l % d : Nat) : ℚ) / (d : ℚ) = (l : ℚ) / (d : ℚ) := by
  have h := Nat.div_add_mod l d
  have hq : ((d : ℚ)) * ((l / d : Nat) : ℚ) + ((l % d : Nat) : ℚ) = (l : ℚ) := by
    exact_mod_cast h
  have hd0 : (d : ℚ) ≠ 0 := by positivity
  field_simp
  linarith

theorem numeral_split (l a b : Nat) (hl : l < 10 ^ (a + b)) :
    numeral (msd (l / 10 ^ b) a) (msd l b) = some ((l : ℚ) / (10 : ℚ) ^ b) := by
  have h1 : l / 10 ^ b % 10 ^ a = l / 10 ^ b := by
    apply Nat.mod_eq_of_lt
    apply Nat.div_lt_of_lt_mul
    rw [← pow_add, Nat.add_comm]
    exact hl
  have h := cast_div_add_mod l (10 ^ b) (by positivity)
  push_cast at h
  simp only [numeral, parse_msd, h1, msd_length]
  rw [h]

theorem numeral_plain (l n : Nat) (exp : Int) (hl : l < 10 ^ n) :
    numeral (plainInt l n exp) (plainFrac l n exp)
      = some ((l : ℚ) * (10 : ℚ) ^ (exp - n + 1)) := by
  by_cases hA : (n : Int) - 1 ≤ exp
  · obtain ⟨k, hk⟩ : ∃ k : Nat, exp = (n : Int) - 1 + k := ⟨(exp - (n - 1)).toNat, by omega⟩
    have e3 : (exp - ((n : Int) - 1)).toNat = k := by omega
    have e4 : exp - n + 1 = (k : Int) := by omega
    have hm : l % 10 ^ n = l := Nat.mod_eq_of_lt hl
    simp only [numeral, plainInt, plainFrac, hA, if_true, Int.toNat_ofNat, e3,
      parse_append_zeros, parse_msd, hm, Option.map_some', parseNatFrom, List.length_nil,
      pow_zero, Nat.cast_zero, zero_div, add_zero, e4, zpow_natCast]
    push_cast
    rfl
  · obtain ⟨d, hd⟩ : ∃ d : Nat, (n : Int) - 1 - exp = (d : Int) :=
      ⟨((n : Int) - 1 - exp).toNat, by omega⟩
    have e3 : ((n : Int) - 1 - exp).toNat = d := by omega
    have e4 : exp - n + 1 = -(d : Int) := by omega
    have hval : (l : ℚ) * (10 : ℚ) ^ (exp - n + 1) = (l : ℚ) / (10 : ℚ) ^ d := by
      rw [e4, zpow_neg, zpow_natCast]
      rfl
    rw [hval]
    by_cases hB : 0 ≤ exp
    · have e5 : (exp + 1).toNat = n - d := by omega
      have h := numeral_split l (n - d) d (by
        have : n - d + d = n := by omega
        rw [this]
        exact hl)
      simpa [plainInt, plainFrac, hA, hB, e3, e5] using h
    · have hdn : n ≤ d := by omega
      have hld : l < 10 ^ d := lt_of_lt_of_le hl (Nat.pow_le_pow_right (by norm_num) hdn)
      have h0 : l / 10 ^ d = 0 := Nat.div_eq_of_lt hld
      have h := numeral_split l 1 d (by
        rw [Nat.add_comm, pow_succ]
        omega)
      rw [h0] at h
      have e6 : msd 0 1 = [48] := by simp [msd]
      rw [e6] at h
      simpa [plainInt, plainFrac, hA, hB, e3] using h

theorem length_plainText (dec l n : Nat) (exp : Int) :
    ((plainText dec l n exp).length : Int) = decimalWidth n exp := by
  unfold plainText plainInt plainFrac decimalWidth
  by_cases hA : (n : Int) - 1 ≤ exp
  · have c1 : (n : Int) - exp - 1 ≤ 0 := by omega
    simp only [hA, if_true, c1, Int.toNat_ofNat, List.append_nil, List.length_append,
      msd_length, List.length_replicate]
    omega
  · have c1 : ¬ (n : Int) - exp - 1 ≤ 0 := by omega
    by_cases hB : 0 ≤ exp
    · have c2 : (n : Int) > (n : Int) - exp - 1 := by omega
      simp only [hA, if_false, hB, if_true, c1, c2, List.length_append, msd_length,
        List.length_cons]
      omega
    · have c2 : ¬ (n : Int) > (n : Int) - exp - 1 := by omega
      simp only [hA, if_false, hB, c1, c2, List.length_append, msd_length,
        List.length_cons, List.length_nil]
      omega

theorem length_sciText (dec l n : Nat) (exp : Int) (hn : 1 ≤ n) :
    ((sciText dec l n exp).length : Int)
      = (n : Int) + b2i (decide ((n : Int) > 1)) + 2 + (if exp.natAbs > 99 then 3 else 2) := by
  unfold sciText expText b2i
  by_cases h1 : (n : Int) > 1
  · by_cases h2 : exp.natAbs > 99
    · have h3 : ¬ exp.natAbs < 100 := by omega
      simp only [h1, if_true, h2, h3, if_false, decide_True, List.length_append, msd_length,
        List.length_cons, List.length_nil, Int.toNat_ofNat]
      omega
    · have h3 : exp.natAbs < 100 := by omega
      simp only [h1, if_true, h2, h3, if_false, decide_True, List.length_append, msd_length,
        List.length_cons, List.length_nil, Int.toNat_ofNat]
      omega
  · by_cases h2 : exp.natAbs > 99
    · have h3 : ¬ exp.natAbs < 100 := by omega
      simp only [h1, if_true, h2, h3, if_false, decide_False, List.length_append, msd_length,
        List.length_cons, List.length_nil, Int.toNat_ofNat, Bool.false_eq_true]
      omega
    · have h3 : exp.natAbs < 100 := by omega
      simp only [h1, if_true, h2, h3, if_false, decide_False, List.length_append, msd_length,
        List.length_cons, List.length_nil, Int.toNat_ofNat, Bool.false_eq_true]
      omega

theorem parse_expText (exp : Int) (h : -999 ≤ exp ∧ exp ≤ 999) :
    parseNatFrom 0 (expText exp) = some exp.natAbs := by
  unfold expText
  by_cases h1 : exp.natAbs < 100
  · have e : exp.natAbs % 10 ^ 2 = exp.natAbs := Nat.mod_eq_of_lt (by norm_num; omega)
    rw [if_pos h1, parse_msd, e]
  · have e : exp.natAbs % 10 ^ 3 = exp.natAbs := Nat.mod_eq_of_lt (by norm_num; omega)
    rw [if_neg h1, parse_msd, e]

/-! ## POSIXct with any date part -/

/-- The rounding of the seventh decimal on the whole range of the truncated fraction,
its upper end `10000000` (reached when `x - xi` rounds to `1.0`) included. -/
theorem posixMicros_range (m7 : Int) (h0 : 0 ≤ m7) (h1 : m7 ≤ 10000000) :
    0 ≤ (posixMicros m7).1 ∧ (posixMicros m7).1 ≤ 999999
      ∧ (posixMicros m7).1 + 1000000 * (posixMicros m7).2 = (m7 + 5) / 10 := by
  by_cases h : m7 ≤ 9999999
  · obtain ⟨-, -, a, b, c⟩ := posixMicros_spec m7 h0 h
    exact ⟨b, c, a⟩
  · have e : m7 = 10000000 := by omega
    subst e
    decide

theorem appends_millisDigits_any (m : Int) : ∃ l, Appends (millisDigits m) l := by
  refine ⟨[toByte (48 + (m.tdiv 10).tdiv 10), toByte (48 + (m.tdiv 10).tmod 10),
    toByte (48 + m.tmod 10)], ?_⟩
  intro s lo hlo
  obtain ⟨mem, c, t⟩ := s
  apply out_of_frame_bytes _ _ lo _ hlo
  · simp [millisDigits, Cur.move, Cur.store]
  · intro a ha
    simp only [millisDigits, Cur.move, Cur.store] at ha ⊢
    repeat (first | rw [if_pos trivial] | rw [if_pos (by omega)] | rw [if_neg (by omega)])
  · simp only [millisDigits, Cur.move, Cur.store, bytesAt, List.length_cons,
      List.length_nil]
    repeat (first | rw [if_pos trivial] | rw [if_pos (by omega)] | rw [if_neg (by omega)])

theorem appends_microsDigits_any (m : Int) : ∃ l, Appends (microsDigits m) l := by
  refine ⟨[toByte (48 + ((((m.tdiv 10).tdiv 10).tdiv 10).tdiv 10).tdiv 10),
    toByte (48 + ((((m.tdiv 10).tdiv 10).tdiv 10).tdiv 10).tmod 10),
    toByte (48 + (((m.tdiv 10).tdiv 10).tdiv 10).tmod 10),
    toByte (48 + ((m.tdiv 10).tdiv 10).tmod 10),
    toByte (48 + (m.tdiv 10).tmod 10),
    toByte (48 + m.tmod 10)], ?_⟩
  intro s lo hlo
  obtain ⟨mem, c, t⟩ := s
  apply out_of_frame_bytes _ _ lo _ hlo
  · simp [microsDigits, Cur.move, Cur.store]
  · intro a ha
    simp only [microsDigits, Cur.move, Cur.store] at ha ⊢
    repeat (first | rw [if_pos trivial] | rw [if_pos (by omega)] | rw [if_neg (by omega)])
  · simp only [microsDigits, Cur.move, Cur.store, bytesAt, List.length_cons,
      List.length_nil]
    repeat (first | rw [if_pos trivial] | rw [if_pos (by omega)] | rw [if_neg (by omega)])

/-- Whatever the value of `m`, lines 440-461 append some bytes and take none back; for
`0 <= m <= 999999` they are the fractional suffix. -/
theorem appends_writeFraction_any (g : Globals) (m : Int) :
    ∃ l, Appends (writeFraction g m) l
      ∧ (0 ≤ m → m ≤ 999999 → l = posixSuffix g.squashDateTime m) := by
  by_cases hr : 0 ≤ m ∧ m ≤ 999999
  · exact ⟨_, appends_writeFraction g m hr.1 hr.2, fun _ _ => rfl⟩
  · obtain ⟨l3, h3⟩ := appends_millisDigits_any (m.tdiv 1000)
    obtain ⟨l6, h6⟩ := appends_microsDigits_any m
    have hv : ∀ l : List Nat, 0 ≤ m → m ≤ 999999 → l = posixSuffix g.squashDateTime m :=
      fun l a b => absurd ⟨a, b⟩ hr
    by_cases hc : g.squashDateTime ∨ (m ≠ 0 ∧ m.tmod 1000 = 0)
    · refine ⟨(if g.squashDateTime then [] else [46]) ++ l3, ?_, hv _⟩
      have hf : writeFraction g m
          = fun s => millisDigits (m.tdiv 1000) ((s.put 46).move (-(b2i g.squashDateTime))) := by
        funext s
        unfold writeFraction
        rw [if_pos hc]
      rw [hf]
      exact Appends.comp (appends_put_retract g.squashDateTime 46) h3
    · by_cases hz : m ≠ 0
      · refine ⟨[46] ++ l6, ?_, hv _⟩
        have hf : writeFraction g m = fun s => microsDigits m (s.put 46) := by
          funext s
          unfold writeFraction
          rw [if_neg hc, if_pos hz]
        rw [hf]
        exact Appends.comp (appends_put 46) h6
      · refine ⟨[], ?_, hv _⟩
        have hf : writeFraction g m = fun s => s := by
          funext s
          unfold writeFraction
          rw [if_neg hc, if_neg hz]
        rw [hf]
        exact appends_id

/-- For a finite value `writePOSIXct` appends what `write_date` appends for the day,
then `T`, the time of the day, the bytes of the fraction and `Z`. -/
theorem appends_writePOSIXct_any (fp : FloatOps) (g : Globals) (col : Col) (row : Int)
    (x : Double) (hcell : col.doubles row = x) (hfin : x.isfinite = true) (p : List Nat)
    (hdate : Appends
      (write_date g (wrap32 (posixFields (fp.floor x + (posixMicros (fp.frac7 x)).2)).1)) p) :
    ∃ (hh mi ss : Int) (frac : List Nat),
      0 ≤ hh ∧ hh ≤ 23 ∧ 0 ≤ mi ∧ mi ≤ 59 ∧ 0 ≤ ss ∧ ss ≤ 59
      ∧ 3600 * hh + 60 * mi + ss = (posixFields (fp.floor x + (posixMicros (fp.frac7 x)).2)).2
      ∧ (0 ≤ fp.frac7 x → fp.frac7 x ≤ 10000000 →
          frac = posixSuffix g.squashDateTime (posixMicros (fp.frac7 x)).1)
      ∧ Appends (writePOSIXct fp g col row)
          (p ++ (if g.squashDateTime then [] else [84]) ++ timeText g.squashDateTime hh mi ss
            ++ frac ++ (if g.squashDateTime then [] else [90])) := by
  obtain ⟨t0, t1, -⟩ := posixFields_spec (fp.floor x + (posixMicros (fp.frac7 x)).2)
  obtain ⟨frac, hfrac, hsuf⟩ := appends_writeFraction_any g (posixMicros (fp.frac7 x)).1
  generalize hdt : posixFields (fp.floor x + (posixMicros (fp.frac7 x)).2) = dt at *
  obtain ⟨hh, mi, ss, a1, a2, a3, a4, a5, a6, a7, htime⟩ :=
    appends_write_time_text g dt.2 t0 t1
  refine ⟨hh, mi, ss, frac, a1, a2, a3, a4, a5, a6, a7, ?_, ?_⟩
  · intro h0 h1
    obtain ⟨m0, m1, -⟩ := posixMicros_range (fp.frac7 x) h0 h1
    exact hsuf m0 m1
  · have h := Appends.comp (Appends.comp (Appends.comp (Appends.comp hdate
      (appends_put_retract g.squashDateTime 84)) htime) hfrac)
      (appends_put_retract g.squashDateTime 90)
    intro s lo hlo
    have h2 := h s lo hlo
    unfold writePOSIXct
    simp only [hcell, hfin, Bool.not_true, Bool.false_eq_true, if_false, hdt]
    rw [wrap32_id dt.2 (by omega) (by omega)]
    rw [h2]

theorem timeText_ne_nil (sq : Bool) (hh mi ss : Int) : 0 < (timeText sq hh mi ss).length := by
  rw [timeText_length]
  split <;> norm_num

/-- The two branches of `writeForm`, with the field width of the decimal format. -/
theorem writeForm_eq (g : Globals) (l : Nat) (sf exp : Int) (s : Cur) :
    writeForm g l sf exp s
      = if decimalWidth sf exp
            ≤ wrap32 (sf + b2i (decide (sf > 1)) + 2 + (if exp.natAbs > 99 then 3 else 2)
                + g.scipen)
        then writeDecimal g l sf (if sf - exp - 1 ≤ 0 then 0 else sf - exp - 1)
          (if sf - exp - 1 ≤ 0 then -(sf - exp - 1)
           else if sf > sf - exp - 1 then 0 else 1)
          (decimalWidth sf exp) s
        else writeScientific g l sf exp s := by
  unfold writeForm decimalWidth
  simp only []
  split_ifs <;> rfl

/-- What `writeForm` appends on either side of the test of line 263. -/
theorem appends_writeForm (g : Globals) (l m : Nat) (exp : Int) (hl : l < 10 ^ (m + 1))
    (hexp : -999 ≤ exp ∧ exp ≤ 999) :
    (decimalWidth ((m + 1 : Nat) : Int) exp
        ≤ wrap32 (((m + 1 : Nat) : Int) + b2i (decide (((m + 1 : Nat) : Int) > 1)) + 2
            + (if exp.natAbs > 99 then 3 else 2) + g.scipen) →
      Appends (writeForm g l ((m + 1 : Nat) : Int) exp)
        (plainText g.dec l ((m + 1 : Nat) : Int) exp))
    ∧ (¬ decimalWidth ((m + 1 : Nat) : Int) exp
        ≤ wrap32 (((m + 1 : Nat) : Int) + b2i (decide (((m + 1 : Nat) : Int) > 1)) + 2
            + (if exp.natAbs > 99 then 3 else 2) + g.scipen) →
      Appends (writeForm g l ((m + 1 : Nat) : Int) exp)
        (sciText g.dec l ((m + 1 : Nat) : Int) exp)) := by
  constructor
  · intro hc
    have hf : writeForm g l ((m + 1 : Nat) : Int) exp = writeDecimal g l ((m + 1 : Nat) : Int)
        (if ((m + 1 : Nat) : Int) - exp - 1 ≤ 0 then 0 else ((m + 1 : Nat) : Int) - exp - 1)
        (if ((m + 1 : Nat) : Int) - exp - 1 ≤ 0 then -(((m + 1 : Nat) : Int) - exp - 1)
         else if ((m + 1 : Nat) : Int) > ((m + 1 : Nat) : Int) - exp - 1 then 0 else 1)
        (decimalWidth ((m + 1 : Nat) : Int) exp) := by
      funext s
      rw [writeForm_eq g l _ exp s, if_pos hc]
    rw [hf]
    exact appends_writeDecimal g l (m + 1) exp hl
  · intro hc
    have hf : writeForm g l ((m + 1 : Nat) : Int) exp
        = writeScientific g l ((m + 1 : Nat) : Int) exp := by
      funext s
      rw [writeForm_eq g l _ exp s, if_neg hc]
    rw [hf]
    exact appends_writeScientific g l m exp hl hexp

/-- The sum of `int`s of line 263 stays in the range of `int` when `scipen` is at most
`INT_MAX - 21`. -/
theorem wrap32_form_sum (g : Globals) (sf exp : Int) (hsf : 1 ≤ sf ∧ sf ≤ 15)
    (hscipen : -2147483648 ≤ g.scipen ∧ g.scipen ≤ 2147483626) :
    wrap32 (sf + b2i (decide (sf > 1)) + 2 + (if exp.natAbs > 99 then 3 else 2) + g.scipen)
      = sf + b2i (decide (sf > 1)) + 2 + (if exp.natAbs > 99 then 3 else 2) + g.scipen := by
  have hb : 0 ≤ b2i (decide (sf > 1)) ∧ b2i (decide (sf > 1)) ≤ 1 := by
    unfold b2i
    split <;> omega
  have he : (2 : Int) ≤ (if exp.natAbs > 99 then 3 else 2)
      ∧ (if exp.natAbs > 99 then 3 else 2) ≤ (3 : Int) := by
    split <;> omega
  unfold wrap32
  generalize b2i (decide (sf > 1)) = b at hb ⊢
  generalize (if exp.natAbs > 99 then (3 : Int) else 2) = e at he ⊢
  omega

/-- The header leaves the globals as it found them: the rows are formatted with the
globals of lines 591-609. -/
theorem dataGlobals_eq (h : Host) (args : fwriteMainArgs) :
    dataGlobals h args = fwriteMainGlobals args := by
  unfold dataGlobals
  split
  · rfl
  · exact writeHeader_globals args _

/-- The planner never leaves `rowsPerBatch` below 1 (line 814). -/
theorem planner_rowsPerBatch_pos (buffMB maxLineLen nrow nth0 : Int) :
    1 ≤ (planner buffMB maxLineLen nrow nth0).rowsPerBatch := by
  unfold planner
  simp only []
  split <;> omega

/-- Without compression and without failure the loop over the batches writes the
batches to the sink one after another. -/
theorem foldl_batchStage_plain (z : Zlib) (g : Globals) (args : fwriteMainArgs)
    (bs : List (Int × Int)) (st : Sink) (k : Nat) (hf : st.failed = false) :
    bs.foldl (batchStage z g args false) st
      = { st with file := st.file ++ committed g args (fun _ => Cur.init 0) k bs } := by
  induction bs generalizing st k with
  | nil => simp [committed]
  | cons b rest ih =>
    have hb : batchStage z g args false st b
        = { st with file := st.file ++ batchBytes g args b (Cur.init 0) } := by
      unfold batchStage
      simp [hf]
    have h2 := ih { st with file := st.file ++ batchBytes g args b (Cur.init 0) } (k + 1) hf
    rw [List.foldl_cons, hb, h2]
    simp [committed, List.append_assoc]

/-- An uncompressed job with at least one row writes the header and then the rows in
order, and ends without `STOP`. -/
theorem fwriteMain_plain (z : Zlib) (h : Host) (args : fwriteMainArgs) (crc0 len0 : Nat)
    (rowBytes : Int → List Nat)
    (hb : 1 ≤ args.buffMB ∧ args.buffMB ≤ 1024) (heol : 0 < eolLen args)
    (hm : (maxLineLen h args).isSome) (hgz : args.is_gzip = false) (hn : 1 ≤ args.nrow)
    (hrows : ∀ i, 0 ≤ i → i < args.nrow →
      Appends (writeRow (fwriteMainGlobals args) args i) (rowBytes i)) :
    fwriteMain z h args crc0 len0
      = { file := (if headerLen h args = 0 then [] else headerBytes args)
            ++ rowsText rowBytes args.nrow.toNat 0
          stop := none } := by
  obtain ⟨mll, hmll⟩ := Option.isSome_iff_exists.mp hm
  have hr := planner_rowsPerBatch_pos args.buffMB mll args.nrow args.nth
  have ht := batches_tiling args.nrow _ hr args.nrow.toNat 0 (by omega) (by omega)
  have hc := (committed_of_tiling (fwriteMainGlobals args) args rowBytes
    (fun _ => Cur.init 0) args.nrow _ 0 0 ht hrows).2
  have e0 : (args.nrow - 0).toNat = args.nrow.toNat := by
    congr 1
    omega
  rw [e0] at hc
  unfold fwriteMain
  rw [if_neg (by omega), if_neg (by omega), hmll]
  simp only [hgz, Bool.false_and]
  rw [dataGlobals_eq]
  have hn0 : ¬ args.nrow = 0 := by omega
  by_cases hl : headerLen h args = 0
  · simp only [commitHeader, hl, if_true, hn0, if_false, Bool.false_eq_true]
    rw [foldl_batchStage_plain z _ args _ _ 0 rfl]
    unfold rowBatches at *
    simp [finish, hc]
  · simp only [commitHeader, hl, if_false, hn0, Bool.false_eq_true]
    rw [foldl_batchStage_plain z _ args _ _ 0 rfl]
    unfold rowBatches at *
    simp [finish, hc]

/-! ## Claims -/

/-- C1: for every 32-bit `x`, `writeInt32` appends exactly the NA token when
`x = INT32_MIN` and otherwise the canonical decimal numeral of `x` (a `-` iff `x < 0`,
then the digits of `|x|` most significant first, no leading zero, `0` for 0), and
reading the numeral back as a signed decimal returns `x`; the same for `writeInt64`
with every 64-bit `x` and the sentinel `INT64_MIN`.  (The last two conjuncts record that
the negation `x = -x` of the code cannot overflow once the sentinel is excluded.) -/
theorem writeInt_canonical (g : Globals) (col : Col) (row : Int)
    (h32 : INT32_MIN ≤ col.int32s row ∧ col.int32s row ≤ INT32_MAX)
    (h64 : INT64_MIN ≤ col.int64s row ∧ col.int64s row ≤ INT64_MAX) :
    Appends (writeInt32 g col row)
        (if col.int32s row = INT32_MIN then cstr g.na else decimal (col.int32s row))
      ∧ Appends (writeInt64 g col row)
        (if col.int64s row = INT64_MIN then cstr g.na else decimal (col.int64s row))
      ∧ parseDecimal (decimal (col.int32s row)) = some (col.int32s row)
      ∧ parseDecimal (decimal (col.int64s row)) = some (col.int64s row)
      ∧ (∀ x : Int, decimal x
          = (if x < 0 then [45] else []) ++ ((lsdDigits x.natAbs).reverse))
      ∧ (∀ n : Nat, n ≠ 0 → (decimalNat n).head? ≠ some 48)
      ∧ (col.int32s row ≠ INT32_MIN → -(col.int32s row) ≤ INT32_MAX)
      ∧ (col.int64s row ≠ INT64_MIN → -(col.int64s row) ≤ INT64_MAX) := by
  refine ⟨appends_writeInt32 g col row, appends_writeInt64 g col row, parseDecimal_decimal _,
    parseDecimal_decimal _, ?_, ?_, ?_, ?_⟩
  rotate_left 2
  · intro hne
    unfold INT32_MIN INT32_MAX at *
    omega
  · intro hne
    unfold INT64_MIN INT64_MAX at *
    omega
  · intro x
    unfold decimal decimalNat
    split <;> simp
  · intro n hn
    obtain ⟨c, t, hct, _, _, h3⟩ := decimalNat_head n
    rw [hct]
    simp only [List.head?_cons, ne_eq, Option.some.injEq]
    exact h3 hn

/-- C1 at `x = -1230` (32-bit) and `x = INT64_MIN` (64-bit) with `na = "NA"`:
the writers append `-1230` and `NA`. -/
theorem writeInt_canonical_witness :
    Appends (writeInt32 g0 { int32s := fun _ => -1230, int64s := fun _ => INT64_MIN } 0)
        (ascii "-1230")
      ∧ Appends (writeInt64 g0 { int32s := fun _ => -1230, int64s := fun _ => INT64_MIN } 0)
        (ascii "NA") := by
  have h := writeInt_canonical g0 { int32s := fun _ => -1230, int64s := fun _ => INT64_MIN } 0
    (by decide) (by decide)
  refine ⟨?_, ?_⟩
  · have h1 := h.1
    have e : (if (-1230 : Int) = INT32_MIN then cstr g0.na else decimal (-1230)) = ascii "-1230" := by
      norm_num [decimal, decimalNat, lsdDigits, INT32_MIN]
      decide
    simpa only [e] using h1
  · have h2 := h.2.1
    have e : (if INT64_MIN = INT64_MIN then cstr g0.na else decimal INT64_MIN) = ascii "NA" := by
      decide
    simpa only [e] using h2

/-- C2: for every job with `ncol >= 1` and every row `i`, the row loop appends the
row-name field followed by `sep` (only if `doRowNames`), then the outputs of the column
writers for the cells `(i,0)..(i,ncol-1)` with exactly one `sep` byte between consecutive
cells and none after the last, then the `eol` bytes; when `sep` is the NUL byte
`sepBytes` is empty and no separator byte is emitted. -/
theorem writeRow_layout (args : fwriteMainArgs) (i : Int) (cells : Nat → List Nat)
    (rnCell : List Nat) (hncol : 1 ≤ args.ncol) (hi : 0 ≤ i)
    (hcells : ∀ j, j < args.ncol →
      Appends (args.funs (args.whichFun j) (fwriteMainGlobals args) (args.columns j) i) (cells j))
    (hrn : ∀ rowNames, args.rowNames = some rowNames →
      Appends (args.funs args.rowNameFun (fwriteMainGlobals args) rowNames i) rnCell) :
    Appends (writeRow (fwriteMainGlobals args) args i)
      ((if args.doRowNames then
          rowNameText (fwriteMainGlobals args) args i rnCell ++ sepBytes args.sep
        else [])
        ++ List.intercalate (sepBytes args.sep) ((List.range args.ncol).map cells)
        ++ cstr args.eol) :=
  appends_writeRow args i cells rnCell hncol hi hcells hrn

/-- C2 on scenario 1: row 1 of the two Int32 columns is `3,NA` and a newline, and the
two rows together are `1,2\n3,NA\n`. -/
theorem writeRow_layout_witness :
    Appends (writeRow (fwriteMainGlobals job2) job2 1) (ascii "3,NA\n")
      ∧ out 0 (writeRows (fwriteMainGlobals job2) job2 0 2 (Cur.init 0)) = ascii "1,2\n3,NA\n" := by
  refine ⟨?_, by decide⟩
  have h := writeRow_layout job2 1 (fun j => if j = 0 then ascii "3" else ascii "NA") []
    (by decide) (by decide)
    (fun j hj => by
      have hj2 : j < 2 := hj
      have h := appends_writeInt32 (fwriteMainGlobals job2) (job2.columns j) 1
      interval_cases j
      · have e : (if (job2.columns 0).int32s 1 = INT32_MIN then cstr (fwriteMainGlobals job2).na
            else decimal ((job2.columns 0).int32s 1)) = ascii "3" := by
          norm_num [job2, decimal, decimalNat, lsdDigits, INT32_MIN]
          decide
        rw [e] at h
        exact h
      · have e : (if (job2.columns 1).int32s 1 = INT32_MIN then cstr (fwriteMainGlobals job2).na
            else decimal ((job2.columns 1).int32s 1)) = ascii "NA" := by
          decide
        rw [e] at h
        exact h)
    (fun rowNames hr => by simp [job2] at hr)
  have e : ((if job2.doRowNames then
          rowNameText (fwriteMainGlobals job2) job2 1 [] ++ sepBytes job2.sep
        else [])
        ++ List.intercalate (sepBytes job2.sep)
          ((List.range job2.ncol).map (fun j => if j = 0 then ascii "3" else ascii "NA"))
        ++ cstr job2.eol) = ascii "3,NA\n" := by
    decide
  rw [e] at h
  exact h

/-- C3: in quote mode auto (`doQuote = INT8_MIN`), for every non-missing NUL-free string
`x`, `write_string` writes `x` between double quotes, embedded quotes escaped, if and only
if `x` is empty or contains one of the bytes `sep`, `sep2`, `\n`, `\r`, `"`; in every other
case it appends exactly the bytes of `x`.  The bytes between the old and the new cursor
are exactly that field, so the speculative copy leaves nothing behind. -/
theorem write_string_auto (g : Globals) (x : List Nat) (hq : g.doQuote = INT8_MIN)
    (hx : NulFree x) :
    (needsQuote g x → Appends (write_string g (some x)) (quoted g x))
      ∧ (¬ needsQuote g x → Appends (write_string g (some x)) x)
      ∧ (Appends (write_string g (some x)) (quoted g x) ↔ needsQuote g x) := by
  have h := appends_write_string g x hx
  simp only [hq, if_true] at h
  refine ⟨fun hn => by simpa [hn] using h, fun hn => by simpa [hn] using h, ?_⟩
  constructor
  · intro ha
    by_contra hn
    simp only [hn, if_false] at h
    exact quoted_ne_self g x (Appends.unique ha h)
  · intro hn
    simpa [hn] using h

/-- C3 at `sep=','`: `a,b` is written as `"a,b"` and `ab` is written as `ab`. -/
theorem write_string_auto_witness :
    Appends (write_string g0 (some (ascii "a,b"))) (ascii "\"a,b\"")
      ∧ Appends (write_string g0 (some (ascii "ab"))) (ascii "ab") :=
  ⟨(write_string_auto g0 (ascii "a,b") (by decide) (by decide)).1 (by decide),
   (write_string_auto g0 (ascii "ab") (by decide) (by decide)).2.1 (by decide)⟩

/-- C4: whenever `write_string` quotes a non-missing NUL-free string `x` (mode on, or mode
auto on a string that needs quotes), the output is `"` ++ esc(x) ++ `"`, where esc doubles
every `"` with qmethod double and puts a `\` before every `"` and `\` with qmethod
backslash; the matching unescape of esc(x) returns `x`. -/
theorem write_string_escape (g : Globals) (x : List Nat) (hx : NulFree x)
    (hq : g.doQuote ≠ 0) (hauto : g.doQuote = INT8_MIN → needsQuote g x) :
    Appends (write_string g (some x)) ([34] ++ esc g x ++ [34])
      ∧ (g.qmethodEscape = false → esc g x = escDouble x)
      ∧ (g.qmethodEscape = true → esc g x = escBackslash x)
      ∧ unescDouble (escDouble x) = x
      ∧ unescBackslash (escBackslash x) = x := by
  refine ⟨?_, fun h => by simp [esc, h], fun h => by simp [esc, h],
    unescDouble_escDouble x, unescBackslash_escBackslash x⟩
  have h := appends_write_string g x hx
  by_cases ha : g.doQuote = INT8_MIN
  · simp only [ha, if_true, hauto ha] at h
    simpa [quoted] using h
  · simp only [ha, hq, if_false] at h
    simpa [quoted] using h

/-- C4 on scenario 5: `he said "hi"` is written as `"he said ""hi"""`. -/
theorem write_string_escape_witness :
    Appends (write_string g0 (some (ascii "he said \"hi\""))) (ascii "\"he said \"\"hi\"\"\"") :=
  (write_string_escape g0 (ascii "he said \"hi\"") (by decide) (by decide)
    (fun _ => by decide)).1

/-- C5: for every quote mode and every qmethod, a missing string cell (`getString`
returns NULL) makes `write_string` append exactly the bytes of the NA token, without
quotes and without escaping. -/
theorem write_string_missing (g : Globals) : Appends (write_string g none) (cstr g.na) :=
  appends_write_chars g.na

/-- C6, as stated, fails in quote mode off: with an empty NA token the empty string and
the missing cell both append nothing, and the empty string is not written as `""`. -/
theorem empty_string_off_counterexample :
    out 0 (write_string gOff (some []) (Cur.init 0)) = []
      ∧ out 0 (write_string gOff none (Cur.init 0)) = []
      ∧ ¬ Appends (write_string gOff (some [])) [34, 34] := by
  refine ⟨by decide, by decide, fun h => ?_⟩
  have := h (Cur.init 0) 0 (le_refl _)
  revert this
  decide

/-- C6, amended: in quote modes on and auto (`doQuote ≠ 0`), for every qmethod, a
non-missing empty string is written as the two bytes `""`, so with an empty NA token it
differs from the output for a missing cell; in quote mode off it appends nothing. -/
theorem write_string_empty (g : Globals) :
    (g.doQuote ≠ 0 → Appends (write_string g (some [])) [34, 34]
        ∧ (cstr g.na = [] → ¬ Appends (write_string g none) [34, 34]))
      ∧ (g.doQuote = 0 → Appends (write_string g (some [])) []) := by
  have h := appends_write_string g [] (fun c hc => by simp at hc)
  have hn : needsQuote g [] := Or.inl rfl
  constructor
  · intro hq
    have h1 : Appends (write_string g (some [])) [34, 34] := by
      by_cases ha : g.doQuote = INT8_MIN
      · simp only [ha, hn, if_true] at h
        simpa [quoted, esc, escDouble, escBackslash] using h
      · simp only [ha, hq, if_false] at h
        simpa [quoted, esc, escDouble, escBackslash] using h
    refine ⟨h1, fun hna hm => ?_⟩
    have := Appends.unique hm (appends_write_chars g.na : Appends (write_string g none) (cstr g.na))
    rw [hna] at this
    simp at this
  · intro hq
    have ha : g.doQuote ≠ INT8_MIN := by rw [hq]; decide
    simp only [ha, hq, if_true, if_false] at h
    exact h

/-- C6 amended, at quote mode auto with `na="NA"` and at quote mode off. -/
theorem write_string_empty_witness :
    Appends (write_string g0 (some [])) [34, 34] ∧ Appends (write_string gOff (some [])) [] :=
  ⟨((write_string_empty g0).1 (by decide)).1, (write_string_empty gOff).2 (by decide)⟩

/-- C7: if the NA token is not empty and the requested quote mode is auto, `fwriteMain`
sets the data quote mode to on before any row is formatted, so every non-missing string
cell (`writeString`, `writeCategString`) is written between double quotes, whatever its
bytes; if the NA token is empty or the requested mode is off or on, the data quote mode is
the requested mode; the globals the rows are formatted with, after the header has
overwritten and restored `doQuote`, are these; the bytes every batch formats are the
texts of its rows, and an uncompressed job of at least one row writes the header and
then, in order, the text of every row; and under the promotion every non-missing cell of
`writeString` or `writeCategString` in these texts is the string between double
quotes. -/
theorem quote_promotion (args : fwriteMainArgs) :
    (cstr args.na ≠ [] ∧ args.doQuote = INT8_MIN →
        (fwriteMainGlobals args).doQuote = 1
          ∧ (∀ x, NulFree x →
              Appends (write_string (fwriteMainGlobals args) (some x))
                ([34] ++ esc (fwriteMainGlobals args) x ++ [34]))
          ∧ (∀ col row x, NulFree x → col.strings row = some x →
              Appends (writeString (fwriteMainGlobals args) col row)
                ([34] ++ esc (fwriteMainGlobals args) x ++ [34]))
          ∧ (∀ col row x, NulFree x → col.categs row = some x →
              Appends (writeCategString (fwriteMainGlobals args) col row)
                ([34] ++ esc (fwriteMainGlobals args) x ++ [34])))
      ∧ (¬ (cstr args.na ≠ [] ∧ args.doQuote = INT8_MIN) →
          (fwriteMainGlobals args).doQuote = args.doQuote)
      ∧ (∀ h : Host, dataGlobals h args = fwriteMainGlobals args)
      ∧ (∀ (h : Host) (cells : Int → Nat → List Nat) (rnCell : Int → List Nat),
          1 ≤ args.ncol →
          (∀ i j, 0 ≤ i → i < args.nrow → j < args.ncol →
            Appends (args.funs (args.whichFun j) (fwriteMainGlobals args) (args.columns j) i)
              (cells i j)) →
          (∀ i rowNames, 0 ≤ i → i < args.nrow → args.rowNames = some rowNames →
            Appends (args.funs args.rowNameFun (fwriteMainGlobals args) rowNames i)
              (rnCell i)) →
          (∀ (b : Int × Int) (buf : Cur), 0 ≤ b.1 → b.2 ≤ args.nrow →
              batchBytes (dataGlobals h args) args b buf
                = rowsText (fun i => rowText args i (rnCell i) (cells i))
                    (b.2 - b.1).toNat b.1)
            ∧ (∀ (z : Zlib) (crc0 len0 : Nat),
                1 ≤ args.buffMB ∧ args.buffMB ≤ 1024 → 0 < eolLen args →
                (∃ mll, maxLineLen h args = some mll ∧ 1 ≤ mll) →
                args.is_gzip = false → 1 ≤ args.nrow →
                fwriteMain z h args crc0 len0
                  = { file := (if headerLen h args = 0 then [] else headerBytes args)
                        ++ rowsText (fun i => rowText args i (rnCell i) (cells i))
                            args.nrow.toNat 0
                      stop := none })
            ∧ (cstr args.na ≠ [] ∧ args.doQuote = INT8_MIN →
                ∀ i j x, 0 ≤ i → i < args.nrow → j < args.ncol → NulFree x →
                  (args.funs (args.whichFun j) = writeString
                      ∧ (args.columns j).strings i = some x
                    ∨ args.funs (args.whichFun j) = writeCategString
                      ∧ (args.columns j).categs i = some x) →
                  cells i j = [34] ++ esc (fwriteMainGlobals args) x ++ [34])) := by
  have hna : cstr args.na ≠ [] ↔ strHead args.na ≠ 0 := by
    cases args.na with
    | nil => simp [cstr, strHead]
    | cons c t =>
      by_cases hc : c = 0 <;> simp [cstr, strHead, hc]
  have hpromo : cstr args.na ≠ [] ∧ args.doQuote = INT8_MIN →
      (fwriteMainGlobals args).doQuote = 1
        ∧ ∀ x, NulFree x →
            Appends (write_string (fwriteMainGlobals args) (some x))
              ([34] ++ esc (fwriteMainGlobals args) x ++ [34]) := by
    rintro ⟨h1, h2⟩
    have hd : (fwriteMainGlobals args).doQuote = 1 := by
      simp [fwriteMainGlobals, hna.mp h1, h2]
    refine ⟨hd, ?_⟩
    intro x hx
    have h := appends_write_string (fwriteMainGlobals args) x hx
    have e1 : ¬ ((1 : Int) = INT8_MIN) := by decide
    simp only [hd, e1, if_false] at h
    simpa [quoted] using h
  refine ⟨?_, ?_, fun h => dataGlobals_eq h args, ?_⟩
  · intro hp
    obtain ⟨hd, hw⟩ := hpromo hp
    refine ⟨hd, hw, ?_, ?_⟩
    · intro col row x hx hs
      unfold writeString
      rw [hs]
      exact hw x hx
    · intro col row x hx hs
      unfold writeCategString
      rw [hs]
      exact hw x hx
  · intro h
    unfold fwriteMainGlobals
    simp only []
    rw [if_neg]
    intro hh
    exact h ⟨hna.mpr hh.1, hh.2⟩
  · intro h cells rnCell hncol hcells hrn
    have hrows : ∀ i, 0 ≤ i → i < args.nrow →
        Appends (writeRow (fwriteMainGlobals args) args i)
          (rowText args i (rnCell i) (cells i)) := by
      intro i h0 h1
      exact appends_writeRow args i (cells i) (rnCell i) hncol h0
        (fun j hj => hcells i j h0 h1 hj) (fun rowNames hr => hrn i rowNames h0 h1 hr)
    refine ⟨?_, ?_, ?_⟩
    · intro b buf h0 h1
      rw [dataGlobals_eq]
      exact batchBytes_eq (fwriteMainGlobals args) args _ b buf
        (fun i hi1 hi2 => hrows i (by omega) (by omega))
    · intro z crc0 len0 hb heol hm hgz hn
      obtain ⟨mll, hmll, -⟩ := hm
      exact fwriteMain_plain z h args crc0 len0 _ hb heol (by rw [hmll]; rfl) hgz hn hrows
    · intro hp i j x h0 h1 hj hx hcase
      obtain ⟨-, hw⟩ := hpromo hp
      have hc := hcells i j h0 h1 hj
      rcases hcase with ⟨hf, hs⟩ | ⟨hf, hs⟩
      · rw [hf] at hc
        unfold writeString at hc
        rw [hs] at hc
        exact Appends.unique hc (hw x hx)
      · rw [hf] at hc
        unfold writeCategString at hc
        rw [hs] at hc
        exact Appends.unique hc (hw x hx)

/-- C7 on scenario 1 (`na="NA"`, quote mode auto): the data quote mode is on and the
plain string `abc` is written as `"abc"`; and with one string column holding `abc` and
a missing string the file is `"abc"`, a newline, `NA` and a newline. -/
theorem quote_promotion_witness :
    (fwriteMainGlobals job2).doQuote = 1
      ∧ Appends (write_string (fwriteMainGlobals job2) (some (ascii "abc"))) (ascii "\"abc\"")
      ∧ fwriteMain z0 host0 jobStr 0 0
          = { file := ascii "\"abc\"\nNA\n", stop := none } := by
  have h := (quote_promotion job2).1 ⟨by decide, by decide⟩
  have h2 := (quote_promotion jobStr).2.2.2 host0
    (fun i _ => if i = 0 then ascii "\"abc\"" else ascii "NA") (fun _ => [])
    (by decide)
    (fun i j h0 h1 _ => by
      have h1 : i < 2 := h1
      interval_cases i
      · show Appends (write_string (fwriteMainGlobals jobStr) (some (ascii "abc")))
          (ascii "\"abc\"")
        exact appends_of_eval
          (appends_write_string (fwriteMainGlobals jobStr) (ascii "abc") (by decide))
          (by decide)
      · show Appends (write_string (fwriteMainGlobals jobStr) none) (ascii "NA")
        exact appends_write_chars _)
    (fun i rowNames _ _ hr => by simp [jobStr, job2] at hr)
  have h3 := h2.2.1 z0 0 0 (by decide) (by decide) ⟨10, by decide, by decide⟩ (by decide)
    (by decide)
  refine ⟨h.1, h.2.1 (ascii "abc") (by decide), ?_⟩
  rw [h3]
  decide

/-- C10: for every `x` with `0 <= x <= 86399`, `write_time` (and `writeITime`) appends
exactly the 8 bytes `HH:MM:SS`, or the 6 bytes `HHMMSS` when `squashDateTime`, each field
two zero-padded decimal digits, with `0 <= HH <= 23`, `0 <= MM <= 59`, `0 <= SS <= 59` and
`3600*HH + 60*MM + SS = x`; for every `x < 0` it appends exactly the NA token. -/
theorem write_time_format (g : Globals) (col : Col) (row : Int) (x : Int)
    (hcell : col.int32s row = x) :
    (0 ≤ x ∧ x ≤ 86399 →
        ∃ hh mm ss : Int, 0 ≤ hh ∧ hh ≤ 23 ∧ 0 ≤ mm ∧ mm ≤ 59 ∧ 0 ≤ ss ∧ ss ≤ 59
          ∧ 3600 * hh + 60 * mm + ss = x
          ∧ Appends (write_time g x) (timeText g.squashDateTime hh mm ss)
          ∧ Appends (writeITime g col row) (timeText g.squashDateTime hh mm ss)
          ∧ (timeText g.squashDateTime hh mm ss).length = (if g.squashDateTime then 6 else 8))
      ∧ (x < 0 → Appends (write_time g x) (cstr g.na)
          ∧ Appends (writeITime g col row) (cstr g.na)) := by
  have hw : writeITime g col row = write_time g x := by
    funext s; simp [writeITime, hcell]
  rw [hw]
  constructor
  · rintro ⟨h0, h1⟩
    obtain ⟨a1, a2, a3, a4, a5, a6, a7⟩ := timeFields_range x h0 h1
    have h := appends_write_time g x (by omega)
    rw [toByte_digit_div _ a1 (by omega), toByte_digit_mod _ a1, toByte_digit_div _ a3 (by omega),
      toByte_digit_mod _ a3, toByte_digit_div _ a5 (by omega), toByte_digit_mod _ a5] at h
    refine ⟨_, _, _, a1, a2, a3, a4, a5, a6, a7, ?_, ?_, ?_⟩
    · simpa [timeText, digits2] using h
    · simpa [timeText, digits2] using h
    · cases g.squashDateTime <;> simp [timeText, digits2]
  · intro hneg
    have : Appends (write_time g x) (cstr g.na) := by
      intro s lo hlo
      unfold write_time
      rw [if_pos hneg]
      exact appends_write_chars g.na s lo hlo
    exact ⟨this, this⟩

/-- C10 at `x = 86399` (`23:59:59`), at `x = 3723` squashed (`010203`) and at `x = -1`
(the NA token). -/
theorem write_time_format_witness :
    Appends (write_time g0 86399) (ascii "23:59:59")
      ∧ Appends (writeITime gSquash { int32s := fun _ => 3723 } 0) (ascii "010203")
      ∧ Appends (write_time g0 (-1)) (ascii "NA") := by
  refine ⟨?_, ?_, ?_⟩
  · obtain ⟨hh, mm, ss, h1, h2, h3, h4, h5, h6, h7, h8, -, -⟩ :=
      (write_time_format g0 { int32s := fun _ => 86399 } 0 86399 rfl).1 ⟨by decide, by decide⟩
    have e1 : hh = 23 := by omega
    have e2 : mm = 59 := by omega
    have e3 : ss = 59 := by omega
    subst e1 e2 e3
    exact h8
  · obtain ⟨hh, mm, ss, h1, h2, h3, h4, h5, h6, h7, -, h9, -⟩ :=
      (write_time_format gSquash { int32s := fun _ => 3723 } 0 3723 rfl).1 ⟨by decide, by decide⟩
    have e1 : hh = 1 := by omega
    have e2 : mm = 2 := by omega
    have e3 : ss = 3 := by omega
    subst e1 e2 e3
    exact h9
  · exact ((write_time_format g0 { int32s := fun _ => -1 } 0 (-1) rfl).2 (by decide)).1

/-- C8: for every day number `x` with `-719468 <= x <= 2932896`, `write_date` (and
`writeDateInt32`), with `monthday` the 366-entry table `monthdayTable` (entry 0 is 0229,
entry 1 is 0301, entry 365 is 0228), appends exactly the
10 bytes `YYYY-MM-DD` (the 8 bytes `YYYYMMDD` when `squashDateTime`), zero padded, where
`(YYYY, MM, DD)` is a valid proleptic-Gregorian date with `0 <= YYYY <= 9999` and the
standard days-from-civil computation of `(YYYY, MM, DD)` returns `x`. -/
theorem write_date_format (g : Globals) (col : Col) (row : Int) (x : Int)
    (hcell : col.int32s row = x) (h1 : -719468 ≤ x) (h2 : x ≤ 2932896) :
    monthdayTable.length = 366 ∧ monthday 0 = 229 ∧ monthday 1 = 301 ∧ monthday 365 = 228
      ∧ ∃ Y M D : Int, 0 ≤ Y ∧ Y ≤ 9999 ∧ validDate Y M D ∧ days_from_civil Y M D = x
          ∧ Appends (write_date g x) (dateText g.squashDateTime Y M D)
          ∧ Appends (writeDateInt32 g col row) (dateText g.squashDateTime Y M D)
          ∧ (dateText g.squashDateTime Y M D).length = (if g.squashDateTime then 8 else 10) := by
  obtain ⟨Y, M, D, y0, y9, hv, hd, h⟩ := appends_write_date_text g x h1 h2
  have hw : writeDateInt32 g col row = write_date g x := by
    funext s; simp [writeDateInt32, hcell]
  rw [hw]
  exact ⟨monthdayTable_length, by decide, by decide, by decide,
    Y, M, D, y0, y9, hv, hd, h, h, dateText_length _ _ _ _⟩

/-- C8 at `0`, `-1`, `2932896`, `-719468` and, squashed, at `-1`: the dates
`1970-01-01`, `1969-12-31`, `9999-12-31`, `0000-03-01` and `19691231`. -/
theorem write_date_format_witness :
    Appends (write_date g0 0) (ascii "1970-01-01")
      ∧ Appends (write_date g0 (-1)) (ascii "1969-12-31")
      ∧ Appends (write_date g0 2932896) (ascii "9999-12-31")
      ∧ Appends (write_date g0 (-719468)) (ascii "0000-03-01")
      ∧ Appends (writeDateInt32 gSquash { int32s := fun _ => -1 } 0) (ascii "19691231") := by
  refine ⟨?_, ?_, ?_, ?_, ?_⟩
  · obtain ⟨-, -, -, -, Y, M, D, -, -, -, -, h, -, -⟩ :=
      write_date_format g0 { int32s := fun _ => 0 } 0 0 rfl (by decide) (by decide)
    exact appends_of_eval h (by decide)
  · obtain ⟨-, -, -, -, Y, M, D, -, -, -, -, h, -, -⟩ :=
      write_date_format g0 { int32s := fun _ => -1 } 0 (-1) rfl (by decide) (by decide)
    exact appends_of_eval h (by decide)
  · obtain ⟨-, -, -, -, Y, M, D, -, -, -, -, h, -, -⟩ :=
      write_date_format g0 { int32s := fun _ => 2932896 } 0 2932896 rfl (by decide) (by decide)
    exact appends_of_eval h (by decide)
  · obtain ⟨-, -, -, -, Y, M, D, -, -, -, -, h, -, -⟩ :=
      write_date_format g0 { int32s := fun _ => -719468 } 0 (-719468) rfl (by decide) (by decide)
    exact appends_of_eval h (by decide)
  · obtain ⟨-, -, -, -, Y, M, D, -, -, -, -, -, h, -⟩ :=
      write_date_format gSquash { int32s := fun _ => -1 } 0 (-1) rfl (by decide) (by decide)
    exact appends_of_eval h (by decide)

/-- C9, as stated, fails when the NA token is itself the text of a date: with
`na = "1970-01-01"` the day `0` is inside the domain and `write_date` appends exactly
the bytes of the NA token. -/
theorem date_na_token_counterexample :
    (-719468 ≤ (0 : Int) ∧ (0 : Int) ≤ 2932896)
      ∧ Appends (write_date gDateNA 0) (cstr gDateNA.na)
      ∧ ¬ (Appends (write_date gDateNA 0) (cstr gDateNA.na)
            ↔ ((0 : Int) < -719468 ∨ (0 : Int) > 2932896)) := by
  have h : Appends (write_date gDateNA 0) (cstr gDateNA.na) :=
    appends_of_eval (appends_write_date gDateNA 0 (by decide)) (by decide)
  refine ⟨by decide, h, fun hiff => ?_⟩
  have := hiff.mp h
  revert this
  decide

/-- C9, amended: for every day number `x`, outside `[-719468, 2932896]` `write_date`
appends exactly the NA token (so does the sentinel `INT32_MIN`), and inside it appends
the text of a valid date, which starts with a decimal digit; so, for every NA token that
does not start with a decimal digit, the appended bytes are the NA token if and only if
`x < -719468` or `x > 2932896`. -/
theorem write_date_na (g : Globals) (x : Int) :
    (x < -719468 ∨ x > 2932896 → Appends (write_date g x) (cstr g.na))
      ∧ (-719468 ≤ x ∧ x ≤ 2932896 →
          ∃ Y M D : Int, validDate Y M D
            ∧ Appends (write_date g x) (dateText g.squashDateTime Y M D))
      ∧ (¬ (48 ≤ strHead g.na ∧ strHead g.na ≤ 57) →
          (Appends (write_date g x) (cstr g.na) ↔ (x < -719468 ∨ x > 2932896)))
      ∧ Appends (write_date g INT32_MIN) (cstr g.na) := by
  refine ⟨appends_write_date_na g x, ?_, ?_, appends_write_date_na g INT32_MIN (by decide)⟩
  · rintro ⟨h1, h2⟩
    obtain ⟨Y, M, D, -, -, hv, -, h⟩ := appends_write_date_text g x h1 h2
    exact ⟨Y, M, D, hv, h⟩
  · intro hna
    constructor
    · intro ha
      by_contra hr
      obtain ⟨Y, M, D, -, -, -, -, h⟩ := appends_write_date_text g x (by omega) (by omega)
      have e := Appends.unique ha h
      obtain ⟨c, t, hct, c1, c2⟩ := dateText_head g.squashDateTime Y M D
      rw [hct] at e
      have := cstr_head g.na c t e
      rw [this] at hna
      exact hna ⟨c1, c2⟩
    · exact appends_write_date_na g x

/-- C9 amended, with `na = "NA"`: `INT32_MIN` gives `NA`, and day `0` gives the NA token
iff it is outside the domain (it is not). -/
theorem write_date_na_witness :
    Appends (write_date g0 INT32_MIN) (ascii "NA")
      ∧ (Appends (write_date g0 0) (cstr g0.na) ↔ ((0 : Int) < -719468 ∨ (0 : Int) > 2932896)) :=
  ⟨(write_date_na g0 INT32_MIN).1 (by decide), (write_date_na g0 0).2.2.1 (by decide)⟩

/-- C11: for every 64-bit `x` other than `INT64_MIN`, `writeNanotime` splits `x` into
days `d`, seconds of the day `s` and nanoseconds `n` with `0 <= s <= 86399`,
`0 <= n <= 999999999` and `d*86400*10^9 + s*10^9 + n = x` (the floored split, also for
negative `x`), the day `d` lies inside the domain of `write_date`, so the date part is the
text of a valid date and not the NA token, and the bytes appended are exactly the 30 bytes
`YYYY-MM-DDTHH:MM:SS.nnnnnnnnnZ` (the 23 bytes `YYYYMMDDHHMMSSnnnnnnnnn` when
`squashDateTime`); for `x = INT64_MIN` it appends exactly the NA token. -/
theorem writeNanotime_format (g : Globals) (col : Col) (row : Int) (x : Int)
    (hcell : col.int64s row = x) (h1 : INT64_MIN ≤ x) (h2 : x ≤ INT64_MAX) :
    (x ≠ INT64_MIN →
        ∃ d s n Y M D hh mm ss : Int,
          0 ≤ s ∧ s ≤ 86399 ∧ 0 ≤ n ∧ n ≤ 999999999
          ∧ d * 86400 * 1000000000 + s * 1000000000 + n = x
          ∧ -719468 ≤ d ∧ d ≤ 2932896
          ∧ validDate Y M D ∧ days_from_civil Y M D = d
          ∧ 0 ≤ hh ∧ hh ≤ 23 ∧ 0 ≤ mm ∧ mm ≤ 59 ∧ 0 ≤ ss ∧ ss ≤ 59
          ∧ 3600 * hh + 60 * mm + ss = s
          ∧ Appends (writeNanotime g col row) (nanotimeText g.squashDateTime Y M D hh mm ss n)
          ∧ (nanotimeText g.squashDateTime Y M D hh mm ss n).length
              = (if g.squashDateTime then 23 else 30))
      ∧ (x = INT64_MIN → Appends (writeNanotime g col row) (cstr g.na)) := by
  constructor
  · intro hne
    have hlt : INT64_MIN < x := lt_of_le_of_ne h1 (Ne.symm hne)
    obtain ⟨s0, s1, n0, n1, hsum, d0, d1⟩ := nanoFields_spec x hlt h2
    obtain ⟨Y, M, D, -, -, hv, hd, hdate⟩ :=
      appends_write_date_text g (nanoFields x).1 (by omega) (by omega)
    obtain ⟨hh, mm, ss, a1, a2, a3, a4, a5, a6, a7, htime⟩ :=
      appends_write_time_text g (nanoFields x).2.1 s0 s1
    refine ⟨(nanoFields x).1, (nanoFields x).2.1, (nanoFields x).2.2, Y, M, D, hh, mm, ss,
      s0, s1, n0, n1, hsum, by omega, by omega, hv, hd, a1, a2, a3, a4, a5, a6, a7, ?_, ?_⟩
    · have h := Appends.comp (Appends.comp (Appends.comp (Appends.comp (Appends.comp hdate
        (appends_put_retract g.squashDateTime 84)) htime)
        (appends_put_retract g.squashDateTime 46)) (appends_nanos (nanoFields x).2.2 n0))
        (appends_put_retract g.squashDateTime 90)
      intro s lo hlo
      have h2 := h s lo hlo
      unfold writeNanotime
      rw [hcell, if_neg hne]
      simp only [nanotimeText] at h2 ⊢
      rw [h2]
    · unfold nanotimeText
      simp only [List.length_append, dateText_length, timeText_length]
      cases g.squashDateTime <;> simp [digits9]
  · intro he
    intro s lo hlo
    unfold writeNanotime
    rw [hcell, if_pos he]
    exact appends_write_chars g.na s lo hlo

/-- C11 at `x = 0`, at `x = -1` (one nanosecond before the epoch) and at `INT64_MIN`. -/
theorem writeNanotime_format_witness :
    Appends (writeNanotime g0 { int64s := fun _ => 0 } 0) (ascii "1970-01-01T00:00:00.000000000Z")
      ∧ Appends (writeNanotime g0 { int64s := fun _ => -1 } 0)
          (ascii "1969-12-31T23:59:59.999999999Z")
      ∧ Appends (writeNanotime gSquash { int64s := fun _ => -1 } 0)
          (ascii "19691231235959999999999")
      ∧ Appends (writeNanotime g0 { int64s := fun _ => INT64_MIN } 0) (ascii "NA") := by
  refine ⟨?_, ?_, ?_, ?_⟩
  · obtain ⟨d, s, n, Y, M, D, hh, mm, ss, -, -, -, -, -, -, -, -, -, -, -, -, -, -, -, -, h, -⟩ :=
      (writeNanotime_format g0 { int64s := fun _ => 0 } 0 0 rfl (by decide) (by decide)).1
        (by decide)
    exact appends_of_eval h (by decide)
  · obtain ⟨d, s, n, Y, M, D, hh, mm, ss, -, -, -, -, -, -, -, -, -, -, -, -, -, -, -, -, h, -⟩ :=
      (writeNanotime_format g0 { int64s := fun _ => -1 } 0 (-1) rfl (by decide) (by decide)).1
        (by decide)
    exact appends_of_eval h (by decide)
  · obtain ⟨d, s, n, Y, M, D, hh, mm, ss, -, -, -, -, -, -, -, -, -, -, -, -, -, -, -, -, h, -⟩ :=
      (writeNanotime_format gSquash { int64s := fun _ => -1 } 0 (-1) rfl (by decide)
        (by decide)).1 (by decide)
    exact appends_of_eval h (by decide)
  · exact (writeNanotime_format g0 { int64s := fun _ => INT64_MIN } 0 INT64_MIN rfl (by decide)
      (by decide)).2 rfl

/-- C12: for every finite POSIXct value whose derived integer seconds `xi` (the floor plus
the carry of the rounding) have a day inside the domain of `write_date` and whose derived
microsecond residual is `m` with `0 <= m <= 999999`, `writePOSIXct` appends the date, `T`,
the time of the day, then: squashed, the three digits of `m/1000` with no `T`, no `.` and
no `Z`; else `.mmm` if `m` is a non-zero multiple of 1000, `.uuuuuu` if `m` is another
non-zero value, nothing if `m = 0`, and then `Z`.  A non-finite value gives exactly the NA
token. -/
theorem writePOSIXct_format (fp : FloatOps) (g : Globals) (col : Col) (row : Int) (x : Double)
    (hcell : col.doubles row = x) :
    (x.isfinite = true →
        0 ≤ (posixMicros (fp.frac7 x)).1 → (posixMicros (fp.frac7 x)).1 ≤ 999999 →
        -719468 ≤ (posixFields (fp.floor x + (posixMicros (fp.frac7 x)).2)).1 →
        (posixFields (fp.floor x + (posixMicros (fp.frac7 x)).2)).1 ≤ 2932896 →
        ∃ d t Y M D hh mi ss : Int,
          d * 86400 + t = fp.floor x + (posixMicros (fp.frac7 x)).2
          ∧ 0 ≤ t ∧ t ≤ 86399
          ∧ validDate Y M D ∧ days_from_civil Y M D = d
          ∧ 0 ≤ hh ∧ hh ≤ 23 ∧ 0 ≤ mi ∧ mi ≤ 59 ∧ 0 ≤ ss ∧ ss ≤ 59
          ∧ 3600 * hh + 60 * mi + ss = t
          ∧ Appends (writePOSIXct fp g col row)
              (posixText g.squashDateTime Y M D hh mi ss (posixMicros (fp.frac7 x)).1))
      ∧ (x.isfinite = false → Appends (writePOSIXct fp g col row) (cstr g.na)) := by
  constructor
  · intro hfin m0 m1 d0 d1
    obtain ⟨t0, t1, hsum⟩ := posixFields_spec (fp.floor x + (posixMicros (fp.frac7 x)).2)
    generalize hdt : posixFields (fp.floor x + (posixMicros (fp.frac7 x)).2) = dt at *
    obtain ⟨Y, M, D, -, -, hv, hd, hdate⟩ := appends_write_date_text g dt.1 d0 d1
    obtain ⟨hh, mi, ss, a1, a2, a3, a4, a5, a6, a7, htime⟩ :=
      appends_write_time_text g dt.2 t0 t1
    refine ⟨dt.1, dt.2, Y, M, D, hh, mi, ss, hsum, t0, t1, hv, hd, a1, a2, a3, a4, a5, a6, a7, ?_⟩
    have h := Appends.comp (Appends.comp (Appends.comp (Appends.comp hdate
      (appends_put_retract g.squashDateTime 84)) htime)
      (appends_writeFraction g (posixMicros (fp.frac7 x)).1 m0 m1))
      (appends_put_retract g.squashDateTime 90)
    intro s lo hlo
    have h2 := h s lo hlo
    unfold writePOSIXct
    simp only [hcell, hfin, Bool.not_true, Bool.false_eq_true, if_false, hdt]
    rw [wrap32_id dt.1 (by omega) (by omega), wrap32_id dt.2 (by omega) (by omega)]
    simp only [posixText] at h2 ⊢
    rw [h2]
  · intro hinf
    intro s lo hlo
    unfold writePOSIXct
    simp only [hcell, hinf, Bool.not_false, if_true]
    exact appends_write_chars g.na s lo hlo

/-- C12 on scenario 4: `0.0`, `0.123456` and `1.000` give `1970-01-01T00:00:00Z`,
`1970-01-01T00:00:00.123456Z` and `1970-01-01T00:00:01Z`; a NaN gives the NA token. -/
theorem writePOSIXct_format_witness :
    Appends (writePOSIXct fp0 g0 { doubles := fun _ => dZero } 0) (ascii "1970-01-01T00:00:00Z")
      ∧ Appends (writePOSIXct fp0 g0 { doubles := fun _ => dFrac } 0)
          (ascii "1970-01-01T00:00:00.123456Z")
      ∧ Appends (writePOSIXct fp0 g0 { doubles := fun _ => dOne } 0)
          (ascii "1970-01-01T00:00:01Z")
      ∧ Appends (writePOSIXct fp0 g0 { doubles := fun _ => dNaN } 0) (ascii "NA") := by
  refine ⟨?_, ?_, ?_, ?_⟩
  · obtain ⟨d, t, Y, M, D, hh, mi, ss, -, -, -, -, -, -, -, -, -, -, -, -, h⟩ :=
      (writePOSIXct_format fp0 g0 { doubles := fun _ => dZero } 0 dZero rfl).1
        (by decide) (by decide) (by decide) (by decide) (by decide)
    exact appends_of_eval h (by decide)
  · obtain ⟨d, t, Y, M, D, hh, mi, ss, -, -, -, -, -, -, -, -, -, -, -, -, h⟩ :=
      (writePOSIXct_format fp0 g0 { doubles := fun _ => dFrac } 0 dFrac rfl).1
        (by decide) (by decide) (by decide) (by decide) (by decide)
    exact appends_of_eval h (by decide)
  · obtain ⟨d, t, Y, M, D, hh, mi, ss, -, -, -, -, -, -, -, -, -, -, -, -, h⟩ :=
      (writePOSIXct_format fp0 g0 { doubles := fun _ => dOne } 0 dOne rfl).1
        (by decide) (by decide) (by decide) (by decide) (by decide)
    exact appends_of_eval h (by decide)
  · exact (writePOSIXct_format fp0 g0 { doubles := fun _ => dNaN } 0 dNaN rfl).2 (by decide)

/-- C13: for every double `x` that is not a finite non-zero number, `writeFloat64` appends
exactly the NA token when `x` is a NaN (exponent 2047, fraction not 0), exactly `Inf` when
`x` is plus infinity, exactly `-Inf` when `x` is minus infinity, and exactly the single
byte `0` when `x` is `+0.0` or `-0.0`. -/
theorem writeFloat64_special (fp : FloatOps) (g : Globals) (col : Col) (row : Int) (x : Double)
    (hcell : col.doubles row = x) :
    (x.exponent = 2047 ∧ x.fraction ≠ 0 → Appends (writeFloat64 fp g col row) (cstr g.na))
      ∧ (x.exponent = 2047 ∧ x.fraction = 0 ∧ x.sign = false →
          Appends (writeFloat64 fp g col row) (ascii "Inf"))
      ∧ (x.exponent = 2047 ∧ x.fraction = 0 ∧ x.sign = true →
          Appends (writeFloat64 fp g col row) (ascii "-Inf"))
      ∧ (x.exponent = 0 ∧ x.fraction = 0 → Appends (writeFloat64 fp g col row) (ascii "0")) := by
  refine ⟨?_, ?_, ?_, ?_⟩
  · rintro ⟨he, hf⟩
    intro s lo hlo
    unfold writeFloat64
    simp only [hcell, Double.isfinite, Double.isnan, he, hf, ne_eq, not_true_eq_false,
      decide_False, Bool.not_false, if_true, not_false_eq_true, and_self, decide_True]
    exact appends_write_chars g.na s lo hlo
  · rintro ⟨he, hf, hs⟩
    have h := Appends.comp (Appends.comp (appends_put 73) (appends_put 110)) (appends_put 102)
    intro s lo hlo
    have h2 := h s lo hlo
    unfold writeFloat64
    simp only [hcell, Double.isfinite, Double.isnan, Double.isNeg, he, hf, hs, ne_eq,
      not_true_eq_false, decide_False, Bool.not_false, if_true, and_false, Bool.false_and,
      Bool.false_eq_true, if_false]
    exact h2
  · rintro ⟨he, hf, hs⟩
    have h := Appends.comp (Appends.comp (Appends.comp (appends_put 45) (appends_put 73))
      (appends_put 110)) (appends_put 102)
    intro s lo hlo
    have h2 := h s lo hlo
    unfold writeFloat64
    simp only [hcell, Double.isfinite, Double.isnan, Double.isNeg, Double.isZero, he, hf, hs,
      ne_eq, not_true_eq_false, decide_False, Bool.not_false, if_true, and_false,
      Bool.true_and, Bool.and_self, OfNat.ofNat_ne_zero, false_and]
    exact h2
  · rintro ⟨he, hf⟩
    intro s lo hlo
    unfold writeFloat64
    simp only [hcell, Double.isfinite, Double.isZero, he, hf, ne_eq, OfNat.zero_ne_ofNat,
      not_false_eq_true, decide_True, Bool.not_true, Bool.false_eq_true, if_false, and_self,
      if_true]
    exact out_put s lo 48 hlo

/-- C13 on scenario 2, with an empty NA token: `-0.0`, a NaN and `+Inf` give `0`, the
empty field and `Inf`; `-Inf` gives `-Inf`. -/
theorem writeFloat64_special_witness :
    Appends (writeFloat64 fp0 gNoNA { doubles := fun _ => dNegZero } 0) (ascii "0")
      ∧ Appends (writeFloat64 fp0 gNoNA { doubles := fun _ => dNaN } 0) []
      ∧ Appends (writeFloat64 fp0 gNoNA { doubles := fun _ => dInf } 0) (ascii "Inf")
      ∧ Appends (writeFloat64 fp0 gNoNA { doubles := fun _ => dNegInf } 0) (ascii "-Inf") :=
  ⟨(writeFloat64_special fp0 gNoNA { doubles := fun _ => dNegZero } 0 dNegZero rfl).2.2.2
      (by decide),
   (writeFloat64_special fp0 gNoNA { doubles := fun _ => dNaN } 0 dNaN rfl).1 (by decide),
   (writeFloat64_special fp0 gNoNA { doubles := fun _ => dInf } 0 dInf rfl).2.1 (by decide),
   (writeFloat64_special fp0 gNoNA { doubles := fun _ => dNegInf } 0 dNegInf rfl).2.2.1
      (by decide)⟩

/-- C15 fails on the NA value: `writeBool8` writes `0` or `1` for the cells 0 and 1, but
for the cell `INT8_MIN` it only steps back over the byte it wrote and appends nothing,
whatever the NA token; with `na = "NA"` the two bytes of the token are not written. -/
theorem writeBool8_drops_na_token :
    Appends (writeBool8 g0 { int8s := fun _ => 0 } 0) (ascii "0")
      ∧ Appends (writeBool8 g0 { int8s := fun _ => 1 } 0) (ascii "1")
      ∧ cstr g0.na = ascii "NA"
      ∧ Appends (writeBool8 g0 { int8s := fun _ => INT8_MIN } 0) []
      ∧ ¬ Appends (writeBool8 g0 { int8s := fun _ => INT8_MIN } 0) (cstr g0.na) := by
  have h0 := appends_writeBool8 g0 { int8s := fun _ => 0 } 0
  have h1 := appends_writeBool8 g0 { int8s := fun _ => 1 } 0
  have hna := appends_writeBool8 g0 { int8s := fun _ => INT8_MIN } 0
  refine ⟨h0, h1, by decide, hna, fun h => ?_⟩
  have := Appends.unique h hna
  revert this
  decide

/-- C17 fails where `2 * maxLineLen` wraps around in `size_t`: with `buffMB = 1`,
`maxLineLen = 2^63` and `nrow = 1` the test `2 * maxLineLen > buffSize` compares 0 with
`2^20`, the planner keeps `buffSize = 2^20`, `buffSize / maxLineLen` is 0 and is raised to
`rowsPerBatch = 1`, so `rowsPerBatch * maxLineLen = 2^63` exceeds `buffSize`. -/
theorem planner_wrap_counterexample :
    planner 1 9223372036854775808 1 1
        = { buffSize := 1048576, rowsPerBatch := 1, numBatches := 1, nth := 1 }
      ∧ ¬ ((planner 1 9223372036854775808 1 1).rowsPerBatch * 9223372036854775808
            ≤ (planner 1 9223372036854775808 1 1).buffSize) := by
  decide

/-- C17, amended: for every `buffMB` in `[1,1024]`, every `maxLineLen` with
`1 <= maxLineLen < 2^63` and every `nrow >= 1`, the planner chooses
`buffSize = max(buffMB * 2^20, 2 * maxLineLen)` and `1 <= rowsPerBatch <= nrow` with
`rowsPerBatch * maxLineLen <= buffSize`; hence, if no row of a batch of the row loop is
longer than `maxLineLen`, the bytes formatted for that batch fit in `buffSize` bytes. -/
theorem planner_fits (buffMB maxLineLen nrow nth0 : Int) (hb : 1 ≤ buffMB ∧ buffMB ≤ 1024)
    (hm : 1 ≤ maxLineLen ∧ maxLineLen < 9223372036854775808) (hn : 1 ≤ nrow) :
    1 ≤ (planner buffMB maxLineLen nrow nth0).rowsPerBatch
      ∧ (planner buffMB maxLineLen nrow nth0).rowsPerBatch ≤ nrow
      ∧ (planner buffMB maxLineLen nrow nth0).rowsPerBatch * maxLineLen
          ≤ (planner buffMB maxLineLen nrow nth0).buffSize
      ∧ (planner buffMB maxLineLen nrow nth0).buffSize
          = max (1048576 * buffMB) (2 * maxLineLen)
      ∧ ∀ (g : Globals) (args : fwriteMainArgs) (rowBytes : Int → List Nat) (b : Int × Int)
          (buf : Cur),
          b ∈ rowBatches nrow (planner buffMB maxLineLen nrow nth0).rowsPerBatch →
          (∀ i, b.1 ≤ i → i < b.2 → Appends (writeRow g args i) (rowBytes i)
            ∧ ((rowBytes i).length : Int) ≤ maxLineLen) →
          ((batchBytes g args b buf).length : Int)
            ≤ (planner buffMB maxLineLen nrow nth0).buffSize := by
  obtain ⟨h1, h2, h3, h4⟩ := planner_spec buffMB maxLineLen nrow nth0 hb hm hn
  refine ⟨h1, h2, h3, h4, ?_⟩
  intro g args rowBytes b buf hmem hrows
  obtain ⟨_, s2, s3, _⟩ := batches_size nrow _ h1 _ 0 b hmem
  rw [batchBytes_eq g args rowBytes b buf (fun i hi1 hi2 => (hrows i hi1 hi2).1)]
  have hlen := rowsText_length_le rowBytes maxLineLen.toNat (b.2 - b.1).toNat b.1
    (fun k hk1 hk2 => by
      have := (hrows k hk1 (by omega)).2
      omega)
  have hcast : ((rowsText rowBytes (b.2 - b.1).toNat b.1).length : Int)
      ≤ (((b.2 - b.1).toNat * maxLineLen.toNat : Nat) : Int) := by exact_mod_cast hlen
  have e1 : (((b.2 - b.1).toNat * maxLineLen.toNat : Nat) : Int)
      = (b.2 - b.1) * maxLineLen := by
    push_cast
    rw [Int.toNat_of_nonneg (by omega), Int.toNat_of_nonneg (by omega)]
  have e2 : (b.2 - b.1) * maxLineLen
      ≤ (planner buffMB maxLineLen nrow nth0).rowsPerBatch * maxLineLen :=
    mul_le_mul_of_nonneg_right s3 (by omega)
  omega

/-- C17 on scenario 1 with an 8 MB buffer and a line budget of 23 bytes: both rows go
in one batch, and the 10 bytes of the batch fit the buffer of `8 * 2^20` bytes. -/
theorem planner_fits_witness :
    (planner 8 23 2 1).rowsPerBatch * 23 ≤ (planner 8 23 2 1).buffSize
      ∧ (planner 8 23 2 1).buffSize = 8388608
      ∧ ((batchBytes (fwriteMainGlobals job2) job2 (0, 2) (Cur.init 0)).length : Int)
          ≤ (planner 8 23 2 1).buffSize := by
  have h := planner_fits 8 23 2 1 (by decide) (by decide) (by decide)
  refine ⟨h.2.2.1, by decide, ?_⟩
  refine h.2.2.2.2 (fwriteMainGlobals job2) job2
    (fun i => if i = 0 then ascii "1,2\n" else ascii "3,NA\n") (0, 2) (Cur.init 0)
    (by decide) ?_
  intro i hi1 hi2
  refine ⟨appends_writeRow_job2 i hi1 hi2, ?_⟩
  have h1 : (0 : Int) ≤ i := hi1
  have h2 : i < 2 := hi2
  interval_cases i
  · decide
  · decide

/-- C18: for every `nrow >= 1` and every `rowsPerBatch >= 1` the batches enumerated by
the row loop are non-empty and tile the rows `0..nrow-1` in order without gap or overlap,
each holds at most `rowsPerBatch` rows, and, the rows being formatted by appending, the
concatenation of the per-batch outputs in batch order equals the output of formatting all
rows in one batch, namely the row texts one after another: the committed bytes depend
neither on `rowsPerBatch` nor on the buffers the batches were formatted in. -/
theorem batches_order (g : Globals) (args : fwriteMainArgs) (rowsPerBatch : Int)
    (rowBytes : Int → List Nat) (buf : Nat → Cur) (s : Cur)
    (hn : 1 ≤ args.nrow) (hr : 1 ≤ rowsPerBatch)
    (hrows : ∀ i, 0 ≤ i → i < args.nrow → Appends (writeRow g args i) (rowBytes i)) :
    IsTiling 0 args.nrow (rowBatches args.nrow rowsPerBatch)
      ∧ (∀ b ∈ rowBatches args.nrow rowsPerBatch,
          b.1 < b.2 ∧ b.2 - b.1 ≤ rowsPerBatch ∧ b.2 = min (b.1 + rowsPerBatch) args.nrow)
      ∧ committed g args buf 0 (rowBatches args.nrow rowsPerBatch)
          = batchBytes g args (0, args.nrow) s
      ∧ committed g args buf 0 (rowBatches args.nrow rowsPerBatch)
          = rowsText rowBytes args.nrow.toNat 0 := by
  have ht : IsTiling 0 args.nrow (rowBatches args.nrow rowsPerBatch) :=
    batches_tiling args.nrow rowsPerBatch hr args.nrow.toNat 0 (by omega) (by omega)
  have hc := (committed_of_tiling g args rowBytes buf args.nrow _ 0 0 ht hrows).2
  have hone := batchBytes_eq g args rowBytes (0, args.nrow) s hrows
  simp only [sub_zero] at hc hone
  refine ⟨ht, ?_, by rw [hc, hone], hc⟩
  intro b hb
  have h := batches_end args.nrow rowsPerBatch hr _ 0 b hb
  exact h

/-- C18 on scenario 1: with one row per batch the two batches are rows `0..0` and
`1..1`, and the committed bytes are `1,2\n3,NA\n` as for a single batch of two rows. -/
theorem batches_order_witness :
    rowBatches 2 1 = [(0, 1), (1, 2)]
      ∧ committed (fwriteMainGlobals job2) job2 (fun _ => Cur.init 0) 0 (rowBatches job2.nrow 1)
          = batchBytes (fwriteMainGlobals job2) job2 (0, job2.nrow) (Cur.init 7)
      ∧ committed (fwriteMainGlobals job2) job2 (fun _ => Cur.init 0) 0 (rowBatches job2.nrow 1)
          = ascii "1,2\n3,NA\n" := by
  have h := batches_order (fwriteMainGlobals job2) job2 1
    (fun i => if i = 0 then ascii "1,2\n" else ascii "3,NA\n") (fun _ => Cur.init 0)
    (Cur.init 7) (by decide) (by decide) (fun i h0 h1 => appends_writeRow_job2 i h0 h1)
  refine ⟨by decide, h.2.2.1, ?_⟩
  rw [h.2.2.2]
  decide

/-- C23 fails where the batch count does not fit an `int`: with `buffMB = 1`,
`maxLineLen = 2^20` and `nrow = 2^33` the planner takes `rowsPerBatch = 2`, and
`(nrow-1)/rowsPerBatch + 1 = 2^32` stored in the `int numBatches` is 0, so `nth` becomes 0
for a requested thread count of 4. -/
theorem planner_numBatches_counterexample :
    planner 1 1048576 8589934592 4
        = { buffSize := 2097152, rowsPerBatch := 2, numBatches := 0, nth := 0 }
      ∧ ¬ (1 ≤ (planner 1 1048576 8589934592 4).nth) := by
  decide

/-- C23, amended: for every `buffMB` in `[1,1024]`, every `maxLineLen` with
`1 <= maxLineLen < 2^63`, every `nrow >= 1` whose batch count `(nrow-1)/rowsPerBatch + 1`
fits an `int`, and every requested thread count `nth0 >= 1`, the planner computes
`buffSize = max(buffMB*2^20, 2*maxLineLen)`,
`rowsPerBatch = clamp(floor(buffSize / maxLineLen), 1, nrow)` with that final `buffSize`,
`numBatches = ceil(nrow / rowsPerBatch)` and `nth = min(nth0, numBatches)`; in particular
`1 <= rowsPerBatch <= nrow` and `1 <= nth <= numBatches`. -/
theorem planner_formulas (buffMB maxLineLen nrow nth0 : Int)
    (hb : 1 ≤ buffMB ∧ buffMB ≤ 1024)
    (hm : 1 ≤ maxLineLen ∧ maxLineLen < 9223372036854775808) (hn : 1 ≤ nrow)
    (hnth : 1 ≤ nth0)
    (hfit : (nrow - 1) / (planner buffMB maxLineLen nrow nth0).rowsPerBatch + 1 ≤ INT32_MAX) :
    (planner buffMB maxLineLen nrow nth0).buffSize = max (1048576 * buffMB) (2 * maxLineLen)
      ∧ (planner buffMB maxLineLen nrow nth0).rowsPerBatch
          = min (max ((planner buffMB maxLineLen nrow nth0).buffSize / maxLineLen) 1) nrow
      ∧ (planner buffMB maxLineLen nrow nth0).numBatches
          = (nrow + (planner buffMB maxLineLen nrow nth0).rowsPerBatch - 1)
              / (planner buffMB maxLineLen nrow nth0).rowsPerBatch
      ∧ (planner buffMB maxLineLen nrow nth0).nth
          = min nth0 (planner buffMB maxLineLen nrow nth0).numBatches
      ∧ 1 ≤ (planner buffMB maxLineLen nrow nth0).rowsPerBatch
      ∧ (planner buffMB maxLineLen nrow nth0).rowsPerBatch ≤ nrow
      ∧ 1 ≤ (planner buffMB maxLineLen nrow nth0).nth
      ∧ (planner buffMB maxLineLen nrow nth0).nth
          ≤ (planner buffMB maxLineLen nrow nth0).numBatches := by
  obtain ⟨s1, s2, _, s4⟩ := planner_spec buffMB maxLineLen nrow nth0 hb hm hn
  obtain ⟨v1, _, _, v4, v5⟩ := planner_values buffMB maxLineLen nrow nth0 hb hm hn
  have hq0 : 0 ≤ (nrow - 1) / (planner buffMB maxLineLen nrow nth0).rowsPerBatch :=
    Int.ediv_nonneg (by omega) (by omega)
  have hnb : (planner buffMB maxLineLen nrow nth0).numBatches
      = (nrow - 1) / (planner buffMB maxLineLen nrow nth0).rowsPerBatch + 1 := by
    rw [v4, Int.tdiv_eq_ediv (by omega) (by omega)]
    unfold INT32_MAX at hfit
    exact wrap32_id _ (by omega) (by omega)
  have hceil : (nrow + (planner buffMB maxLineLen nrow nth0).rowsPerBatch - 1)
        / (planner buffMB maxLineLen nrow nth0).rowsPerBatch
      = (nrow - 1) / (planner buffMB maxLineLen nrow nth0).rowsPerBatch + 1 := by
    have e : nrow + (planner buffMB maxLineLen nrow nth0).rowsPerBatch - 1
        = (nrow - 1) + 1 * (planner buffMB maxLineLen nrow nth0).rowsPerBatch := by ring
    rw [e, Int.add_mul_ediv_right _ _ (by omega)]
  have hnth2 : (planner buffMB maxLineLen nrow nth0).nth
      = min nth0 (planner buffMB maxLineLen nrow nth0).numBatches := by
    rw [v5]
    by_cases hlt : (planner buffMB maxLineLen nrow nth0).numBatches < nth0
    · rw [if_pos hlt, min_eq_right (by omega)]
    · rw [if_neg hlt, min_eq_left (by omega)]
  refine ⟨s4, v1, by rw [hceil, hnb], hnth2, s1, s2, ?_, ?_⟩
  · rw [hnth2]
    exact le_min hnth (by omega)
  · rw [hnth2]
    exact min_le_right _ _

/-- C23 with an 8 MB buffer, lines of at most 100 bytes, a million rows and 4 threads:
83886 rows per batch, 12 batches, 4 threads. -/
theorem planner_formulas_witness :
    (planner 8 100 1000000 4).buffSize = 8388608
      ∧ (planner 8 100 1000000 4).rowsPerBatch = 83886
      ∧ (planner 8 100 1000000 4).numBatches = 12
      ∧ (planner 8 100 1000000 4).nth = min 4 (planner 8 100 1000000 4).numBatches := by
  have h := planner_formulas 8 100 1000000 4 (by decide) (by decide) (by decide) (by decide)
    (by decide)
  refine ⟨by decide, by decide, by decide, h.2.2.2.1⟩

/-- C24 fails where `2 * maxLineLen` wraps around in `size_t`: with `buffMB = 1`,
`maxLineLen = 2^63` and `nrow = 2` the planner keeps `buffSize = 2^20` and ends with
`rowsPerBatch = 1`. -/
theorem planner_two_rows_counterexample :
    (planner 1 9223372036854775808 2 1).rowsPerBatch = 1
      ∧ (planner 1 9223372036854775808 2 1).buffSize = 1048576 := by
  decide

/-- C24, amended: for every `buffMB` in `[1,1024]`, every `maxLineLen` with
`1 <= maxLineLen < 2^63` and every `nrow >= 2` the planner's `rowsPerBatch` is at least 2;
when a single row exceeds half of the configured buffer
(`2*maxLineLen > buffMB*2^20`) `buffSize` is raised to exactly `2*maxLineLen` and
`rowsPerBatch` is 2. -/
theorem planner_two_rows (buffMB maxLineLen nrow nth0 : Int)
    (hb : 1 ≤ buffMB ∧ buffMB ≤ 1024)
    (hm : 1 ≤ maxLineLen ∧ maxLineLen < 9223372036854775808) (hn : 2 ≤ nrow) :
    2 ≤ (planner buffMB maxLineLen nrow nth0).rowsPerBatch
      ∧ (2 * maxLineLen > 1048576 * buffMB →
          (planner buffMB maxLineLen nrow nth0).buffSize = 2 * maxLineLen
            ∧ (planner buffMB maxLineLen nrow nth0).rowsPerBatch = 2) := by
  obtain ⟨v1, v2, v3, _, _⟩ := planner_values buffMB maxLineLen nrow nth0 hb hm (by omega)
  refine ⟨?_, fun hbig => ⟨v3 hbig, ?_⟩⟩
  · rw [v1]
    exact le_min (le_max_of_le_left v2) hn
  · have hq : (planner buffMB maxLineLen nrow nth0).buffSize / maxLineLen = 2 := by
      rw [v3 hbig]
      exact Int.mul_ediv_cancel 2 (by omega)
    rw [v1, hq, max_eq_left (by norm_num), min_eq_left hn]

/-- C24 with a 1 MB buffer and lines of up to 600000 bytes: the buffer is raised to
1200000 bytes and holds two rows. -/
theorem planner_two_rows_witness :
    2 ≤ (planner 1 600000 5 1).rowsPerBatch ∧ (planner 1 600000 5 1).buffSize = 1200000 :=
  ⟨(planner_two_rows 1 600000 5 1 (by decide) (by decide) (by decide)).1,
   ((planner_two_rows 1 600000 5 1 (by decide) (by decide) (by decide)).2 (by decide)).1⟩

/-- C26: for every number of seconds `xi` (positive, zero or negative) the day `d` and
the seconds of the day `t` computed by `writePOSIXct` satisfy `d*86400 + t = xi` and
`0 <= t <= 86399`, that is `d = floor(xi / 86400)` and `t = xi mod 86400` in the floored
sense, although the code divides with C truncating division; `t` is the same when the
`int64_t` product and difference of line 434 wrap around. -/
theorem posix_split_floored (xi : Int) :
    (posixFields xi).1 * 86400 + (posixFields xi).2 = xi
      ∧ 0 ≤ (posixFields xi).2 ∧ (posixFields xi).2 ≤ 86399
      ∧ (posixFields xi).1 = xi / 86400 ∧ (posixFields xi).2 = xi % 86400
      ∧ wrap64 (xi - wrap64 ((posixFields xi).1 * 86400)) = (posixFields xi).2
      ∧ posixFields (-1) = (-1, 86399) ∧ posixFields 86400 = (1, 0)
      ∧ posixFields (-86400) = (-1, 0) := by
  obtain ⟨a, b, c⟩ := posixFields_spec xi
  refine ⟨c, a, b, by omega, by omega, posixFields_wrap xi, by decide, by decide, by decide⟩

/-- C27: for every `m7` with `0 <= m7 <= 9999999` the microsecond step
`(m7 + m7 mod 10) / 10` of `writePOSIXct` equals `floor((m7 + 5) / 10)`, `m7/10` rounded to
the nearest microsecond with halves up; the carry into the seconds is 1 exactly when
`m7 >= 9999995`, and the microseconds left after removing the carry lie in
`[0, 999999]`. -/
theorem posix_micros_rounding (m7 : Int) (h0 : 0 ≤ m7) (h1 : m7 ≤ 9999999) :
    (m7 + m7.tmod 10).tdiv 10 = (m7 + 5) / 10
      ∧ ((posixMicros m7).2 = 1 ↔ 9999995 ≤ m7)
      ∧ ((posixMicros m7).2 = 0 ↔ m7 < 9999995)
      ∧ (posixMicros m7).1 + 1000000 * (posixMicros m7).2 = (m7 + 5) / 10
      ∧ 0 ≤ (posixMicros m7).1 ∧ (posixMicros m7).1 ≤ 999999 := by
  obtain ⟨a, b, c, d, e⟩ := posixMicros_spec m7 h0 h1
  refine ⟨a, ?_, ?_, c, d, e⟩
  · rw [b]
    split <;> simp_all
  · rw [b]
    split <;> simp_all

/-- C27 at `m7 = 1234565` (rounded up to 123457 microseconds, no carry) and at
`m7 = 9999995` (carry 1, no microseconds left). -/
theorem posix_micros_rounding_witness :
    posixMicros 1234565 = (123457, 0) ∧ (posixMicros 9999995).2 = 1
      ∧ (posixMicros 9999995).1 = 0 := by
  have h := posix_micros_rounding 9999995 (by decide) (by decide)
  refine ⟨by decide, h.2.1.2 (by decide), by decide⟩

/-- C30: for every day number `x` with `-719468 <= x <= 2932896` the index `z` that
`write_date` computes after rebasing satisfies `0 <= z <= 365`, so the lookup
`monthday[z]` is inside the 366-entry table, and the final year (`y` plus 1 when
`z != 0` and the month is January or February) lies in `[0, 9999]`; the first four bytes
written are its four decimal digits, which read back as the year. -/
theorem write_date_intermediates (g : Globals) (x : Int) (h1 : -719468 ≤ x)
    (h2 : x ≤ 2932896) :
    0 ≤ marchDay (x + 719468) ∧ marchDay (x + 719468) ≤ 365
      ∧ (marchDay (x + 719468)).toNat < monthdayTable.length
      ∧ 0 ≤ dateYear x ∧ dateYear x ≤ 9999
      ∧ Appends (write_date g x) (dateBytes g.squashDateTime (dateYear x) (dateMD x))
      ∧ (dateBytes g.squashDateTime (dateYear x) (dateMD x)).take 4 = digits4 (dateYear x)
      ∧ parseNatFrom 0 (digits4 (dateYear x)) = some (dateYear x).toNat := by
  obtain ⟨y, z, _, hmz, _, hz, _, _⟩ := date_fields x h1 h2
  obtain ⟨Y, M, D, hY, hMD, y0, y9, d1, d31, hv, _⟩ := date_civil x h1 h2
  have hM : 0 ≤ M := by
    unfold validDate at hv
    omega
  have hlen := monthdayTable_length
  refine ⟨by omega, by omega, by omega, by omega, by omega,
    appends_write_date g x (by omega), ?_, ?_⟩
  · rw [hY, hMD, dateBytes_eq_dateText _ Y M D y0 hM (by omega) (by omega)]
    simp [dateText, digits4]
  · rw [hY]
    obtain ⟨n, rfl⟩ : ∃ n : Nat, Y = (n : Int) := ⟨Y.toNat, by omega⟩
    rw [parse_digits4 n (by omega)]
    simp

/-- C30 at the two ends of the range and at 29 February 2000: the indices are 1, 306
and 0, the years 0, 9999 and 2000. -/
theorem write_date_intermediates_witness :
    marchDay (-719468 + 719468) = 1 ∧ dateYear (-719468) = 0
      ∧ marchDay (2932896 + 719468) = 306 ∧ dateYear 2932896 = 9999
      ∧ marchDay (11016 + 719468) = 0 ∧ dateYear 11016 = 2000
      ∧ marchDay (11016 + 719468) ≤ 365 := by
  have h := write_date_intermediates g0 11016 (by decide) (by decide)
  refine ⟨by decide, by decide, by decide, by decide, by decide, by decide, h.2.1⟩

/-- C16 fails for a missing row name: in the job `jobNA` (one string column holding
three double quotes, a missing row name written by the string writer, `na="N/A"`, no
separator, quote mode on) the length probes return 0 for the row names and 3 for the
column, `maxLineLen` is 11, and row 0 is the 12 bytes `N/A` + `"` + six quotes + `"` +
newline. -/
theorem row_exceeds_budget :
    host0.getMaxStringLen colMissing jobNA.nrow = 0
      ∧ host0.getMaxStringLen (jobNA.columns 0) jobNA.nrow = 3
      ∧ maxLineLen host0 jobNA = some 11
      ∧ Appends (writeRow (fwriteMainGlobals jobNA) jobNA 0)
          (ascii "N/A\"\"\"\"\"\"\"\"\n")
      ∧ (ascii "N/A\"\"\"\"\"\"\"\"\n").length = 12 := by
  refine ⟨by decide, by decide, by decide, ?_, by decide⟩
  have h := appends_writeRow jobNA 0 (fun _ => ascii "\"\"\"\"\"\"\"\"") (ascii "N/A")
    (by decide) (by decide)
    (fun j _ => by
      show Appends (write_string (fwriteMainGlobals jobNA) (some [34, 34, 34]))
        (ascii "\"\"\"\"\"\"\"\"")
      exact appends_of_eval
        (appends_write_string (fwriteMainGlobals jobNA) [34, 34, 34] (by decide)) (by decide))
    (fun rowNames hr => by
      have e : rowNames = colMissing := (Option.some.inj hr).symm
      subst e
      show Appends (write_chars (ascii "N/A")) (ascii "N/A")
      exact appends_of_eval (appends_write_chars (ascii "N/A")) (by decide))
  exact appends_of_eval h (by decide)

/-- C19: for every job, which has at least one column when it requests column names
(`fwriteMain` is entered with `ncol >= 1`, as line 924 notes), the header bytes are the
3 bytes EF BB BF if `bom`, then the yaml bytes, then,
only if `colNames`: (only if `doRowNames`: an empty leading field, written as `""` when
the data quote mode is not off, followed by `sep`), then each column name as
`write_string` writes it under the header quote mode, which is the quote mode `doQuote`
of the job before the promotion, with one `sep` between consecutive names and none after
the last, then `eol`; after the header the globals, the quote mode among them, are the
promoted ones. -/
theorem writeHeader_layout (args : fwriteMainArgs) (cells : Nat → List Nat)
    (hncol : args.colNames.isSome → 1 ≤ args.ncol)
    (hcells : ∀ names, args.colNames = some names → ∀ j, j < args.ncol →
      Appends (write_string { fwriteMainGlobals args with doQuote := args.doQuote }
        (names.strings j)) (cells j)) :
    Appends (fun s => (writeHeader args s).2) (headerText args cells)
      ∧ headerBytes args = headerText args cells
      ∧ ∀ s, (writeHeader args s).1 = fwriteMainGlobals args := by
  have h := appends_writeHeader args cells hncol hcells
  refine ⟨h, ?_, writeHeader_globals args⟩
  have h0 := h (Cur.init 0) 0 (le_refl _)
  unfold headerBytes
  rw [h0]
  simp [out, Cur.init, bytesAt]

/-- C19 on scenario 1 with the column names `a`, `b` and row names: the data quote mode
is promoted to on (the NA token is not empty) while the names are written in the
requested mode auto, and the header is `"",a,b` and a newline. -/
theorem writeHeader_layout_witness :
    headerBytes jobNames = ascii "\"\",a,b\n"
      ∧ (fwriteMainGlobals jobNames).doQuote = 1 ∧ jobNames.doQuote = INT8_MIN := by
  have h := writeHeader_layout jobNames (fun j => if j = 0 then ascii "a" else ascii "b")
    (fun _ => by decide)
    (fun names hn j hj => by
      have hj2 : j < 2 := hj
      have e : names = colAB := (Option.some.inj hn).symm
      subst e
      interval_cases j
      · show Appends (write_string _ (some (ascii "a"))) (ascii "a")
        exact appends_of_eval
          (appends_write_string _ (ascii "a") (by decide)) (by decide)
      · show Appends (write_string _ (some (ascii "b"))) (ascii "b")
        exact appends_of_eval
          (appends_write_string _ (ascii "b") (by decide)) (by decide))
  refine ⟨?_, by decide, by decide⟩
  rw [h.2.1]
  decide

/-- C29 fails on standard output for a header without column names: for the job
`jobBom`, whose header is the BOM alone, `headerLen` is 3, the three bytes of the BOM
fill the buffer, and the terminating NUL of line 742 is stored at offset 3, one past the
last byte of the buffer. -/
theorem header_nul_past_buffer :
    strHead jobBom.filename = 0
      ∧ headerLen host0 jobBom = 3
      ∧ (writeHeader jobBom (Cur.init 0)).2.ch = 3
      ∧ (writeHeaderStdout jobBom (Cur.init 0)).top = 4
      ∧ ¬ ((writeHeaderStdout jobBom (Cur.init 0)).top ≤ headerLen host0 jobBom) := by
  decide

/-- C20 fails for a gzip job without header bytes and for a gzip job without rows: for
scenario 1 written to a gzip file (no BOM, no YAML, no column names, so `headerLen = 0`)
the bytes written are the compressed batch followed by the 10 bytes of `tail`, and the
10-byte gzip header is not among them; for a job with column names and `nrow = 0` the
bytes written are the gzip header and the compressed names, and no trailer follows.
The stand-in `z0` for zlib copies its input. -/
theorem gzip_layout_broken :
    headerLen host0 jobGz = 0
      ∧ fwriteMain z0 host0 jobGz 0 0
          = { file := ascii "1,2\n3,NA\n" ++ gzipTail 401 9, stop := none }
      ∧ (fwriteMain z0 host0 jobGz 0 0).file.take 10 ≠ gzipHeader
      ∧ fwriteMain z0 host0 jobGzEmpty 0 0
          = { file := gzipHeader ++ ascii "a,b\n", stop := none } := by
  decide

/-- C21 fails for a gzip job whose header is empty: `crc` and `len` are assigned only
where the header is compressed (lines 768-771), so with `headerLen = 0` the batches are
combined into whatever the two locals held; for scenario 1 written to a gzip file the
trailer is `401, 9` when they held `0, 0` and `408, 14` when they held `7, 5`.  The
stand-in `z0` satisfies the assumption on `crc32_combine`. -/
theorem gzip_counters_unset :
    headerLen host0 jobGz = 0
      ∧ (∀ A B : List Nat, z0.crc32_combine (z0.crc32 0 A) (z0.crc32 0 B) B.length
          = z0.crc32 0 (A ++ B))
      ∧ z0.crc32 0 (ascii "1,2\n3,NA\n") = 401
      ∧ (fwriteMain z0 host0 jobGz 0 0).file = ascii "1,2\n3,NA\n" ++ gzipTail 401 9
      ∧ (fwriteMain z0 host0 jobGz 7 5).file = ascii "1,2\n3,NA\n" ++ gzipTail 408 14 := by
  refine ⟨by decide, ?_, by decide, by decide, by decide⟩
  intro A B
  simp [z0, List.sum_append, Nat.add_mod]

/-- C22 fails for the codes other than `Z_STREAM_ERROR`: when `deflate` returns
`Z_BUF_ERROR` (-5) `compressbuff` returns `Z_OK`, the batch is written and the job ends
without error. -/
theorem compressbuff_swallows_counterexample :
    (zBuf.deflate (ascii "1,2\n3,NA\n")).1 = -5
      ∧ (compressbuff zBuf (ascii "1,2\n3,NA\n")).1 = 0
      ∧ fwriteMain zBuf host0 jobGz 0 0
          = { file := ascii "1,2\n3,NA\n" ++ gzipTail 401 9, stop := none } := by
  decide

/-- C22, amended: `compressbuff` returns a non-zero code exactly when `deflate` returns
`Z_STREAM_ERROR`, and then that code.  When this happens for a batch (stream set up, no
failure so far) the failure latch is set, the code is recorded as the compression
failure reason, neither this batch nor any later one is written to the sink, and the
job ends, after the 10 bytes of `tail`, with the deflate error reporting the code; when
it happens for the header, the header is not written and the job stops with the
compress error of the header. -/
theorem compress_error_latch (z : Zlib) (g : Globals) (args : fwriteMainArgs) (st : Sink)
    (b : Int × Int) (hinit : init_stream z = 0) (hfail : st.failed = false)
    (hnone : st.failed_compress = 0)
    (herr : (z.deflate (batchBytes g args b (Cur.init 0))).1 = Z_STREAM_ERROR) :
    (∀ src, (compressbuff z src).1 ≠ 0 ↔ (z.deflate src).1 = Z_STREAM_ERROR)
      ∧ (compressbuff z (batchBytes g args b (Cur.init 0))).1 = Z_STREAM_ERROR
      ∧ (batchStage z g args true st b).failed = true
      ∧ (batchStage z g args true st b).failed_compress = Z_STREAM_ERROR
      ∧ (batchStage z g args true st b).file = st.file
      ∧ (∀ bs : List (Int × Int),
          finish true (bs.foldl (batchStage z g args true) (batchStage z g args true st b))
            = { file := st.file ++ gzipTail st.crc st.len
                stop := some (Stop.deflate Z_STREAM_ERROR) })
      ∧ (∀ (hl : Int) (hdr : List Nat), hl ≠ 0 → (z.deflate hdr).1 = Z_STREAM_ERROR →
          (commitHeader z true hl hdr st).2 = some (Stop.headerCompress Z_STREAM_ERROR)
            ∧ (commitHeader z true hl hdr st).1.file = st.file ++ gzipHeader) := by
  have hb := batchStage_error z g args st b hinit hfail herr
  rw [hnone, if_pos rfl] at hb
  refine ⟨fun src => (compressbuff_code z src).1,
    (compressbuff_code z _).2.1 herr, by rw [hb], by rw [hb], by rw [hb], ?_, ?_⟩
  · intro bs
    rw [batches_failed z g args true bs _ (by rw [hb]), hb]
    simp [finish, Z_STREAM_ERROR]
  · intro hl hdr hhl hh
    have hc := (compressbuff_code z hdr).2.1 hh
    unfold commitHeader
    simp [hhl, hinit, hc, Z_STREAM_ERROR, Z_OK]

/-- C22 on scenario 1 written to a gzip file with a `deflate` that returns
`Z_STREAM_ERROR`: nothing but the 10 bytes of `tail` is written and the job ends with
the deflate error -2. -/
theorem compress_error_latch_witness :
    fwriteMain zErr host0 jobGz 0 0
        = { file := gzipTail 0 0, stop := some (Stop.deflate (-2)) }
      ∧ (batchStage zErr (fwriteMainGlobals jobGz) jobGz true
          { file := [], crc := 0, len := 0, failed := false, failed_compress := 0 }
          (0, 2)).failed_compress = Z_STREAM_ERROR := by
  have h := compress_error_latch zErr (fwriteMainGlobals jobGz) jobGz
    { file := [], crc := 0, len := 0, failed := false, failed_compress := 0 } (0, 2)
    (by decide) (by decide) (by decide) (by decide)
  exact ⟨by decide, h.2.2.2.1⟩

/-- C28: for every non-missing NUL-free string `x` of `n` bytes, every quote mode, every
qmethod and all `sep` and `sep2`, `write_string` appends at most `2*n + 2` bytes; the
speculative copy of mode auto stores nothing at or beyond offset `n` from the starting
cursor; when the mode is not off and every byte of `x` is a double quote the field has
exactly `2*n + 2` bytes; and a missing cell appends exactly the bytes of the NA token. -/
theorem write_string_bound (g : Globals) (x : List Nat) (hx : NulFree x) :
    (∃ l, Appends (write_string g (some x)) l ∧ l.length ≤ 2 * x.length + 2)
      ∧ (∀ s : Cur, (copyPlain g x s).2.top ≤ max s.top (s.ch + x.length))
      ∧ (g.doQuote ≠ 0 → (∀ c ∈ x, c = 34) →
          ∃ l, Appends (write_string g (some x)) l ∧ l.length = 2 * x.length + 2)
      ∧ Appends (write_string g none) (cstr g.na) := by
  have h := appends_write_string g x hx
  have hq := length_quoted_le g x
  refine ⟨⟨_, h, ?_⟩, fun s => copyPlain_top g x s, ?_, appends_write_chars g.na⟩
  · split
    · split <;> omega
    · split <;> omega
  · intro h0 hall
    refine ⟨_, h, ?_⟩
    have hn : needsQuote g x := by
      cases x with
      | nil => exact Or.inl rfl
      | cons c t =>
        refine Or.inr ⟨c, by simp, ?_⟩
        have := hall c (by simp)
        omega
    rw [if_pos hn, if_neg h0]
    simp only [ite_self]
    exact length_quoted_quotes g x hall

/-- C28 at `sep=','` in mode auto: `a,b` is written as the 5 bytes `"a,b"`, within
`2*3+2`, the speculative copy of `a,b` stops after `a`, and two double quotes are written
as the six bytes of four quotes between quotes. -/
theorem write_string_bound_witness :
    Appends (write_string g0 (some (ascii "a,b"))) (ascii "\"a,b\"")
      ∧ (copyPlain g0 (ascii "a,b") (Cur.init 0)).2.top ≤ 3
      ∧ Appends (write_string g0 (some (ascii "\"\""))) (ascii "\"\"\"\"\"\"") := by
  have h := write_string_bound g0 (ascii "a,b") (by decide)
  obtain ⟨l, hl, _⟩ := h.1
  exact ⟨appends_of_eval hl (by decide), h.2.1 (Cur.init 0),
    appends_of_eval (appends_write_string g0 (ascii "\"\"") (by decide)) (by decide)⟩

/-- C25, as stated for every `scipen >= 0`, fails where the sum of `int`s of line 263
leaves the range of `int`: with `scipen = 2147483647`, the one digit `l = 1` and
`exp = 300` the plain form has 301 bytes and `301 <= 1 + 0 + 2 + 3 + 2147483647`, yet
the scientific form `1e+300` is written. -/
theorem digit_layout_scipen_counterexample :
    decimalWidth 1 300 = 301
      ∧ decimalWidth 1 300
          ≤ 1 + b2i (decide ((1 : Int) > 1)) + 2 + (if (300 : Int).natAbs > 99 then 3 else 2)
              + gScipenMax.scipen
      ∧ Appends (writeForm gScipenMax 1 1 300) (ascii "1e+300")
      ∧ Appends (writeDigits gScipenMax 1000000000000000 300) (ascii "1e+300") := by
  have h := (appends_writeForm gScipenMax 1 0 300 (by decide) (by decide)).2 (by decide)
  have e : sciText gScipenMax.dec 1 ((0 + 1 : Nat) : Int) 300 = ascii "1e+300" := by decide
  rw [e] at h
  have hd : writeDigits gScipenMax 1000000000000000 300
      = writeForm gScipenMax 1 ((0 + 1 : Nat) : Int) 300 := by
    funext s
    exact writeDigits_form gScipenMax 1 1 300 (by decide) (by decide) (by decide) s
  refine ⟨by decide, by decide, h, ?_⟩
  rw [hd]
  exact h

/-- C25, amended: for digits `l` of `sf` places (`1 <= sf <= 15`, last digit not zero),
a decimal exponent `exp` with `|exp| <= 999`, every `dec` and every `scipen` of type
`int` that is at most `INT_MAX - 21 = 2147483626`, the back end of `writeFloat64` (what
`writeDigits` does after rounding and stripping) writes the plain decimal form if and
only if `width <= sf + (sf>1) + 2 + (|exp|>99 ? 3 : 2) + scipen`, `width` being the
number of bytes of the plain form, and otherwise the scientific form
`d[dec ddd]e(+|-)NN[N]`; the bytes appended are those of the form, and both forms, read
as numerals, denote `l * 10^(exp - sf + 1)`. -/
theorem writeFloat64_digit_layout (g : Globals) (l : Nat) (sf exp : Int)
    (hsf : 1 ≤ sf ∧ sf ≤ 15) (hl : l < 10 ^ sf.toNat) (hlast : l % 10 ≠ 0)
    (hexp : -999 ≤ exp ∧ exp ≤ 999)
    (hscipen : -2147483648 ≤ g.scipen ∧ g.scipen ≤ 2147483626) :
    writeDigits g (l * 10 ^ (16 - sf.toNat)) exp = writeForm g l sf exp
      ∧ (decimalWidth sf exp
            ≤ sf + b2i (decide (sf > 1)) + 2 + (if exp.natAbs > 99 then 3 else 2) + g.scipen →
          Appends (writeForm g l sf exp) (plainText g.dec l sf exp))
      ∧ (¬ decimalWidth sf exp
            ≤ sf + b2i (decide (sf > 1)) + 2 + (if exp.natAbs > 99 then 3 else 2) + g.scipen →
          Appends (writeForm g l sf exp) (sciText g.dec l sf exp))
      ∧ ((plainText g.dec l sf exp).length : Int) = decimalWidth sf exp
      ∧ ((sciText g.dec l sf exp).length : Int)
          = sf + b2i (decide (sf > 1)) + 2 + (if exp.natAbs > 99 then 3 else 2)
      ∧ numeral (plainInt l sf exp) (plainFrac l sf exp)
          = some ((l : ℚ) * (10 : ℚ) ^ (exp - sf + 1))
      ∧ numeral (msd (l / 10 ^ (sf.toNat - 1)) 1) (msd l (sf.toNat - 1))
          = some ((l : ℚ) / (10 : ℚ) ^ (sf.toNat - 1))
      ∧ parseNatFrom 0 (expText exp) = some exp.natAbs
      ∧ (l : ℚ) / (10 : ℚ) ^ (sf.toNat - 1) * (10 : ℚ) ^ exp
          = (l : ℚ) * (10 : ℚ) ^ (exp - sf + 1) := by
  obtain ⟨m, hm⟩ : ∃ m : Nat, sf = ((m + 1 : Nat) : Int) := ⟨(sf - 1).toNat, by omega⟩
  subst hm
  have ht : (((m + 1 : Nat) : Int)).toNat = m + 1 := Int.toNat_ofNat _
  rw [ht] at hl ⊢
  have hm1 : m + 1 - 1 = m := by omega
  rw [hm1]
  have hw := wrap32_form_sum g ((m + 1 : Nat) : Int) exp hsf hscipen
  have hform := appends_writeForm g l m exp hl hexp
  rw [hw] at hform
  refine ⟨?_, hform.1, hform.2, length_plainText g.dec l (m + 1) exp,
    length_sciText g.dec l (m + 1) exp (by omega), numeral_plain l (m + 1) exp hl, ?_,
    parse_expText exp hexp, ?_⟩
  · funext s
    exact writeDigits_form g l (m + 1) exp (by omega) (by omega) hlast s
  · have h := numeral_split l 1 m (by rw [Nat.add_comm]; exact hl)
    exact h
  · have e : exp - ((m + 1 : Nat) : Int) + 1 = exp - (m : Int) := by
      push_cast
      ring
    rw [e, zpow_sub₀ (by norm_num), zpow_natCast]
    field_simp

/-- C25 at `dec='.'` and `scipen=0`: `(l=31416, exp=0)` gives `3.1416`, `(l=3046, exp=4)`
gives `30460`, `(l=72, exp=-3)` gives `0.0072`, and `(l=12, exp=20)` gives `1.2e+20`. -/
theorem writeFloat64_digit_layout_witness :
    Appends (writeForm g0 31416 5 0) (ascii "3.1416")
      ∧ Appends (writeForm g0 3046 4 4) (ascii "30460")
      ∧ Appends (writeForm g0 72 2 (-3)) (ascii "0.0072")
      ∧ Appends (writeForm g0 12 2 20) (ascii "1.2e+20")
      ∧ writeDigits g0 3141600000000000 0 = writeForm g0 31416 5 0 := by
  have h1 := writeFloat64_digit_layout g0 31416 5 0 (by decide) (by decide) (by decide)
    (by decide) (by decide)
  have h2 := writeFloat64_digit_layout g0 3046 4 4 (by decide) (by decide) (by decide)
    (by decide) (by decide)
  have h3 := writeFloat64_digit_layout g0 72 2 (-3) (by decide) (by decide) (by decide)
    (by decide) (by decide)
  have h4 := writeFloat64_digit_layout g0 12 2 20 (by decide) (by decide) (by decide)
    (by decide) (by decide)
  have e1 : plainText g0.dec 31416 5 0 = ascii "3.1416" := by decide
  have e2 : plainText g0.dec 3046 4 4 = ascii "30460" := by decide
  have e3 : plainText g0.dec 72 2 (-3) = ascii "0.0072" := by decide
  have e4 : sciText g0.dec 12 2 20 = ascii "1.2e+20" := by decide
  refine ⟨?_, ?_, ?_, ?_, h1.1⟩
  · rw [← e1]
    exact h1.2.1 (by decide)
  · rw [← e2]
    exact h2.2.1 (by decide)
  · rw [← e3]
    exact h3.2.1 (by decide)
  · rw [← e4]
    exact h4.2.2.1 (by decide)

/-- C31, as stated, fails in its last clause when the NA token is itself the text of a
date and time: with `na = "1970-01-01T00:00:00Z"` the finite value `0.0` gives exactly
the bytes of the NA token. -/
theorem posix_na_token_counterexample :
    dZero.isfinite = true
      ∧ Appends (writePOSIXct fp0 gPosixNA { doubles := fun _ => dZero } 0)
          (cstr gPosixNA.na) := by
  refine ⟨by decide, ?_⟩
  obtain ⟨Y, M, D, -, -, -, -, hdate⟩ := appends_write_date_text gPosixNA
    (wrap32 (posixFields (fp0.floor dZero + (posixMicros (fp0.frac7 dZero)).2)).1)
    (by decide) (by decide)
  obtain ⟨hh, mi, ss, frac, -, -, -, -, -, -, -, -, h⟩ :=
    appends_writePOSIXct_any fp0 gPosixNA { doubles := fun _ => dZero } 0 dZero rfl
      (by decide) _ hdate
  exact appends_of_eval h (by decide)

/-- C31, amended: for every finite POSIXct value whose day `d` fits in 32 bits and lies
outside `[-719468, 2932896]`, `writePOSIXct` appends the NA token in place of the date
and then `T` (unless squashed), the time of the day `HH:MM:SS`, the bytes of the
fraction and `Z` (unless squashed), which is never the NA token alone; when `d` lies
inside the range it appends the date of `d` followed by the same; the bytes of the
fraction are the fractional suffix whenever the truncated fraction
`m7 = (int)((x-xi)*10000000)` lies in `[0, 10000000]`; a non-finite value gives the bare
NA token; and for an NA token that does not start with a decimal digit only non-finite
values give the bare NA token. -/
theorem writePOSIXct_day_outside (fp : FloatOps) (g : Globals) (col : Col) (row : Int)
    (x : Double) (hcell : col.doubles row = x) :
    (x.isfinite = true →
        INT32_MIN ≤ (posixFields (fp.floor x + (posixMicros (fp.frac7 x)).2)).1 →
        (posixFields (fp.floor x + (posixMicros (fp.frac7 x)).2)).1 ≤ INT32_MAX →
        ((posixFields (fp.floor x + (posixMicros (fp.frac7 x)).2)).1 < -719468
          ∨ (posixFields (fp.floor x + (posixMicros (fp.frac7 x)).2)).1 > 2932896) →
        ∃ (hh mi ss : Int) (frac : List Nat),
          0 ≤ hh ∧ hh ≤ 23 ∧ 0 ≤ mi ∧ mi ≤ 59 ∧ 0 ≤ ss ∧ ss ≤ 59
          ∧ 3600 * hh + 60 * mi + ss
              = (posixFields (fp.floor x + (posixMicros (fp.frac7 x)).2)).2
          ∧ (0 ≤ fp.frac7 x → fp.frac7 x ≤ 10000000 →
              frac = posixSuffix g.squashDateTime (posixMicros (fp.frac7 x)).1)
          ∧ Appends (writePOSIXct fp g col row)
              (cstr g.na ++ (if g.squashDateTime then [] else [84])
                ++ timeText g.squashDateTime hh mi ss
                ++ frac ++ (if g.squashDateTime then [] else [90]))
          ∧ ¬ Appends (writePOSIXct fp g col row) (cstr g.na))
      ∧ (x.isfinite = true →
          -719468 ≤ (posixFields (fp.floor x + (posixMicros (fp.frac7 x)).2)).1 →
          (posixFields (fp.floor x + (posixMicros (fp.frac7 x)).2)).1 ≤ 2932896 →
          ∃ (Y M D hh mi ss : Int) (frac : List Nat),
            0 ≤ Y ∧ Y ≤ 9999 ∧ validDate Y M D
            ∧ days_from_civil Y M D
                = (posixFields (fp.floor x + (posixMicros (fp.frac7 x)).2)).1
            ∧ 0 ≤ hh ∧ hh ≤ 23 ∧ 0 ≤ mi ∧ mi ≤ 59 ∧ 0 ≤ ss ∧ ss ≤ 59
            ∧ 3600 * hh + 60 * mi + ss
                = (posixFields (fp.floor x + (posixMicros (fp.frac7 x)).2)).2
            ∧ (0 ≤ fp.frac7 x → fp.frac7 x ≤ 10000000 →
                frac = posixSuffix g.squashDateTime (posixMicros (fp.frac7 x)).1)
            ∧ Appends (writePOSIXct fp g col row)
                (dateText g.squashDateTime Y M D ++ (if g.squashDateTime then [] else [84])
                  ++ timeText g.squashDateTime hh mi ss
                  ++ frac ++ (if g.squashDateTime then [] else [90])))
      ∧ (x.isfinite = false → Appends (writePOSIXct fp g col row) (cstr g.na))
      ∧ (¬ (48 ≤ strHead g.na ∧ strHead g.na ≤ 57) →
          (Appends (writePOSIXct fp g col row) (cstr g.na) ↔ x.isfinite = false)) := by
  have hnonfin : x.isfinite = false → Appends (writePOSIXct fp g col row) (cstr g.na) := by
    intro hinf s lo hlo
    unfold writePOSIXct
    simp only [hcell, hinf, Bool.not_false, if_true]
    exact appends_write_chars g.na s lo hlo
  have hlong : ∀ (hh mi ss : Int) (frac l : List Nat),
      l = cstr g.na ++ (if g.squashDateTime then [] else [84])
            ++ timeText g.squashDateTime hh mi ss
            ++ frac ++ (if g.squashDateTime then [] else [90]) → l ≠ cstr g.na := by
    intro hh mi ss frac l hl he
    have h1 := congrArg List.length hl
    rw [he] at h1
    have h2 := timeText_ne_nil g.squashDateTime hh mi ss
    simp only [List.length_append] at h1
    omega
  refine ⟨?_, ?_, hnonfin, ?_⟩
  · intro hfin d0 d1 hout
    unfold INT32_MIN at d0
    unfold INT32_MAX at d1
    have hdate := appends_write_date_na g
      (wrap32 (posixFields (fp.floor x + (posixMicros (fp.frac7 x)).2)).1)
      (by rw [wrap32_id _ d0 d1]; exact hout)
    obtain ⟨hh, mi, ss, frac, a1, a2, a3, a4, a5, a6, a7, hs, h⟩ :=
      appends_writePOSIXct_any fp g col row x hcell hfin _ hdate
    refine ⟨hh, mi, ss, frac, a1, a2, a3, a4, a5, a6, a7, hs, h, fun hna => ?_⟩
    exact hlong hh mi ss frac _ rfl (Appends.unique h hna)
  · intro hfin d0 d1
    have hw := wrap32_id (posixFields (fp.floor x + (posixMicros (fp.frac7 x)).2)).1
      (by omega) (by omega)
    obtain ⟨Y, M, D, y0, y1, hv, hd, hdate⟩ := appends_write_date_text g
      (wrap32 (posixFields (fp.floor x + (posixMicros (fp.frac7 x)).2)).1)
      (by rw [hw]; exact d0) (by rw [hw]; exact d1)
    obtain ⟨hh, mi, ss, frac, a1, a2, a3, a4, a5, a6, a7, hs, h⟩ :=
      appends_writePOSIXct_any fp g col row x hcell hfin _ hdate
    rw [hw] at hd
    exact ⟨Y, M, D, hh, mi, ss, frac, y0, y1, hv, hd, a1, a2, a3, a4, a5, a6, a7, hs, h⟩
  · intro hdigit
    constructor
    · intro hna
      by_contra hfin
      have hfin : x.isfinite = true := by
        cases h : x.isfinite
        · exact absurd h hfin
        · rfl
      by_cases hdom : wrap32 (posixFields (fp.floor x + (posixMicros (fp.frac7 x)).2)).1
            < -719468
          ∨ wrap32 (posixFields (fp.floor x + (posixMicros (fp.frac7 x)).2)).1 > 2932896
      · have hdate := appends_write_date_na g _ hdom
        obtain ⟨hh, mi, ss, frac, -, -, -, -, -, -, -, -, h⟩ :=
          appends_writePOSIXct_any fp g col row x hcell hfin _ hdate
        exact hlong hh mi ss frac _ rfl (Appends.unique h hna)
      · obtain ⟨Y, M, D, -, -, -, -, hdate⟩ := appends_write_date_text g
          (wrap32 (posixFields (fp.floor x + (posixMicros (fp.frac7 x)).2)).1)
          (by omega) (by omega)
        obtain ⟨hh, mi, ss, frac, -, -, -, -, -, -, -, -, h⟩ :=
          appends_writePOSIXct_any fp g col row x hcell hfin _ hdate
        have e := Appends.unique hna h
        obtain ⟨c, t, hct, c1, c2⟩ := dateText_head g.squashDateTime Y M D
        rw [hct] at e
        simp only [List.cons_append] at e
        have := cstr_head g.na c _ e
        rw [this] at hdigit
        exact hdigit ⟨c1, c2⟩
    · exact hnonfin

/-- C31 at the first second of the year 10000 with `na = "NA"`, where the day 2932897 is
outside the domain and the field is `NAT00:00:00Z`, and at `-1e-20`, where the truncated
fraction is 10000000, the carry makes the second 0 and the field is
`1970-01-01T00:00:00Z`. -/
theorem writePOSIXct_day_outside_witness :
    (posixFields (fpFar.floor dFar)).1 = 2932897
      ∧ Appends (writePOSIXct fpFar g0 { doubles := fun _ => dFar } 0) (ascii "NAT00:00:00Z")
      ∧ (Appends (writePOSIXct fpFar g0 { doubles := fun _ => dFar } 0) (cstr g0.na)
          ↔ dFar.isfinite = false)
      ∧ fpTiny.frac7 dTiny = 10000000
      ∧ Appends (writePOSIXct fpTiny g0 { doubles := fun _ => dTiny } 0)
          (ascii "1970-01-01T00:00:00Z") := by
  have h := writePOSIXct_day_outside fpFar g0 { doubles := fun _ => dFar } 0 dFar rfl
  obtain ⟨hh, mi, ss, frac, -, -, -, -, -, -, -, -, ha, -⟩ :=
    h.1 (by decide) (by decide) (by decide) (by decide)
  have h2 := writePOSIXct_day_outside fpTiny g0 { doubles := fun _ => dTiny } 0 dTiny rfl
  obtain ⟨Y, M, D, hh2, mi2, ss2, frac2, -, -, -, -, -, -, -, -, -, -, -, -, hb⟩ :=
    h2.2.1 (by decide) (by decide) (by decide)
  exact ⟨by decide, appends_of_eval ha (by decide), h.2.2.2 (by decide), by decide,
    appends_of_eval hb (by decide)⟩

end Fwrite
